import Mathlib

/-!
# Polygonizer: grouping features by country polygons

A shallow embedding of `indexer/indexer_tool/polygonizer.hpp` (class
`feature::Polygonizer`, default configuration `PARALLEL_POLYGONIZER 1`) and
theorems about it.

Conventions of the embedding.

* A `kml::CountryPolygons const *` is the position of the pointed element in
  the storage of `m_countries`; the mutable field `m_index` is written through
  that position.
* A `vector` is a `List`; `push_back` appends at the end.
* Code that can block or whose behaviour is undefined in C++ returns
  `Except Fault _`.
* The geometric primitive `kml::Region::Contains` and the world map generator
  `m_worldMap` are collaborators outside this header; they are parameters
  `Contains` and `worldMap` of the definitions that use them.
* Tasks and the producer interleave at the granularity of one emission
  (`Step`); concurrent calls of `EmitFeature` interleave at the granularity of
  one statement, under the mutex (`EmitStep`).
* An exception thrown by a collaborator (the containment primitive, the call
  of an output bucket) is modelled where the exits of `run()` matter
  (`PolygonizerTask.runExit`): the result is the state in which the method is
  left and whether it is left by the exception.
-/

namespace m2

/-- Modelled from the spec: the point type `m2::PointD` (geometry/point2d.hpp is
not among the sources). Coordinates are only compared, never computed with; they
are integers here. -/
structure PointD where
  x : Int
  y : Int
deriving DecidableEq

/-- Modelled from the spec: the bounding rectangle type `m2.RectD`
(geometry/rect2d.hpp is not among the sources). -/
structure RectD where
  m_minX : Int
  m_minY : Int
  m_maxX : Int
  m_maxY : Int
deriving DecidableEq

/-- Modelled from the spec: the rectangle `m2.RectD(pt1, pt2)` spanned by two
points; `RectD(pt, pt)` is the degenerate point-sized rectangle. -/
def RectD.ofPoints (p1 p2 : PointD) : RectD :=
  { m_minX := min p1.x p2.x, m_minY := min p1.y p2.y,
    m_maxX := max p1.x p2.x, m_maxY := max p1.y p2.y }

/-- Modelled from the spec: two rectangles intersect when neither lies strictly
to one side of the other (closed rectangles). -/
def RectD.IsIntersect (a r : RectD) : Bool :=
  !(decide (a.m_maxX < r.m_minX) || decide (a.m_minX > r.m_maxX) ||
    decide (a.m_maxY < r.m_minY) || decide (a.m_minY > r.m_maxY))

end m2

namespace m4

/-- Modelled from the spec: the elements of a spatial collection (`m4::Tree`,
not among the sources) that a range query visits, in storage order, each with
its position in the storage: those whose bounding rectangle intersects `rect`.
The first argument gives the bounding rectangle of an element, the third the
position of the first element of the list. -/
def Tree.inRect {α : Type} (limit : α → m2.RectD) (rect : m2.RectD) : Nat → List α → List (Nat × α)
  | _, [] => []
  | k, v :: vs =>
    if rect.IsIntersect (limit v) then (k, v) :: Tree.inRect limit rect (k + 1) vs
    else Tree.inRect limit rect (k + 1) vs

/-- Modelled from the spec: `ForEachInRect(rect, toDo)` calls `toDo` on every
visited element, passed by reference (position and value); the state of the
functor is threaded through the calls. -/
def Tree.ForEachInRect {α σ : Type} (limit : α → m2.RectD) (tree : List α) (rect : m2.RectD)
    (toDo : σ → Nat → α → σ) (init : σ) : σ :=
  (Tree.inRect limit rect 0 tree).foldl (fun s e => toDo s e.1 e.2) init

end m4

namespace kml

/-- Modelled from the spec: one polygon boundary of a region (`kml::Region`),
with the bounding rectangle the boundary collection indexes it by. -/
structure Region where
  m_points : List m2.PointD
  m_rect : m2.RectD
deriving DecidableEq

/-- The boundary collection of a region (`kml::RegionsContainerT`). -/
abbrev RegionsContainerT := List Region

/-- Modelled from the spec: a named region of the catalog
(`kml::CountryPolygons`): its boundaries, its name, its bounding rectangle and
the mutable bucket index, `-1` while unassigned. -/
structure CountryPolygons where
  m_regions : RegionsContainerT
  m_name : String
  m_index : Int
  m_rect : m2.RectD
deriving DecidableEq

/-- The region catalog (`kml::CountriesContainerT`). -/
abbrev CountriesContainerT := List CountryPolygons

end kml

/-- Modelled from the spec: a feature (`FeatureBuilder1`): its limit rectangle
and its ordered sequence of true points. -/
structure FeatureBuilder1 where
  m_LimitRect : m2.RectD
  m_Geometry : List m2.PointD
deriving DecidableEq

/-- The limit rectangle of the feature. -/
def FeatureBuilder1.GetLimitRect (fb : FeatureBuilder1) : m2.RectD := fb.m_LimitRect

/-- Modelled from the spec: the scan of a point sequence by a functor that
answers, for each point, whether the scan goes on. -/
def FeatureBuilder1.scanPoints {σ : Type} (toDo : σ → m2.PointD → σ × Bool) : List m2.PointD → σ → σ
  | [], s => s
  | pt :: rest, s =>
    if (toDo s pt).2 then FeatureBuilder1.scanPoints toDo rest (toDo s pt).1
    else (toDo s pt).1

/-- Modelled from the spec: `ForEachTruePointRef(toDo)` passes the true points
of the feature to `toDo` in order and stops as soon as `toDo` returns false. -/
def FeatureBuilder1.ForEachTruePointRef {σ : Type} (fb : FeatureBuilder1)
    (toDo : σ → m2.PointD → σ × Bool) (init : σ) : σ :=
  FeatureBuilder1.scanPoints toDo fb.m_Geometry init

/-- Modelled from the spec: an output bucket (template parameter `FeatureOutT`):
the name it was created with and the features appended to it. -/
structure FeatureOutT where
  m_name : String
  m_features : List FeatureBuilder1
deriving DecidableEq

/-- Modelled from the spec: `new FeatureOutT(name, initData)`, an empty bucket. -/
def FeatureOutT.new (name : String) : FeatureOutT := { m_name := name, m_features := [] }

/-- Modelled from the spec: `bucket(fb)` appends the feature to the bucket. -/
def FeatureOutT.call (b : FeatureOutT) (fb : FeatureBuilder1) : FeatureOutT :=
  { b with m_features := b.m_features ++ [fb] }

namespace feature

/-- Ways in which a call does not return a state. -/
inductive Fault where
  /-- The caller waits in `QSemaphore::acquire()`: no permit is available. -/
  | blocked
  /-- A pointer or an index outside its container. -/
  | badAccess
deriving DecidableEq

/-- The functor `Polygonizer::PointChecker`. The field `m_tested` is a ghost
record of the calls of `rgn.Contains(point)` made so far, oldest first. -/
structure PointChecker where
  m_regions : kml.RegionsContainerT
  m_belongs : Bool
  m_tested : List (kml.Region × m2.PointD)

/-- Constructor `PointChecker(regions)`. -/
def PointChecker.new (regions : kml.RegionsContainerT) : PointChecker :=
  { m_regions := regions, m_belongs := false, m_tested := [] }

/-- Overload `void operator() (kml::Region const & rgn, value_type const & point)`. -/
def PointChecker.callRegion (Contains : kml.Region → m2.PointD → Bool) (self : PointChecker)
    (rgn : kml.Region) (point : m2.PointD) : PointChecker :=
  if !self.m_belongs then
    { self with m_belongs := Contains rgn point, m_tested := self.m_tested ++ [(rgn, point)] }
  else self

/-- Overload `bool operator()(m2::PointD const & pt)`: the functor after the
call and the returned value. -/
def PointChecker.callPoint (Contains : kml.Region → m2.PointD → Bool) (self : PointChecker)
    (pt : m2.PointD) : PointChecker × Bool :=
  let s := m4.Tree.ForEachInRect kml.Region.m_rect self.m_regions (m2.RectD.ofPoints pt pt)
    (fun s _ rgn => s.callRegion Contains rgn pt) self
  (s, !s.m_belongs)

/-- The task `Polygonizer::PolygonizerTask`; the back pointer `m_pPolygonizer`
is the state the task is run on. -/
structure PolygonizerTask where
  m_Countries : List Nat
  m_FB : FeatureBuilder1
deriving DecidableEq

/-- The functor `InsertCountriesPtr`: `m_vec.push_back(&c)`. -/
def InsertCountriesPtr.call (m_vec : List Nat) (addr : Nat) (_c : kml.CountryPolygons) : List Nat :=
  m_vec ++ [addr]

end feature

/-- The class `feature::Polygonizer`. `m_ThreadPoolSemaphore` is the number of
available permits; `m_ThreadPool` holds the started tasks that have not
completed, each with the value of the loop counter `i` of its `run()`;
`maxThreadCount` is `m_ThreadPool.maxThreadCount()`. -/
structure feature.Polygonizer where
  m_Buckets : List FeatureOutT
  m_Names : List String
  m_countries : kml.CountriesContainerT
  m_ThreadPool : List (feature.PolygonizerTask × Nat)
  m_ThreadPoolSemaphore : Nat
  maxThreadCount : Nat
deriving DecidableEq

namespace feature

/-- The constructor, given the result of `kml::LoadCountriesList`: `none` when
loading failed (the `CHECK` aborts), the loaded catalog otherwise. -/
def Polygonizer.new (loaded : Option kml.CountriesContainerT) (maxThreadCount : Nat) :
    Option Polygonizer :=
  match loaded with
  | none => none
  | some countries =>
    some { m_Buckets := [], m_Names := [], m_countries := countries, m_ThreadPool := [],
           m_ThreadPoolSemaphore := maxThreadCount * 4, maxThreadCount := maxThreadCount }

/-- Method `EmitFeature(country, fb)`. The bucket count is far below `2^31`, so
the conversion of `m_Buckets.size()-1` to `int` is exact. -/
def Polygonizer.EmitFeature (self : Polygonizer) (country : Nat) (fb : FeatureBuilder1) :
    Except Fault Polygonizer :=
  match self.m_countries[country]? with
  | none => .error .badAccess
  | some c =>
    let s1 : Polygonizer :=
      if c.m_index = -1 then
        { self with
          m_Names := self.m_Names ++ [c.m_name]
          m_Buckets := self.m_Buckets ++ [FeatureOutT.new c.m_name]
          m_countries := self.m_countries.set country
            { c with m_index := ((self.m_Buckets ++ [FeatureOutT.new c.m_name]).length : Int) - 1 } }
      else self
    match s1.m_countries[country]? with
    | none => .error .badAccess
    | some c1 =>
      if 0 ≤ c1.m_index then
        match s1.m_Buckets[c1.m_index.toNat]? with
        | none => .error .badAccess
        | some b => .ok { s1 with m_Buckets := s1.m_Buckets.set c1.m_index.toNat (b.call fb) }
      else .error .badAccess

/-- Method `Names()`. -/
def Polygonizer.Names (self : Polygonizer) : List String := self.m_Names

/-- The candidate list `vec` that `operator()` fills by
`m_countries.ForEachInRect(fb.GetLimitRect(), InsertCountriesPtr(vec))`. -/
def Polygonizer.candidates (self : Polygonizer) (fb : FeatureBuilder1) : List Nat :=
  m4.Tree.ForEachInRect kml.CountryPolygons.m_rect self.m_countries fb.GetLimitRect
    InsertCountriesPtr.call []

/-- Method `operator()(fb)`, the dispatch of one feature. -/
def Polygonizer.call (worldMap : FeatureBuilder1 → Bool) (self : Polygonizer)
    (fb : FeatureBuilder1) : Except Fault Polygonizer :=
  if worldMap fb then .ok self
  else
    let vec := self.candidates fb
    if vec.length = 1 then
      match vec[0]? with
      | none => .error .badAccess
      | some c => self.EmitFeature c fb
    else if self.m_ThreadPoolSemaphore = 0 then .error .blocked
    else
      .ok { self with
            m_ThreadPoolSemaphore := self.m_ThreadPoolSemaphore - 1
            m_ThreadPool := self.m_ThreadPool ++ [({ m_Countries := vec, m_FB := fb }, 0)] }

/-- The functor `doCheck` after `m_FB.ForEachTruePointRef(doCheck)`, for the
boundary collection `regions`. -/
def PolygonizerTask.check (Contains : kml.Region → m2.PointD → Bool)
    (regions : kml.RegionsContainerT) (fb : FeatureBuilder1) : PointChecker :=
  fb.ForEachTruePointRef (PointChecker.callPoint Contains) (PointChecker.new regions)

/-- One iteration of the loop of `PolygonizerTask::run`, for the candidate
`country = m_Countries[i]`. -/
def PolygonizerTask.body (Contains : kml.Region → m2.PointD → Bool) (pz : Polygonizer)
    (country : Nat) (fb : FeatureBuilder1) : Except Fault Polygonizer :=
  match pz.m_countries[country]? with
  | none => .error .badAccess
  | some c =>
    if (PolygonizerTask.check Contains c.m_regions fb).m_belongs then pz.EmitFeature country fb
    else .ok pz

/-- The loop of `PolygonizerTask::run` over the candidates still to evaluate. -/
def PolygonizerTask.loop (Contains : kml.Region → m2.PointD → Bool) (fb : FeatureBuilder1) :
    List Nat → Polygonizer → Except Fault Polygonizer
  | [], pz => .ok pz
  | c :: cs, pz =>
    match PolygonizerTask.body Contains pz c fb with
    | .error e => .error e
    | .ok pz1 => PolygonizerTask.loop Contains fb cs pz1

/-- The rest of `PolygonizerTask::run` from loop counter `i` on: the remaining
iterations, then the release of the permit. -/
def PolygonizerTask.runFrom (Contains : kml.Region → m2.PointD → Bool) (t : PolygonizerTask)
    (i : Nat) (pz : Polygonizer) : Except Fault Polygonizer :=
  match PolygonizerTask.loop Contains t.m_FB (t.m_Countries.drop i) pz with
  | .error e => .error e
  | .ok pz1 => .ok { pz1 with m_ThreadPoolSemaphore := pz1.m_ThreadPoolSemaphore + 1 }

/-- Method `PolygonizerTask::run()`. -/
def PolygonizerTask.run (Contains : kml.Region → m2.PointD → Bool) (t : PolygonizerTask)
    (pz : Polygonizer) : Except Fault Polygonizer :=
  t.runFrom Contains 0 pz

/-- The pool runs the given tasks to completion, one after the other. -/
def Polygonizer.drain (Contains : kml.Region → m2.PointD → Bool) :
    List (PolygonizerTask × Nat) → Polygonizer → Except Fault Polygonizer
  | [], pz => .ok pz
  | ti :: rest, pz =>
    match ti.1.runFrom Contains ti.2 pz with
    | .error e => .error e
    | .ok pz1 => Polygonizer.drain Contains rest pz1

/-- Method `Finish()`: `m_ThreadPool.waitForDone()` returns when every started
task has completed; here the pool completes them in the order they were
started. -/
def Polygonizer.Finish (Contains : kml.Region → m2.PointD → Bool) (self : Polygonizer) :
    Except Fault Polygonizer :=
  Polygonizer.drain Contains self.m_ThreadPool { self with m_ThreadPool := [] }

/-- One atomic step of the program: a dispatch by the producer, a direct call
of the public `EmitFeature`, one loop iteration of a started task (its only
effect on shared state is the emission, made under `m_EmitFeatureMutex`), or
the completion of a task whose loop is over (release of its permit). -/
inductive Step (Contains : kml.Region → m2.PointD → Bool) (worldMap : FeatureBuilder1 → Bool) :
    Polygonizer → Polygonizer → Prop
  | dispatch (s s1 : Polygonizer) (fb : FeatureBuilder1) :
      s.call worldMap fb = .ok s1 → Step Contains worldMap s s1
  | emit (s s1 : Polygonizer) (k : Nat) (fb : FeatureBuilder1) :
      s.EmitFeature k fb = .ok s1 → Step Contains worldMap s s1
  | iterate (s s1 : Polygonizer) (j : Nat) (t : PolygonizerTask) (i c : Nat) :
      s.m_ThreadPool[j]? = some (t, i) → t.m_Countries[i]? = some c →
      PolygonizerTask.body Contains s c t.m_FB = .ok s1 →
      Step Contains worldMap s { s1 with m_ThreadPool := s1.m_ThreadPool.set j (t, i + 1) }
  | complete (s : Polygonizer) (j : Nat) (t : PolygonizerTask) (i : Nat) :
      s.m_ThreadPool[j]? = some (t, i) → t.m_Countries.length ≤ i →
      Step Contains worldMap s
        { s with m_ThreadPool := s.m_ThreadPool.eraseIdx j
                 m_ThreadPoolSemaphore := s.m_ThreadPoolSemaphore + 1 }

/-- Executions: finite sequences of steps. -/
def Steps (Contains : kml.Region → m2.PointD → Bool) (worldMap : FeatureBuilder1 → Bool) :
    Polygonizer → Polygonizer → Prop :=
  Relation.ReflTransGen (Step Contains worldMap)

/-- The features held by the bucket of the region at position `k` of the
catalog; none while the region has no bucket. -/
def Polygonizer.bucketOf (self : Polygonizer) (k : Nat) : List FeatureBuilder1 :=
  match self.m_countries[k]? with
  | none => []
  | some c =>
    if c.m_index = -1 then []
    else
      match self.m_Buckets[c.m_index.toNat]? with
      | none => []
      | some b => b.m_features

/-- The ghost record of a functor is faithful: no test follows a successful
one, and `m_belongs` is the outcome of the last test. -/
def PointChecker.Sound (Contains : kml.Region → m2.PointD → Bool) (s : PointChecker) : Prop :=
  (∀ c ∈ s.m_tested.dropLast, Contains c.1 c.2 = false) ∧
  (s.m_belongs = false → ∀ c ∈ s.m_tested, Contains c.1 c.2 = false)

/-- Whether the point `p` lies in a boundary that `regions` reports for the
degenerate rectangle `[p, p]`. -/
def PointChecker.hit (Contains : kml.Region → m2.PointD → Bool) (regions : kml.RegionsContainerT)
    (p : m2.PointD) : Bool :=
  (m4.Tree.inRect kml.Region.m_rect (m2.RectD.ofPoints p p) 0 regions).any
    (fun e => Contains e.2 p)

/-- The immutable part of a region: everything but its bucket index. -/
def fixedPart (c : kml.CountryPolygons) : kml.CountryPolygons := { c with m_index := -1 }

/-- The region catalog without the bucket indices. -/
def Polygonizer.catalog (self : Polygonizer) : List kml.CountryPolygons :=
  self.m_countries.map fixedPart

/-- The registry invariant: names and buckets run in parallel; an assigned
index is the position of a bucket named after its region; two regions never
share an index; every bucket holds a feature and is the bucket of a region. -/
structure Polygonizer.Inv (pz : Polygonizer) : Prop where
  names : pz.m_Names = pz.m_Buckets.map FeatureOutT.m_name
  bound : ∀ (k : Nat) (c : kml.CountryPolygons), pz.m_countries[k]? = some c → c.m_index ≠ -1 →
    0 ≤ c.m_index ∧ ∃ b, pz.m_Buckets[c.m_index.toNat]? = some b ∧ b.m_name = c.m_name
  inj : ∀ (k1 k2 : Nat) (c1 c2 : kml.CountryPolygons), pz.m_countries[k1]? = some c1 → pz.m_countries[k2]? = some c2 →
    c1.m_index ≠ -1 → c1.m_index = c2.m_index → k1 = k2
  owner : ∀ (i : Nat) (b : FeatureOutT), pz.m_Buckets[i]? = some b →
    b.m_features ≠ [] ∧ ∃ (k : Nat) (c : kml.CountryPolygons),
      pz.m_countries[k]? = some c ∧ c.m_index = (i : Int)

/-- Whether the containment test of the task passes for the region at
position `k` of the catalog: the value of `doCheck.m_belongs` in `run()`. -/
def Polygonizer.passes (Contains : kml.Region → m2.PointD → Bool) (self : Polygonizer) (k : Nat)
    (fb : FeatureBuilder1) : Bool :=
  match self.m_countries[k]? with
  | none => false
  | some c => (PolygonizerTask.check Contains c.m_regions fb).m_belongs

/-- What no step changes: the catalog apart from the indices, the indices
already assigned, the names already listed and the size of the pool. -/
structure Polygonizer.Grows (pz pz1 : Polygonizer) : Prop where
  catalog : pz1.catalog = pz.catalog
  assigned : ∀ (j : Nat) (c : kml.CountryPolygons), pz.m_countries[j]? = some c →
    c.m_index ≠ -1 → pz1.m_countries[j]? = some c
  names : pz.m_Names <+: pz1.m_Names
  threads : pz1.maxThreadCount = pz.maxThreadCount

/-- The outcome of `kml::LoadCountriesList(prefix, m_countries, level)`: the
returned flag and what the call has left in `m_countries` (possibly a part of
the catalog when the flag is false). -/
structure LoadResult where
  ok : Bool
  countries : kml.CountriesContainerT

/-- The constructor with the call of the loader in its body:
`CHECK(kml::LoadCountriesList(...), ...)` aborts when the flag is false. -/
def Polygonizer.construct (r : LoadResult) (maxThreadCount : Nat) : Option Polygonizer :=
  Polygonizer.new (if r.ok then some r.countries else none) maxThreadCount

/-- One step of a worker thread of the pool: one loop iteration of a started
task, or the completion of a task whose loop is over (the release of its
permit). These are the steps `iterate` and `complete` of `Step`. -/
inductive TaskStep (Contains : kml.Region → m2.PointD → Bool) : Polygonizer → Polygonizer → Prop
  | iterate (s s1 : Polygonizer) (j : Nat) (t : PolygonizerTask) (i c : Nat) :
      s.m_ThreadPool[j]? = some (t, i) → t.m_Countries[i]? = some c →
      PolygonizerTask.body Contains s c t.m_FB = .ok s1 →
      TaskStep Contains s { s1 with m_ThreadPool := s1.m_ThreadPool.set j (t, i + 1) }
  | complete (s : Polygonizer) (j : Nat) (t : PolygonizerTask) (i : Nat) :
      s.m_ThreadPool[j]? = some (t, i) → t.m_Countries.length ≤ i →
      TaskStep Contains s
        { s with m_ThreadPool := s.m_ThreadPool.eraseIdx j
                 m_ThreadPoolSemaphore := s.m_ThreadPoolSemaphore + 1 }

/-- Progress of the worker threads: finite sequences of their steps, in any
interleaving of the started tasks. -/
def TaskSteps (Contains : kml.Region → m2.PointD → Bool) : Polygonizer → Polygonizer → Prop :=
  Relation.ReflTransGen (TaskStep Contains)

/-- The number of copies of the feature `g` that a started task, given with
the value of its loop counter, has still to emit to the region at position
`j`: one for each remaining iteration on `j` whose containment test passes,
when the feature of the task is `g`. -/
def Polygonizer.stillToEmit (Contains : kml.Region → m2.PointD → Bool) (self : Polygonizer)
    (j : Nat) (g : FeatureBuilder1) (ti : PolygonizerTask × Nat) : Nat :=
  if ti.1.m_FB = g then
    ((ti.1.m_Countries.drop ti.2).filter (fun c => self.passes Contains c g)).count j
  else 0

/-- The number of copies of `g` that the started tasks, all together, have
still to emit to the region at position `j`. -/
def Polygonizer.pendingCount (Contains : kml.Region → m2.PointD → Bool) (self : Polygonizer)
    (j : Nat) (g : FeatureBuilder1) : Nat :=
  (self.m_ThreadPool.map (self.stillToEmit Contains j g)).sum

/-- The number of copies of `g` that the dispatches made so far have assigned
to the region at position `j`: those its bucket holds and those the started
tasks have still to emit to it. -/
def Polygonizer.owed (Contains : kml.Region → m2.PointD → Bool) (self : Polygonizer)
    (j : Nat) (g : FeatureBuilder1) : Nat :=
  (self.bucketOf j).count g + self.pendingCount Contains j g

/-- The candidate pointers of every started task point into the catalog. -/
def Polygonizer.PoolValid (self : Polygonizer) : Prop :=
  ∀ ti ∈ self.m_ThreadPool, ∀ c ∈ ti.1.m_Countries, c < self.m_countries.length

/-- Method `EmitFeature(country, fb)` when the call `bucket(fb)` of the output
bucket can throw: `appendThrows b fb` tells whether the call on the bucket `b`
throws instead of appending. The result is the state in which the method is
left and whether it is left by the exception; the exception leaves the
statements before the call done. -/
def Polygonizer.EmitFeatureExit (appendThrows : FeatureOutT → FeatureBuilder1 → Bool)
    (self : Polygonizer) (country : Nat) (fb : FeatureBuilder1) :
    Except Fault (Polygonizer × Bool) :=
  match self.m_countries[country]? with
  | none => .error .badAccess
  | some c =>
    let s1 : Polygonizer :=
      if c.m_index = -1 then
        { self with
          m_Names := self.m_Names ++ [c.m_name]
          m_Buckets := self.m_Buckets ++ [FeatureOutT.new c.m_name]
          m_countries := self.m_countries.set country
            { c with m_index := ((self.m_Buckets ++ [FeatureOutT.new c.m_name]).length : Int) - 1 } }
      else self
    match s1.m_countries[country]? with
    | none => .error .badAccess
    | some c1 =>
      if 0 ≤ c1.m_index then
        match s1.m_Buckets[c1.m_index.toNat]? with
        | none => .error .badAccess
        | some b =>
          if appendThrows b fb then .ok (s1, true)
          else .ok ({ s1 with m_Buckets := s1.m_Buckets.set c1.m_index.toNat (b.call fb) }, false)
      else .error .badAccess

/-- One iteration of the loop of `PolygonizerTask::run` when the collaborators
can throw: `containsThrows rgn pt` tells whether the call `rgn.Contains(pt)`
throws instead of returning. The calls of `Contains` that the iteration makes
are those recorded by the functor, in order; the first of them that throws
ends the iteration. The result is the state in which the iteration is left and
whether it is left by an exception. -/
def PolygonizerTask.bodyExit (Contains : kml.Region → m2.PointD → Bool)
    (containsThrows : kml.Region → m2.PointD → Bool)
    (appendThrows : FeatureOutT → FeatureBuilder1 → Bool) (pz : Polygonizer)
    (country : Nat) (fb : FeatureBuilder1) : Except Fault (Polygonizer × Bool) :=
  match pz.m_countries[country]? with
  | none => .error .badAccess
  | some c =>
    if (PolygonizerTask.check Contains c.m_regions fb).m_tested.any
        (fun x => containsThrows x.1 x.2) then .ok (pz, true)
    else if (PolygonizerTask.check Contains c.m_regions fb).m_belongs then
      pz.EmitFeatureExit appendThrows country fb
    else .ok (pz, false)

/-- The loop of `PolygonizerTask::run` when the collaborators can throw: an
exception leaves the loop at once (`run()` has no handler). -/
def PolygonizerTask.loopExit (Contains : kml.Region → m2.PointD → Bool)
    (containsThrows : kml.Region → m2.PointD → Bool)
    (appendThrows : FeatureOutT → FeatureBuilder1 → Bool) (fb : FeatureBuilder1) :
    List Nat → Polygonizer → Except Fault (Polygonizer × Bool)
  | [], pz => .ok (pz, false)
  | c :: cs, pz =>
    match PolygonizerTask.bodyExit Contains containsThrows appendThrows pz c fb with
    | .error e => .error e
    | .ok (pz1, true) => .ok (pz1, true)
    | .ok (pz1, false) => PolygonizerTask.loopExit Contains containsThrows appendThrows fb cs pz1

/-- Method `PolygonizerTask::run()` when the collaborators can throw: the
state in which `run()` is left and whether it is left by an exception. An
exception raised in the loop propagates out of `run()`, past the statement
`m_ThreadPoolSemaphore.release()` that follows the loop. -/
def PolygonizerTask.runExit (Contains : kml.Region → m2.PointD → Bool)
    (containsThrows : kml.Region → m2.PointD → Bool)
    (appendThrows : FeatureOutT → FeatureBuilder1 → Bool) (t : PolygonizerTask)
    (pz : Polygonizer) : Except Fault (Polygonizer × Bool) :=
  match PolygonizerTask.loopExit Contains containsThrows appendThrows t.m_FB t.m_Countries pz with
  | .error e => .error e
  | .ok (pz1, true) => .ok (pz1, true)
  | .ok (pz1, false) =>
    .ok ({ pz1 with m_ThreadPoolSemaphore := pz1.m_ThreadPoolSemaphore + 1 }, false)

/-- A sequence of calls `EmitFeature(country, fb)`, made one after the other. -/
def Polygonizer.emitAll : List (Nat × FeatureBuilder1) → Polygonizer → Except Fault Polygonizer
  | [], pz => .ok pz
  | e :: es, pz =>
    match pz.EmitFeature e.1 e.2 with
    | .error x => .error x
    | .ok pz1 => Polygonizer.emitAll es pz1

/-- Method `operator()(fb)` as its `#else` branch spells it out: the task is
constructed and run at once by the caller. The class `PolygonizerTask`, the
pool and the semaphore are declared under `#if PARALLEL_POLYGONIZER` only; the
branch is read here with the loop of `run()`, the release of the permit
having no counterpart without a semaphore. -/
def Polygonizer.callInline (Contains : kml.Region → m2.PointD → Bool)
    (worldMap : FeatureBuilder1 → Bool) (self : Polygonizer) (fb : FeatureBuilder1) :
    Except Fault Polygonizer :=
  if worldMap fb then .ok self
  else
    let vec := self.candidates fb
    if vec.length = 1 then
      match vec[0]? with
      | none => .error .badAccess
      | some c => self.EmitFeature c fb
    else PolygonizerTask.loop Contains fb vec self

/-- The dispatch of a sequence of features, each one run to its end before the
next is dispatched. -/
def Polygonizer.callAll (Contains : kml.Region → m2.PointD → Bool)
    (worldMap : FeatureBuilder1 → Bool) : List FeatureBuilder1 → Polygonizer →
    Except Fault Polygonizer
  | [], pz => .ok pz
  | fb :: fbs, pz =>
    match pz.callInline Contains worldMap fb with
    | .error e => .error e
    | .ok pz1 => Polygonizer.callAll Contains worldMap fbs pz1

/-- The regions to which the dispatch of a feature emits, in the order of the
emissions: none for an absorbed feature, the candidate when there is one only,
the candidates whose containment test passes otherwise. -/
def Polygonizer.targets (Contains : kml.Region → m2.PointD → Bool)
    (worldMap : FeatureBuilder1 → Bool) (self : Polygonizer) (fb : FeatureBuilder1) : List Nat :=
  if worldMap fb then []
  else if (self.candidates fb).length = 1 then self.candidates fb
  else (self.candidates fb).filter (fun c => self.passes Contains c fb)

/-- The emissions of the dispatch of a sequence of features, in order. -/
def Polygonizer.emissions (Contains : kml.Region → m2.PointD → Bool)
    (worldMap : FeatureBuilder1 → Bool) (self : Polygonizer) :
    List FeatureBuilder1 → List (Nat × FeatureBuilder1)
  | [] => []
  | fb :: fbs =>
    (self.targets Contains worldMap fb).map (fun c => (c, fb))
      ++ Polygonizer.emissions Contains worldMap self fbs

/-- The elements of a list in the order of their first occurrence, those of
`seen` left out. -/
def firstSeen : List Nat → List Nat → List Nat
  | _, [] => []
  | seen, k :: ks => if k ∈ seen then firstSeen seen ks else k :: firstSeen (k :: seen) ks

/-- The name of the region at position `k` of the catalog. -/
def Polygonizer.nameOf (self : Polygonizer) (k : Nat) : String :=
  match self.m_countries[k]? with
  | none => ""
  | some c => c.m_name

/-- The places of a call of `EmitFeature` at which a thread can be preempted:
before the constructor of the `QMutexLocker`, before each statement of the
body, before the destructor of the locker, and after the call. -/
inductive EmitPc where
  /-- Before `QMutexLocker mutexLocker(&m_EmitFeatureMutex)`. -/
  | lock
  /-- Before `if (country->m_index == -1)`. -/
  | test
  /-- Before `m_Names.push_back(country->m_name)`. -/
  | pushName
  /-- Before `m_Buckets.push_back(new FeatureOutT(...))`. -/
  | pushBucket
  /-- Before `country->m_index = m_Buckets.size()-1`. -/
  | setIndex
  /-- Before `(*(m_Buckets[country->m_index]))(fb)`. -/
  | append
  /-- Before the destructor of the locker. -/
  | unlock
  /-- After the call. -/
  | done
deriving DecidableEq

/-- Whether the place is before one of the statements of the body. -/
def EmitPc.isStatement : EmitPc → Bool
  | .test | .pushName | .pushBucket | .setIndex | .append => true
  | _ => false

/-- Whether the place is between the constructor and the destructor of the
locker. -/
def EmitPc.inside : EmitPc → Bool
  | .test | .pushName | .pushBucket | .setIndex | .append | .unlock => true
  | _ => false

/-- The number of steps a call at this place still has to take. -/
def EmitPc.remaining : EmitPc → Nat
  | .lock => 7
  | .test => 6
  | .pushName => 5
  | .pushBucket => 4
  | .setIndex => 3
  | .append => 2
  | .unlock => 1
  | .done => 0

/-- One statement of the body of `EmitFeature(country, fb)`, executed at the
place `pc`: the place reached and the state after the statement. -/
def Polygonizer.emitStatement (self : Polygonizer) (country : Nat) (fb : FeatureBuilder1) :
    EmitPc → Except Fault (EmitPc × Polygonizer)
  | .test =>
    match self.m_countries[country]? with
    | none => .error .badAccess
    | some c => if c.m_index = -1 then .ok (.pushName, self) else .ok (.append, self)
  | .pushName =>
    match self.m_countries[country]? with
    | none => .error .badAccess
    | some c => .ok (.pushBucket, { self with m_Names := self.m_Names ++ [c.m_name] })
  | .pushBucket =>
    match self.m_countries[country]? with
    | none => .error .badAccess
    | some c =>
      .ok (.setIndex, { self with m_Buckets := self.m_Buckets ++ [FeatureOutT.new c.m_name] })
  | .setIndex =>
    match self.m_countries[country]? with
    | none => .error .badAccess
    | some c =>
      .ok (.append, { self with
        m_countries := self.m_countries.set country
          { c with m_index := (self.m_Buckets.length : Int) - 1 } })
  | .append =>
    match self.m_countries[country]? with
    | none => .error .badAccess
    | some c =>
      if 0 ≤ c.m_index then
        match self.m_Buckets[c.m_index.toNat]? with
        | none => .error .badAccess
        | some b =>
          .ok (.unlock, { self with m_Buckets := self.m_Buckets.set c.m_index.toNat (b.call fb) })
      else .error .badAccess
  | pc => .ok (pc, self)

/-- The statement at `pc` after the run `x`, when that run returned. -/
def Polygonizer.thenStatement (x : Except Fault Polygonizer) (country : Nat)
    (fb : FeatureBuilder1) (pc : EmitPc) : Except Fault Polygonizer :=
  match x with
  | .error e => .error e
  | .ok pz =>
    match pz.emitStatement country fb pc with
    | .error e => .error e
    | .ok r => .ok r.2

/-- The statements of the body of `EmitFeature(country, fb)` from the place
`pc` to the end of the body, run without preemption. -/
def Polygonizer.finishEmit (self : Polygonizer) (country : Nat) (fb : FeatureBuilder1) :
    EmitPc → Except Fault Polygonizer
  | .test =>
    match self.m_countries[country]? with
    | none => .error .badAccess
    | some c =>
      if c.m_index = -1 then
        Polygonizer.thenStatement (Polygonizer.thenStatement (Polygonizer.thenStatement
          (Polygonizer.thenStatement (.ok self) country fb .pushName) country fb .pushBucket)
          country fb .setIndex) country fb .append
      else Polygonizer.thenStatement (.ok self) country fb .append
  | .pushName =>
    Polygonizer.thenStatement (Polygonizer.thenStatement (Polygonizer.thenStatement
      (Polygonizer.thenStatement (.ok self) country fb .pushName) country fb .pushBucket)
      country fb .setIndex) country fb .append
  | .pushBucket =>
    Polygonizer.thenStatement (Polygonizer.thenStatement
      (Polygonizer.thenStatement (.ok self) country fb .pushBucket)
      country fb .setIndex) country fb .append
  | .setIndex =>
    Polygonizer.thenStatement (Polygonizer.thenStatement (.ok self) country fb .setIndex)
      country fb .append
  | .append => Polygonizer.thenStatement (.ok self) country fb .append
  | _ => .ok self

/-- A thread in a call `EmitFeature(country, fb)`, at the place `pc`. -/
structure EmitThread where
  country : Nat
  fb : FeatureBuilder1
  pc : EmitPc
deriving DecidableEq

/-- Threads that call `EmitFeature` concurrently: the polygonizer they share,
the holder of `m_EmitFeatureMutex` if it is locked, and the threads. -/
structure Concurrent where
  pz : Polygonizer
  m_EmitFeatureMutex : Option Nat
  threads : List EmitThread

/-- The start of the calls `calls`, one thread for each, on the polygonizer
`pz0`: the mutex is free and every thread is before its call. -/
def Concurrent.start (pz0 : Polygonizer) (calls : List (Nat × FeatureBuilder1)) : Concurrent :=
  { pz := pz0, m_EmitFeatureMutex := none,
    threads := calls.map (fun e => { country := e.1, fb := e.2, pc := .lock }) }

/-- One step of one thread. The constructor of the locker proceeds only when
the mutex is free and takes it; a statement of the body acts on the shared
polygonizer; the destructor of the locker frees the mutex. -/
inductive EmitStep : Concurrent → Concurrent → Prop
  | lock (s : Concurrent) (i : Nat) (th : EmitThread) :
      s.threads[i]? = some th → th.pc = .lock → s.m_EmitFeatureMutex = none →
      EmitStep s { s with m_EmitFeatureMutex := some i
                          threads := s.threads.set i { th with pc := .test } }
  | statement (s : Concurrent) (i : Nat) (th : EmitThread) (pc1 : EmitPc) (pz1 : Polygonizer) :
      s.threads[i]? = some th → th.pc.isStatement = true →
      s.pz.emitStatement th.country th.fb th.pc = .ok (pc1, pz1) →
      EmitStep s { s with pz := pz1, threads := s.threads.set i { th with pc := pc1 } }
  | unlock (s : Concurrent) (i : Nat) (th : EmitThread) :
      s.threads[i]? = some th → th.pc = .unlock →
      EmitStep s { s with m_EmitFeatureMutex := none
                          threads := s.threads.set i { th with pc := .done } }

/-- Interleavings: finite sequences of steps of the threads. -/
def EmitSteps : Concurrent → Concurrent → Prop := Relation.ReflTransGen EmitStep

/-- The calls of the threads that have not finished. -/
def pendingCalls : List EmitThread → List (Nat × FeatureBuilder1)
  | [] => []
  | th :: ths => if th.pc = .done then pendingCalls ths else (th.country, th.fb) :: pendingCalls ths

/-- The steps the threads still have to take, in all. -/
def remainingSteps (threads : List EmitThread) : Nat :=
  (threads.map (fun th => th.pc.remaining)).sum

/-- The invariant of the interleavings of the calls `calls` started on `pz0`:
the calls that have left the critical section, in the order `log` in which
they left it, have the effect of that sequence of calls, `base`; the other
calls are pending; a thread is between constructor and destructor of the
locker only while it holds the mutex, and then running the rest of the body on
the shared polygonizer gives what its call gives on `base`. -/
def Concurrent.Coherent (pz0 : Polygonizer) (calls : List (Nat × FeatureBuilder1))
    (s : Concurrent) : Prop :=
  ∃ (log : List (Nat × FeatureBuilder1)) (base : Polygonizer),
    pz0.emitAll log = .ok base ∧ base.Inv ∧ pz0.Grows base
    ∧ (log ++ pendingCalls s.threads).Perm calls
    ∧ (match s.m_EmitFeatureMutex with
        | none => s.pz = base ∧ ∀ th ∈ s.threads, th.pc = .lock ∨ th.pc = .done
        | some h =>
          ∃ th, s.threads[h]? = some th ∧ th.pc.inside = true
            ∧ s.pz.finishEmit th.country th.fb th.pc = base.EmitFeature th.country th.fb
            ∧ ∀ (j : Nat) (tj : EmitThread), s.threads[j]? = some tj → j ≠ h →
                tj.pc = .lock ∨ tj.pc = .done)

end feature

/-! ## A concrete scenario

Two overlapping regions `A` (rectangle `[0,0]-[10,10]`) and `B` (rectangle
`[8,8]-[20,20]`), each with one boundary that fills its rectangle, and three
features. -/

namespace Scenario

/-- A containment primitive for boundaries that fill their rectangle. -/
def inRectangle (rgn : kml.Region) (pt : m2.PointD) : Bool :=
  (m2.RectD.ofPoints pt pt).IsIntersect rgn.m_rect

/-- A world map generator that absorbs nothing. -/
def noWorld (_fb : FeatureBuilder1) : Bool := false

/-- A world map generator that absorbs everything. -/
def allWorld (_fb : FeatureBuilder1) : Bool := true

def regionA : kml.CountryPolygons :=
  { m_regions := [{ m_points := [], m_rect := ⟨0, 0, 10, 10⟩ }], m_name := "A", m_index := -1,
    m_rect := ⟨0, 0, 10, 10⟩ }

def regionB : kml.CountryPolygons :=
  { m_regions := [{ m_points := [], m_rect := ⟨8, 8, 20, 20⟩ }], m_name := "B", m_index := -1,
    m_rect := ⟨8, 8, 20, 20⟩ }

def countries : kml.CountriesContainerT := [regionA, regionB]

/-- Feature inside the rectangle of `A` only. -/
def featureX : FeatureBuilder1 := { m_LimitRect := ⟨1, 1, 2, 2⟩, m_Geometry := [⟨1, 1⟩, ⟨2, 2⟩] }

/-- Feature whose single true point lies in both regions. -/
def featureY : FeatureBuilder1 := { m_LimitRect := ⟨9, 9, 9, 9⟩, m_Geometry := [⟨9, 9⟩] }

/-- Feature that overlaps no region. -/
def featureW : FeatureBuilder1 := { m_LimitRect := ⟨30, 30, 31, 31⟩, m_Geometry := [⟨30, 30⟩] }

/-- The polygonizer constructed on the two regions, with one worker thread. -/
def start : feature.Polygonizer :=
  { m_Buckets := [], m_Names := [], m_countries := countries, m_ThreadPool := [],
    m_ThreadPoolSemaphore := 4, maxThreadCount := 1 }

/-- The state after the dispatch of `featureX`: the bucket of `A` exists. -/
def afterX : feature.Polygonizer :=
  { m_Buckets := [{ m_name := "A", m_features := [featureX] }], m_Names := ["A"],
    m_countries := [{ regionA with m_index := 0 }, regionB], m_ThreadPool := [],
    m_ThreadPoolSemaphore := 4, maxThreadCount := 1 }

/-- The state after a second dispatch of `featureX`. -/
def afterXX : feature.Polygonizer :=
  { m_Buckets := [{ m_name := "A", m_features := [featureX, featureX] }], m_Names := ["A"],
    m_countries := [{ regionA with m_index := 0 }, regionB], m_ThreadPool := [],
    m_ThreadPoolSemaphore := 4, maxThreadCount := 1 }

/-- The state after the dispatch of `featureY` from `start`: one permit taken,
one task queued. -/
def queuedY : feature.Polygonizer :=
  { m_Buckets := [], m_Names := [], m_countries := countries,
    m_ThreadPool := [({ m_Countries := [0, 1], m_FB := featureY }, 0)],
    m_ThreadPoolSemaphore := 3, maxThreadCount := 1 }

/-- Collaborators that never throw. -/
def neverThrows {α β : Type} (_a : α) (_b : β) : Bool := false

/-- A containment primitive that throws when it is asked about the point
`(9, 9)`. -/
def containsThrowsAtNine (_rgn : kml.Region) (pt : m2.PointD) : Bool := decide (pt = ⟨9, 9⟩)

/-- An output bucket whose call throws for the bucket named `B`. -/
def appendThrowsInB (b : FeatureOutT) (_fb : FeatureBuilder1) : Bool := decide (b.m_name = "B")

/-- The state in which the task of `featureY`, started on `queuedY`, is left
by the exception of the bucket `B`: the emission to `A` is done, the bucket of
`B` is created and empty. -/
def thrownInB : feature.Polygonizer :=
  { m_Buckets := [{ m_name := "A", m_features := [featureY] }, { m_name := "B", m_features := [] }],
    m_Names := ["A", "B"],
    m_countries := [{ regionA with m_index := 0 }, { regionB with m_index := 1 }],
    m_ThreadPool := [({ m_Countries := [0, 1], m_FB := featureY }, 0)],
    m_ThreadPoolSemaphore := 3, maxThreadCount := 1 }

/-- Three concurrent calls of `EmitFeature`, two of them for the region `B`,
which has no bucket yet. -/
def emitCalls : List (Nat × FeatureBuilder1) := [(1, featureY), (1, featureX), (0, featureY)]

/-- The three calls started on `afterX`, after the second thread has taken the
mutex. -/
def lockedBySecond : feature.Concurrent :=
  { pz := afterX, m_EmitFeatureMutex := some 1,
    threads := [{ country := 1, fb := featureY, pc := .lock },
                { country := 1, fb := featureX, pc := .test },
                { country := 0, fb := featureY, pc := .lock }] }

end Scenario

namespace feature

/-! ## The containment tester -/

theorem PointChecker.callRegion_belongs (Contains : kml.Region → m2.PointD → Bool)
    (s : PointChecker) (rgn : kml.Region) (pt : m2.PointD) :
    (s.callRegion Contains rgn pt).m_belongs = (s.m_belongs || Contains rgn pt) := by
  unfold PointChecker.callRegion
  cases h : s.m_belongs <;> simp [h]

theorem PointChecker.sound_new (Contains : kml.Region → m2.PointD → Bool)
    (regions : kml.RegionsContainerT) : (PointChecker.new regions).Sound Contains := by
  constructor <;> simp [PointChecker.new]

theorem PointChecker.sound_callRegion (Contains : kml.Region → m2.PointD → Bool)
    (s : PointChecker) (rgn : kml.Region) (pt : m2.PointD) (hs : s.Sound Contains) :
    (s.callRegion Contains rgn pt).Sound Contains := by
  unfold PointChecker.callRegion
  cases hb : s.m_belongs
  · have hall := hs.2 hb
    refine ⟨?_, ?_⟩
    · intro c hc
      simp only [Bool.not_false, if_true, List.dropLast_concat] at hc
      exact hall c hc
    · intro hfalse c hc
      simp only [Bool.not_false, if_true] at hfalse hc
      rcases List.mem_append.1 hc with h | h
      · exact hall c h
      · have : c = (rgn, pt) := by simpa using h
        subst this
        exact hfalse
  · simpa using hs

/-- The functor after the visit of the boundaries in `l` for the point `pt`. -/
theorem PointChecker.foldl_callRegion (Contains : kml.Region → m2.PointD → Bool) (pt : m2.PointD)
    (l : List (Nat × kml.Region)) (s : PointChecker) :
    (l.foldl (fun s e => PointChecker.callRegion Contains s e.2 pt) s).m_belongs
        = (s.m_belongs || l.any (fun e => Contains e.2 pt))
    ∧ (l.foldl (fun s e => PointChecker.callRegion Contains s e.2 pt) s).m_regions = s.m_regions
    ∧ (s.Sound Contains →
        (l.foldl (fun s e => PointChecker.callRegion Contains s e.2 pt) s).Sound Contains) := by
  induction l generalizing s with
  | nil => simp
  | cons e es ih =>
    obtain ⟨h1, h2, h3⟩ := ih (s.callRegion Contains e.2 pt)
    refine ⟨?_, ?_, ?_⟩
    · simp only [List.foldl_cons, List.any_cons]
      rw [h1, PointChecker.callRegion_belongs, Bool.or_assoc]
    · simp only [List.foldl_cons]
      rw [h2]
      unfold PointChecker.callRegion
      split <;> rfl
    · intro hs
      exact h3 (PointChecker.sound_callRegion Contains s e.2 pt hs)

theorem PointChecker.callPoint_spec (Contains : kml.Region → m2.PointD → Bool)
    (s : PointChecker) (pt : m2.PointD) :
    (s.callPoint Contains pt).1.m_belongs = (s.m_belongs || PointChecker.hit Contains s.m_regions pt)
    ∧ (s.callPoint Contains pt).1.m_regions = s.m_regions
    ∧ (s.callPoint Contains pt).2 = !(s.callPoint Contains pt).1.m_belongs
    ∧ (s.Sound Contains → (s.callPoint Contains pt).1.Sound Contains) := by
  obtain ⟨h1, h2, h3⟩ := PointChecker.foldl_callRegion Contains pt
    (m4.Tree.inRect kml.Region.m_rect (m2.RectD.ofPoints pt pt) 0 s.m_regions) s
  exact ⟨h1, h2, rfl, h3⟩

theorem PointChecker.scanPoints_spec (Contains : kml.Region → m2.PointD → Bool)
    (pts : List m2.PointD) (s : PointChecker) :
    (FeatureBuilder1.scanPoints (PointChecker.callPoint Contains) pts s).m_belongs
        = (s.m_belongs || pts.any (PointChecker.hit Contains s.m_regions))
    ∧ (s.Sound Contains →
        (FeatureBuilder1.scanPoints (PointChecker.callPoint Contains) pts s).Sound Contains) := by
  induction pts generalizing s with
  | nil => simp [FeatureBuilder1.scanPoints]
  | cons pt rest ih =>
    obtain ⟨h1, h2, h3, h4⟩ := PointChecker.callPoint_spec Contains s pt
    obtain ⟨i1, i2⟩ := ih (s.callPoint Contains pt).1
    unfold FeatureBuilder1.scanPoints
    cases hb : (s.callPoint Contains pt).1.m_belongs
    · have hc : (s.callPoint Contains pt).2 = true := by rw [h3, hb]; rfl
      simp only [hc, if_true]
      refine ⟨?_, fun hs => i2 (h4 hs)⟩
      rw [i1, h2, hb, List.any_cons, ← Bool.or_assoc, ← h1, hb]
    · have hc : (s.callPoint Contains pt).2 = false := by rw [h3, hb]; rfl
      simp only [hc, Bool.false_eq_true, if_false]
      refine ⟨?_, h4⟩
      rw [hb, List.any_cons, ← Bool.or_assoc, ← h1, hb]
      rfl

theorem PointChecker.fullScan_spec (Contains : kml.Region → m2.PointD → Bool)
    (pts : List m2.PointD) (s : PointChecker) :
    (pts.foldl (fun s p => (PointChecker.callPoint Contains s p).1) s).m_belongs
        = (s.m_belongs || pts.any (PointChecker.hit Contains s.m_regions)) := by
  induction pts generalizing s with
  | nil => simp
  | cons pt rest ih =>
    obtain ⟨h1, h2, -, -⟩ := PointChecker.callPoint_spec Contains s pt
    simp only [List.foldl_cons, List.any_cons]
    rw [ih, h1, h2, Bool.or_assoc]

/-- The answer of the containment tester, in closed form. -/
theorem PolygonizerTask.check_belongs (Contains : kml.Region → m2.PointD → Bool)
    (regions : kml.RegionsContainerT) (fb : FeatureBuilder1) :
    (PolygonizerTask.check Contains regions fb).m_belongs
      = fb.m_Geometry.any (PointChecker.hit Contains regions) := by
  unfold PolygonizerTask.check FeatureBuilder1.ForEachTruePointRef
  rw [(PointChecker.scanPoints_spec Contains fb.m_Geometry (PointChecker.new regions)).1]
  simp [PointChecker.new]

/-- Claim C10. The containment tester answers true exactly when some true
point lies in a boundary reported for the degenerate rectangle of that point;
the per-point callback asks the scan to stop exactly when a match has been
found; no `Contains` test follows a successful one; the answer is that of a
scan of all points; and it is false for a feature without true points. -/
theorem C10_containment_tester (Contains : kml.Region → m2.PointD → Bool)
    (regions : kml.RegionsContainerT) (fb : FeatureBuilder1) :
    ((PolygonizerTask.check Contains regions fb).m_belongs = true ↔
      ∃ p ∈ fb.m_Geometry,
        ∃ e ∈ m4.Tree.inRect kml.Region.m_rect (m2.RectD.ofPoints p p) 0 regions,
          Contains e.2 p = true)
    ∧ (∀ (s : PointChecker) (pt : m2.PointD),
        (s.callPoint Contains pt).2 = false ↔ (s.callPoint Contains pt).1.m_belongs = true)
    ∧ (∀ c ∈ (PolygonizerTask.check Contains regions fb).m_tested.dropLast,
        Contains c.1 c.2 = false)
    ∧ (PolygonizerTask.check Contains regions fb).m_belongs
        = (fb.m_Geometry.foldl (fun s p => (PointChecker.callPoint Contains s p).1)
            (PointChecker.new regions)).m_belongs
    ∧ (PolygonizerTask.check Contains regions { fb with m_Geometry := [] }).m_belongs = false := by
  refine ⟨?_, ?_, ?_, ?_, ?_⟩
  · rw [PolygonizerTask.check_belongs]
    simp [PointChecker.hit]
  · intro s pt
    rw [(PointChecker.callPoint_spec Contains s pt).2.2.1]
    cases (s.callPoint Contains pt).1.m_belongs <;> simp
  · exact ((PointChecker.scanPoints_spec Contains fb.m_Geometry (PointChecker.new regions)).2
      (PointChecker.sound_new Contains regions)).1
  · rw [PolygonizerTask.check_belongs, PointChecker.fullScan_spec]
    simp [PointChecker.new]
  · rw [PolygonizerTask.check_belongs]
    rfl

end feature

namespace feature

/-! ## The bucket registry -/

theorem Polygonizer.EmitFeature_unassigned (p : Polygonizer) (k : Nat) (fb : FeatureBuilder1)
    (c : kml.CountryPolygons) (hk : p.m_countries[k]? = some c) (hc : c.m_index = -1) :
    p.EmitFeature k fb = .ok
      { p with
        m_Names := p.m_Names ++ [c.m_name]
        m_Buckets := p.m_Buckets ++ [{ m_name := c.m_name, m_features := [fb] }]
        m_countries := p.m_countries.set k { c with m_index := (p.m_Buckets.length : Int) } } := by
  have hlt : k < p.m_countries.length := (List.getElem?_eq_some.1 hk).1
  have hidx : ((p.m_Buckets ++ [FeatureOutT.new c.m_name]).length : Int) - 1
      = (p.m_Buckets.length : Int) := by
    simp
  unfold Polygonizer.EmitFeature
  simp only [hk, hc, if_true, hidx, List.getElem?_set_self hlt, Int.toNat_ofNat,
    Int.ofNat_zero_le, List.getElem?_concat_length]
  simp [FeatureOutT.call, FeatureOutT.new]

theorem Polygonizer.EmitFeature_assigned (p : Polygonizer) (k : Nat) (fb : FeatureBuilder1)
    (c : kml.CountryPolygons) (b : FeatureOutT) (hk : p.m_countries[k]? = some c)
    (hc : c.m_index ≠ -1) (h0 : 0 ≤ c.m_index) (hb : p.m_Buckets[c.m_index.toNat]? = some b) :
    p.EmitFeature k fb = .ok
      { p with m_Buckets := p.m_Buckets.set c.m_index.toNat (b.call fb) } := by
  unfold Polygonizer.EmitFeature
  simp only [hk, hc, if_false, h0, if_true, hb]

/-- The two ways in which `EmitFeature` returns a state. -/
theorem Polygonizer.EmitFeature_ok_cases (p p1 : Polygonizer) (k : Nat) (fb : FeatureBuilder1)
    (h : p.EmitFeature k fb = .ok p1) :
    ∃ c, p.m_countries[k]? = some c ∧
      ((c.m_index = -1 ∧ p1 =
          { p with
            m_Names := p.m_Names ++ [c.m_name]
            m_Buckets := p.m_Buckets ++ [{ m_name := c.m_name, m_features := [fb] }]
            m_countries := p.m_countries.set k { c with m_index := (p.m_Buckets.length : Int) } })
       ∨ (c.m_index ≠ -1 ∧ 0 ≤ c.m_index ∧ ∃ b, p.m_Buckets[c.m_index.toNat]? = some b ∧
            p1 = { p with m_Buckets := p.m_Buckets.set c.m_index.toNat (b.call fb) })) := by
  cases hk : p.m_countries[k]? with
  | none => simp [Polygonizer.EmitFeature, hk] at h
  | some c =>
    refine ⟨c, rfl, ?_⟩
    by_cases hc : c.m_index = -1
    · left
      rw [Polygonizer.EmitFeature_unassigned p k fb c hk hc] at h
      exact ⟨hc, (Except.ok.inj h).symm⟩
    · right
      by_cases h0 : 0 ≤ c.m_index
      · cases hb : p.m_Buckets[c.m_index.toNat]? with
        | none => simp [Polygonizer.EmitFeature, hk, hc, h0, hb] at h
        | some b =>
          rw [Polygonizer.EmitFeature_assigned p k fb c b hk hc h0 hb] at h
          exact ⟨hc, h0, b, rfl, (Except.ok.inj h).symm⟩
      · simp [Polygonizer.EmitFeature, hk, hc, h0] at h

end feature

namespace feature

theorem getElem?_append_of_some {α : Type} {l l1 : List α} {i : Nat} {a : α}
    (h : l[i]? = some a) : (l ++ l1)[i]? = some a := by
  rw [List.getElem?_append_left (List.getElem?_eq_some.1 h).1]
  exact h

/-- What `EmitFeature` leaves alone, whatever the state. -/
theorem Polygonizer.EmitFeature_frame (p p1 : Polygonizer) (k : Nat) (fb : FeatureBuilder1)
    (h : p.EmitFeature k fb = .ok p1) :
    p1.m_ThreadPool = p.m_ThreadPool ∧ p1.m_ThreadPoolSemaphore = p.m_ThreadPoolSemaphore
    ∧ p1.maxThreadCount = p.maxThreadCount ∧ p1.catalog = p.catalog
    ∧ p1.m_countries.length = p.m_countries.length
    ∧ (∀ (j : Nat) (c : kml.CountryPolygons), p.m_countries[j]? = some c → c.m_index ≠ -1 →
        p1.m_countries[j]? = some c)
    ∧ p.m_Names <+: p1.m_Names := by
  obtain ⟨c, hk, hcase⟩ := Polygonizer.EmitFeature_ok_cases p p1 k fb h
  rcases hcase with ⟨hc, rfl⟩ | ⟨hc, h0, b, hb, rfl⟩
  · refine ⟨rfl, rfl, rfl, ?_, by simp, ?_, by simp⟩
    · simp only [Polygonizer.catalog, List.map_set]
      apply List.ext_getElem?
      intro n
      by_cases hn : k = n
      · subst hn
        rw [List.getElem?_set_self (by simpa using (List.getElem?_eq_some.1 hk).1)]
        simp [hk, fixedPart]
      · rw [List.getElem?_set_ne hn]
    · intro j cj hj hcj
      have hjk : k ≠ j := by
        rintro rfl
        rw [hk] at hj
        exact hcj ((Option.some.inj hj) ▸ hc)
      simp only []
      rw [List.getElem?_set_ne hjk]
      exact hj
  · exact ⟨rfl, rfl, rfl, rfl, rfl, fun j cj hj _ => hj, by simp⟩

/-- The registry invariant is kept by `EmitFeature`, which appends the feature
to the bucket of the region and touches no other bucket. -/
theorem Polygonizer.EmitFeature_inv (p p1 : Polygonizer) (k : Nat) (fb : FeatureBuilder1)
    (hinv : p.Inv) (h : p.EmitFeature k fb = .ok p1) :
    p1.Inv ∧ ∀ j, p1.bucketOf j = if j = k then p.bucketOf k ++ [fb] else p.bucketOf j := by
  obtain ⟨c, hk, hcase⟩ := Polygonizer.EmitFeature_ok_cases p p1 k fb h
  have hklt : k < p.m_countries.length := (List.getElem?_eq_some.1 hk).1
  rcases hcase with ⟨hc, rfl⟩ | ⟨hc, h0, b, hb, rfl⟩
  · -- a new bucket
    refine ⟨⟨?_, ?_, ?_, ?_⟩, ?_⟩
    · simp [hinv.names]
    · intro k1 c1 hk1 hc1
      simp only [] at hk1 ⊢
      by_cases hkk : k = k1
      · subst hkk
        rw [List.getElem?_set_self hklt] at hk1
        have := Option.some.inj hk1
        subst this
        refine ⟨by simp, ?_⟩
        simp only [Int.toNat_ofNat, List.getElem?_concat_length]
        exact ⟨_, rfl, rfl⟩
      · rw [List.getElem?_set_ne hkk] at hk1
        obtain ⟨h0, b, hb, hn⟩ := hinv.bound k1 c1 hk1 hc1
        exact ⟨h0, b, getElem?_append_of_some hb, hn⟩
    · intro k1 k2 c1 c2 hk1 hk2 hc1 he
      simp only [] at hk1 hk2
      by_cases hkk1 : k = k1
      · by_cases hkk2 : k = k2
        · exact hkk1.symm.trans hkk2
        · exfalso
          subst hkk1
          rw [List.getElem?_set_self hklt] at hk1
          rw [List.getElem?_set_ne hkk2] at hk2
          have h1 := Option.some.inj hk1
          subst h1
          simp only [] at he hc1
          obtain ⟨-, b, hb, -⟩ := hinv.bound k2 c2 hk2 (by rw [← he]; exact hc1)
          rw [← he] at hb
          simp only [Int.toNat_ofNat] at hb
          have := (List.getElem?_eq_some.1 hb).1
          omega
      · rw [List.getElem?_set_ne hkk1] at hk1
        by_cases hkk2 : k = k2
        · exfalso
          subst hkk2
          rw [List.getElem?_set_self hklt] at hk2
          have h2 := Option.some.inj hk2
          subst h2
          simp only [] at he
          obtain ⟨-, b, hb, -⟩ := hinv.bound k1 c1 hk1 hc1
          rw [he] at hb
          simp only [Int.toNat_ofNat] at hb
          have := (List.getElem?_eq_some.1 hb).1
          omega
        · rw [List.getElem?_set_ne hkk2] at hk2
          exact hinv.inj k1 k2 c1 c2 hk1 hk2 hc1 he
    · intro i b hb
      simp only [] at hb ⊢
      by_cases hi : i < p.m_Buckets.length
      · rw [List.getElem?_append_left hi] at hb
        obtain ⟨hne, k0, c0, hk0, hc0⟩ := hinv.owner i b hb
        refine ⟨hne, k0, c0, ?_, hc0⟩
        have hkk : k ≠ k0 := by
          rintro rfl
          rw [hk] at hk0
          have := Option.some.inj hk0
          subst this
          rw [hc] at hc0
          omega
        rw [List.getElem?_set_ne hkk]
        exact hk0
      · have hlen := (List.getElem?_eq_some.1 hb).1
        simp only [List.length_append, List.length_singleton] at hlen
        have hi2 : i = p.m_Buckets.length := by omega
        subst hi2
        rw [List.getElem?_concat_length] at hb
        have := Option.some.inj hb
        subst this
        refine ⟨by simp, k, _, List.getElem?_set_self hklt, rfl⟩
    · intro j
      by_cases hjk : j = k
      · subst hjk
        simp only [if_true]
        have hold : p.bucketOf j = [] := by simp [Polygonizer.bucketOf, hk, hc]
        rw [hold]
        simp only [Polygonizer.bucketOf, List.getElem?_set_self hklt]
        have hne : ((p.m_Buckets.length : Nat) : Int) ≠ -1 := by omega
        simp only [hne, if_false, Int.toNat_ofNat, List.getElem?_concat_length, List.nil_append]
      · simp only [hjk, if_false]
        simp only [Polygonizer.bucketOf]
        rw [List.getElem?_set_ne (Ne.symm hjk)]
        cases hj : p.m_countries[j]? with
        | none => rfl
        | some cj =>
          simp only []
          by_cases hcj : cj.m_index = -1
          · simp [hcj]
          · obtain ⟨-, b, hb, -⟩ := hinv.bound j cj hj hcj
            simp only [hcj, if_false, getElem?_append_of_some hb, hb]
  · -- an existing bucket
    have hilt : c.m_index.toNat < p.m_Buckets.length := (List.getElem?_eq_some.1 hb).1
    refine ⟨⟨?_, ?_, ?_, ?_⟩, ?_⟩
    · simp only [List.map_set]
      rw [hinv.names]
      apply List.ext_getElem?
      intro n
      by_cases hn : c.m_index.toNat = n
      · subst hn
        rw [List.getElem?_set_self (by simpa using hilt)]
        simp [hb, FeatureOutT.call]
      · rw [List.getElem?_set_ne hn]
    · intro k1 c1 hk1 hc1
      obtain ⟨h01, b1, hb1, hn1⟩ := hinv.bound k1 c1 hk1 hc1
      refine ⟨h01, ?_⟩
      simp only []
      by_cases hii : c.m_index.toNat = c1.m_index.toNat
      · rw [← hii, List.getElem?_set_self hilt]
        refine ⟨_, rfl, ?_⟩
        rw [← hii, hb] at hb1
        have := Option.some.inj hb1
        subst this
        simpa [FeatureOutT.call] using hn1
      · rw [List.getElem?_set_ne hii]
        exact ⟨b1, hb1, hn1⟩
    · exact hinv.inj
    · intro i b1 hb1
      simp only [] at hb1 ⊢
      by_cases hii : c.m_index.toNat = i
      · subst hii
        rw [List.getElem?_set_self hilt] at hb1
        have := Option.some.inj hb1
        subst this
        exact ⟨by simp [FeatureOutT.call], (hinv.owner _ b hb).2⟩
      · rw [List.getElem?_set_ne hii] at hb1
        exact hinv.owner i b1 hb1
    · intro j
      by_cases hjk : j = k
      · subst hjk
        simp only [if_true]
        simp only [Polygonizer.bucketOf, hk, hc, if_false, hb, List.getElem?_set_self hilt,
          FeatureOutT.call]
      · simp only [hjk, if_false]
        simp only [Polygonizer.bucketOf]
        cases hj : p.m_countries[j]? with
        | none => rfl
        | some cj =>
          simp only []
          by_cases hcj : cj.m_index = -1
          · simp [hcj]
          · obtain ⟨h0j, -⟩ := hinv.bound j cj hj hcj
            have hne : c.m_index.toNat ≠ cj.m_index.toNat := by
              intro he
              have : c.m_index = cj.m_index := by omega
              exact hjk (hinv.inj k j c cj hk hj hc this).symm
            simp only [hcj, if_false, List.getElem?_set_ne hne]

/-- On a state that satisfies the registry invariant `EmitFeature` returns,
for every region of the catalog. -/
theorem Polygonizer.EmitFeature_total (p : Polygonizer) (k : Nat) (fb : FeatureBuilder1)
    (hinv : p.Inv) (hk : k < p.m_countries.length) : ∃ p1, p.EmitFeature k fb = .ok p1 := by
  have hk1 : p.m_countries[k]? = some p.m_countries[k] := List.getElem?_eq_getElem hk
  by_cases hc : p.m_countries[k].m_index = -1
  · exact ⟨_, Polygonizer.EmitFeature_unassigned p k fb _ hk1 hc⟩
  · obtain ⟨h0, b, hb, -⟩ := hinv.bound k _ hk1 hc
    exact ⟨_, Polygonizer.EmitFeature_assigned p k fb _ b hk1 hc h0 hb⟩

end feature

namespace feature

/-! ## The candidate query -/

theorem inRect_mem {α : Type} (limit : α → m2.RectD) (rect : m2.RectD) (t : List α) (k j : Nat)
    (v : α) :
    (j, v) ∈ m4.Tree.inRect limit rect k t ↔
      k ≤ j ∧ t[j - k]? = some v ∧ rect.IsIntersect (limit v) = true := by
  induction t generalizing k with
  | nil => simp [m4.Tree.inRect]
  | cons a as ih =>
    unfold m4.Tree.inRect
    by_cases ha : rect.IsIntersect (limit a) = true
    · simp only [ha, if_true, List.mem_cons, Prod.mk.injEq, ih]
      constructor
      · rintro (⟨rfl, rfl⟩ | ⟨h1, h2, h3⟩)
        · simp [ha]
        · refine ⟨by omega, ?_, h3⟩
          have : j - k = (j - (k + 1)) + 1 := by omega
          rw [this, List.getElem?_cons_succ]
          exact h2
      · rintro ⟨h1, h2, h3⟩
        by_cases hjk : j = k
        · left
          subst hjk
          simp only [Nat.sub_self, List.getElem?_cons_zero, Option.some.injEq] at h2
          exact ⟨rfl, h2.symm⟩
        · right
          refine ⟨by omega, ?_, h3⟩
          have : j - k = (j - (k + 1)) + 1 := by omega
          rw [this, List.getElem?_cons_succ] at h2
          exact h2
    · simp only [ha, Bool.false_eq_true, if_false, ih]
      constructor
      · rintro ⟨h1, h2, h3⟩
        refine ⟨by omega, ?_, h3⟩
        have : j - k = (j - (k + 1)) + 1 := by omega
        rw [this, List.getElem?_cons_succ]
        exact h2
      · rintro ⟨h1, h2, h3⟩
        by_cases hjk : j = k
        · subst hjk
          simp only [Nat.sub_self, List.getElem?_cons_zero, Option.some.injEq] at h2
          subst h2
          exact absurd h3 ha
        · refine ⟨by omega, ?_, h3⟩
          have : j - k = (j - (k + 1)) + 1 := by omega
          rw [this, List.getElem?_cons_succ] at h2
          exact h2

theorem inRect_sorted {α : Type} (limit : α → m2.RectD) (rect : m2.RectD) (t : List α) (k : Nat) :
    ((m4.Tree.inRect limit rect k t).map Prod.fst).Pairwise (· < ·) := by
  induction t generalizing k with
  | nil => simp [m4.Tree.inRect]
  | cons a as ih =>
    unfold m4.Tree.inRect
    split
    · simp only [List.map_cons, List.pairwise_cons]
      refine ⟨?_, ih (k + 1)⟩
      intro j hj
      obtain ⟨e, he, rfl⟩ := List.mem_map.1 hj
      have := (inRect_mem limit rect as (k + 1) e.1 e.2).1 he
      omega
    · exact ih (k + 1)

theorem inRect_fst_map {α β : Type} (f : α → β) (limit : β → m2.RectD) (rect : m2.RectD)
    (t : List α) (k : Nat) :
    (m4.Tree.inRect (fun a => limit (f a)) rect k t).map Prod.fst
      = (m4.Tree.inRect limit rect k (t.map f)).map Prod.fst := by
  induction t generalizing k with
  | nil => rfl
  | cons a as ih =>
    simp only [m4.Tree.inRect, List.map_cons]
    split <;> simp [ih]

theorem foldl_insertCountriesPtr (l : List (Nat × kml.CountryPolygons)) (acc : List Nat) :
    l.foldl (fun s e => InsertCountriesPtr.call s e.1 e.2) acc = acc ++ l.map Prod.fst := by
  induction l generalizing acc with
  | nil => simp
  | cons e es ih =>
    simp only [List.foldl_cons, List.map_cons, ih]
    simp [InsertCountriesPtr.call]

/-- The candidate list holds the positions of the visited regions. -/
theorem Polygonizer.candidates_eq (p : Polygonizer) (fb : FeatureBuilder1) :
    p.candidates fb
      = (m4.Tree.inRect kml.CountryPolygons.m_rect fb.GetLimitRect 0 p.m_countries).map Prod.fst := by
  unfold Polygonizer.candidates m4.Tree.ForEachInRect
  rw [foldl_insertCountriesPtr]
  rfl

/-- A region is a candidate exactly when it is in the catalog and its bounding
rectangle intersects the limit rectangle of the feature. -/
theorem Polygonizer.mem_candidates (p : Polygonizer) (fb : FeatureBuilder1) (k : Nat) :
    k ∈ p.candidates fb ↔
      ∃ c, p.m_countries[k]? = some c ∧ fb.GetLimitRect.IsIntersect c.m_rect = true := by
  rw [Polygonizer.candidates_eq, List.mem_map]
  constructor
  · rintro ⟨e, he, rfl⟩
    have := (inRect_mem kml.CountryPolygons.m_rect fb.GetLimitRect p.m_countries 0 e.1 e.2).1 he
    exact ⟨e.2, by simpa using this.2.1, this.2.2⟩
  · rintro ⟨c, hc, hi⟩
    exact ⟨(k, c), (inRect_mem _ _ _ 0 k c).2 ⟨Nat.zero_le _, by simpa using hc, hi⟩, rfl⟩

theorem Polygonizer.candidates_nodup (p : Polygonizer) (fb : FeatureBuilder1) :
    (p.candidates fb).Nodup := by
  rw [Polygonizer.candidates_eq]
  exact (inRect_sorted _ _ _ 0).imp (fun h => Nat.ne_of_lt h)

theorem Polygonizer.candidates_lt (p : Polygonizer) (fb : FeatureBuilder1) (k : Nat)
    (h : k ∈ p.candidates fb) : k < p.m_countries.length := by
  obtain ⟨c, hc, -⟩ := (Polygonizer.mem_candidates p fb k).1 h
  exact (List.getElem?_eq_some.1 hc).1

theorem Polygonizer.catalog_getElem? (p : Polygonizer) (k : Nat) :
    p.catalog[k]? = (p.m_countries[k]?).map fixedPart := by
  simp [Polygonizer.catalog]

/-- The candidate list depends on the catalog only, not on the registry. -/
theorem Polygonizer.candidates_congr (p p1 : Polygonizer) (fb : FeatureBuilder1)
    (h : p1.catalog = p.catalog) : p1.candidates fb = p.candidates fb := by
  have key : ∀ q : Polygonizer, q.candidates fb
      = (m4.Tree.inRect kml.CountryPolygons.m_rect fb.GetLimitRect 0 q.catalog).map Prod.fst := by
    intro q
    rw [Polygonizer.candidates_eq, Polygonizer.catalog]
    exact inRect_fst_map fixedPart kml.CountryPolygons.m_rect fb.GetLimitRect q.m_countries 0
  rw [key p1, key p, h]

/-- The containment test depends on the catalog only, not on the registry. -/
theorem Polygonizer.passes_congr (Contains : kml.Region → m2.PointD → Bool) (p p1 : Polygonizer)
    (k : Nat) (fb : FeatureBuilder1) (h : p1.catalog = p.catalog) :
    p1.passes Contains k fb = p.passes Contains k fb := by
  have hk : (p1.m_countries[k]?).map fixedPart = (p.m_countries[k]?).map fixedPart := by
    rw [← Polygonizer.catalog_getElem?, ← Polygonizer.catalog_getElem?, h]
  unfold Polygonizer.passes
  cases h1 : p1.m_countries[k]? with
  | none =>
    cases h2 : p.m_countries[k]? with
    | none => rfl
    | some c => simp [h1, h2] at hk
  | some c1 =>
    cases h2 : p.m_countries[k]? with
    | none => simp [h1, h2] at hk
    | some c =>
      simp only [h1, h2, Option.map_some', Option.some.injEq] at hk
      have : c1.m_regions = c.m_regions := by
        have := congrArg kml.CountryPolygons.m_regions hk
        simpa [fixedPart] using this
      simp only [this]

theorem Polygonizer.length_of_catalog (p p1 : Polygonizer) (h : p1.catalog = p.catalog) :
    p1.m_countries.length = p.m_countries.length := by
  have := congrArg List.length h
  simpa [Polygonizer.catalog] using this

theorem Polygonizer.Grows.refl (p : Polygonizer) : p.Grows p :=
  ⟨rfl, fun _ _ h _ => h, List.prefix_refl _, rfl⟩

theorem Polygonizer.Grows.trans {p p1 p2 : Polygonizer} (h1 : p.Grows p1) (h2 : p1.Grows p2) :
    p.Grows p2 :=
  ⟨h2.catalog.trans h1.catalog,
   fun j c hj hc => h2.assigned j c (h1.assigned j c hj hc) hc,
   List.IsPrefix.trans h1.names h2.names,
   h2.threads.trans h1.threads⟩

theorem Polygonizer.EmitFeature_grows (p p1 : Polygonizer) (k : Nat) (fb : FeatureBuilder1)
    (h : p.EmitFeature k fb = .ok p1) : p.Grows p1 := by
  obtain ⟨-, -, h3, h4, -, h6, h7⟩ := Polygonizer.EmitFeature_frame p p1 k fb h
  exact ⟨h4, h6, h7, h3⟩

end feature

namespace feature

/-! ## The slow-path task -/

theorem PolygonizerTask.body_eq (Contains : kml.Region → m2.PointD → Bool) (p : Polygonizer)
    (k : Nat) (fb : FeatureBuilder1) (hk : k < p.m_countries.length) :
    PolygonizerTask.body Contains p k fb
      = if p.passes Contains k fb = true then p.EmitFeature k fb else .ok p := by
  unfold PolygonizerTask.body Polygonizer.passes
  rw [List.getElem?_eq_getElem hk]

theorem PolygonizerTask.body_lt (Contains : kml.Region → m2.PointD → Bool) (p p1 : Polygonizer)
    (k : Nat) (fb : FeatureBuilder1) (h : PolygonizerTask.body Contains p k fb = .ok p1) :
    k < p.m_countries.length := by
  by_contra hk
  have : p.m_countries[k]? = none := List.getElem?_eq_none (by omega)
  simp [PolygonizerTask.body, this] at h

/-- One iteration keeps what no step changes, and the pool and the permits. -/
theorem PolygonizerTask.body_grows (Contains : kml.Region → m2.PointD → Bool) (p p1 : Polygonizer)
    (k : Nat) (fb : FeatureBuilder1) (h : PolygonizerTask.body Contains p k fb = .ok p1) :
    p.Grows p1 ∧ p1.m_ThreadPool = p.m_ThreadPool
      ∧ p1.m_ThreadPoolSemaphore = p.m_ThreadPoolSemaphore := by
  rw [PolygonizerTask.body_eq Contains p k fb (PolygonizerTask.body_lt Contains p p1 k fb h)] at h
  split at h
  · obtain ⟨h1, h2, -⟩ := Polygonizer.EmitFeature_frame p p1 k fb h
    exact ⟨Polygonizer.EmitFeature_grows p p1 k fb h, h1, h2⟩
  · cases Except.ok.inj h
    exact ⟨Polygonizer.Grows.refl p, rfl, rfl⟩

/-- One iteration keeps the registry invariant; it appends the feature to the
bucket of its candidate when the containment test passes and changes no other
bucket. -/
theorem PolygonizerTask.body_inv (Contains : kml.Region → m2.PointD → Bool) (p p1 : Polygonizer)
    (k : Nat) (fb : FeatureBuilder1) (hinv : p.Inv)
    (h : PolygonizerTask.body Contains p k fb = .ok p1) :
    p1.Inv ∧ ∀ j, p1.bucketOf j
      = p.bucketOf j ++ (if j = k ∧ p.passes Contains k fb = true then [fb] else []) := by
  rw [PolygonizerTask.body_eq Contains p k fb (PolygonizerTask.body_lt Contains p p1 k fb h)] at h
  by_cases hp : p.passes Contains k fb = true
  · rw [if_pos hp] at h
    obtain ⟨h1, h2⟩ := Polygonizer.EmitFeature_inv p p1 k fb hinv h
    refine ⟨h1, fun j => ?_⟩
    rw [h2 j]
    by_cases hj : j = k
    · subst hj
      simp [hp]
    · simp [hj]
  · rw [if_neg hp] at h
    cases Except.ok.inj h
    exact ⟨hinv, fun j => by simp [hp]⟩

theorem PolygonizerTask.body_total (Contains : kml.Region → m2.PointD → Bool) (p : Polygonizer)
    (k : Nat) (fb : FeatureBuilder1) (hinv : p.Inv) (hk : k < p.m_countries.length) :
    ∃ p1, PolygonizerTask.body Contains p k fb = .ok p1 := by
  rw [PolygonizerTask.body_eq Contains p k fb hk]
  split
  · exact Polygonizer.EmitFeature_total p k fb hinv hk
  · exact ⟨p, rfl⟩

/-- The loop of the task over the candidates `cs`: it returns, and the bucket
of a region gains one copy of the feature for each occurrence of the region
among the candidates whose containment test passes. -/
theorem PolygonizerTask.loop_spec (Contains : kml.Region → m2.PointD → Bool) (fb : FeatureBuilder1)
    (cs : List Nat) (p : Polygonizer) (hinv : p.Inv) (hcs : ∀ c ∈ cs, c < p.m_countries.length) :
    ∃ p1, PolygonizerTask.loop Contains fb cs p = .ok p1 ∧ p1.Inv ∧ p.Grows p1
      ∧ p1.m_ThreadPool = p.m_ThreadPool ∧ p1.m_ThreadPoolSemaphore = p.m_ThreadPoolSemaphore
      ∧ ∀ j, p1.bucketOf j = p.bucketOf j
          ++ List.replicate ((cs.filter (fun c => p.passes Contains c fb)).count j) fb := by
  induction cs generalizing p with
  | nil => exact ⟨p, rfl, hinv, Polygonizer.Grows.refl p, rfl, rfl, fun j => by simp⟩
  | cons c cs ih =>
    obtain ⟨p1, hb⟩ := PolygonizerTask.body_total Contains p c fb hinv (hcs c (List.mem_cons_self _ _))
    obtain ⟨hinv1, hbuck1⟩ := PolygonizerTask.body_inv Contains p p1 c fb hinv hb
    obtain ⟨hg1, hpool1, hsem1⟩ := PolygonizerTask.body_grows Contains p p1 c fb hb
    have hlen : p1.m_countries.length = p.m_countries.length :=
      Polygonizer.length_of_catalog p p1 hg1.catalog
    obtain ⟨p2, hl, hinv2, hg2, hpool2, hsem2, hbuck2⟩ := ih p1 hinv1
      (fun c1 hc1 => by rw [hlen]; exact hcs c1 (List.mem_cons_of_mem _ hc1))
    refine ⟨p2, ?_, hinv2, hg1.trans hg2, hpool2.trans hpool1, hsem2.trans hsem1, fun j => ?_⟩
    · simp only [PolygonizerTask.loop, hb]
      exact hl
    · rw [hbuck2 j, hbuck1 j, List.append_assoc]
      congr 1
      have hpass : (fun c1 => p1.passes Contains c1 fb) = (fun c1 => p.passes Contains c1 fb) :=
        funext (fun c1 => Polygonizer.passes_congr Contains p p1 c1 fb hg1.catalog)
      rw [hpass]
      by_cases hp : p.passes Contains c fb = true
      · by_cases hj : j = c
        · subst hj
          simp [List.filter_cons, hp, List.replicate_succ]
        · have hj2 : ¬ (c = j) := fun h => hj h.symm
          simp [List.filter_cons, hp, hj, hj2, List.count_cons]
      · simp [List.filter_cons, hp]

/-- The rest of a task from loop counter `i` on: it returns, gives its permit
back, and the bucket of a region gains one copy of the feature for each
occurrence of the region among the remaining candidates whose containment test
passes. -/
theorem PolygonizerTask.runFrom_spec (Contains : kml.Region → m2.PointD → Bool)
    (t : PolygonizerTask) (i : Nat) (p : Polygonizer) (hinv : p.Inv)
    (hcs : ∀ c ∈ t.m_Countries, c < p.m_countries.length) :
    ∃ p1, t.runFrom Contains i p = .ok p1 ∧ p1.Inv ∧ p.Grows p1
      ∧ p1.m_ThreadPool = p.m_ThreadPool
      ∧ p1.m_ThreadPoolSemaphore = p.m_ThreadPoolSemaphore + 1
      ∧ ∀ j, p1.bucketOf j = p.bucketOf j
          ++ List.replicate
              (((t.m_Countries.drop i).filter (fun c => p.passes Contains c t.m_FB)).count j)
              t.m_FB := by
  obtain ⟨p1, hl, hinv1, hg1, hpool1, hsem1, hbuck1⟩ :=
    PolygonizerTask.loop_spec Contains t.m_FB (t.m_Countries.drop i) p hinv
      (fun c hc => hcs c (List.mem_of_mem_drop hc))
  refine ⟨{ p1 with m_ThreadPoolSemaphore := p1.m_ThreadPoolSemaphore + 1 }, ?_, ?_, ?_, hpool1,
    by simp [hsem1], ?_⟩
  · simp only [PolygonizerTask.runFrom, hl]
  · exact ⟨hinv1.names, hinv1.bound, hinv1.inj, hinv1.owner⟩
  · exact ⟨hg1.catalog, hg1.assigned, hg1.names, hg1.threads⟩
  · exact hbuck1

/-- With candidates that are pairwise distinct, the bucket of a region gains
exactly one copy of the feature when the region is a candidate whose
containment test passes, and nothing otherwise. -/
theorem replicate_count_nodup (cs : List Nat) (f : Nat → Bool) (j : Nat) (fb : FeatureBuilder1)
    (hnd : cs.Nodup) :
    List.replicate ((cs.filter f).count j) fb = if j ∈ cs ∧ f j = true then [fb] else [] := by
  have hnd2 : (cs.filter f).Nodup := hnd.filter _
  by_cases h : j ∈ cs ∧ f j = true
  · have hm : j ∈ cs.filter f := List.mem_filter.2 h
    rw [List.count_eq_one_of_mem hnd2 hm, if_pos h]
    rfl
  · have hm : j ∉ cs.filter f := fun hm => h (List.mem_filter.1 hm)
    rw [List.count_eq_zero_of_not_mem hm, if_neg h]
    rfl

theorem Polygonizer.Finish_idle (Contains : kml.Region → m2.PointD → Bool) (p : Polygonizer)
    (hidle : p.m_ThreadPool = []) : p.Finish Contains = .ok p := by
  cases p
  simp only at hidle
  subst hidle
  rfl

/-- A dispatch from a quiescent state with a free permit, followed by
`Finish`: both return, and the bucket of a region gains one copy of the feature
when the feature is not absorbed, the region is a candidate, and either it is
the only candidate or its containment test passes; it is unchanged otherwise. -/
theorem Polygonizer.call_finish (Contains : kml.Region → m2.PointD → Bool)
    (worldMap : FeatureBuilder1 → Bool) (p : Polygonizer) (fb : FeatureBuilder1)
    (hinv : p.Inv) (hidle : p.m_ThreadPool = []) (hperm : 0 < p.m_ThreadPoolSemaphore) :
    ∃ p1 p2, p.call worldMap fb = .ok p1 ∧ p1.Finish Contains = .ok p2 ∧ p2.Inv ∧ p.Grows p2
      ∧ p2.m_ThreadPool = [] ∧ p2.m_ThreadPoolSemaphore = p.m_ThreadPoolSemaphore
      ∧ ∀ j, p2.bucketOf j = p.bucketOf j ++
          (if worldMap fb = false ∧ j ∈ p.candidates fb ∧
              ((p.candidates fb).length = 1 ∨ p.passes Contains j fb = true)
           then [fb] else []) := by
  by_cases hw : worldMap fb = true
  · refine ⟨p, p, by simp [Polygonizer.call, hw], Polygonizer.Finish_idle Contains p hidle, hinv,
      Polygonizer.Grows.refl p, hidle, rfl, fun j => by simp [hw]⟩
  · have hw2 : worldMap fb = false := by simpa using hw
    by_cases hone : (p.candidates fb).length = 1
    · obtain ⟨c, hc⟩ := List.length_eq_one.1 hone
      have hclt : c < p.m_countries.length :=
        Polygonizer.candidates_lt p fb c (by rw [hc]; exact List.mem_singleton_self c)
      obtain ⟨p1, he⟩ := Polygonizer.EmitFeature_total p c fb hinv hclt
      obtain ⟨hinv1, hbuck1⟩ := Polygonizer.EmitFeature_inv p p1 c fb hinv he
      obtain ⟨hpool1, hsem1, -⟩ := Polygonizer.EmitFeature_frame p p1 c fb he
      refine ⟨p1, p1, ?_, Polygonizer.Finish_idle Contains p1 (hpool1.trans hidle), hinv1,
        Polygonizer.EmitFeature_grows p p1 c fb he, hpool1.trans hidle, hsem1, fun j => ?_⟩
      · simp [Polygonizer.call, hw2, hc, he]
      · rw [hbuck1 j]
        by_cases hj : j = c
        · subst hj
          simp [hw2, hc]
        · simp [hw2, hc, hj]
    · have hsem : p.m_ThreadPoolSemaphore ≠ 0 := by omega
      have hcall : p.call worldMap fb = .ok
          { p with
            m_ThreadPoolSemaphore := p.m_ThreadPoolSemaphore - 1
            m_ThreadPool := p.m_ThreadPool ++ [({ m_Countries := p.candidates fb, m_FB := fb }, 0)] } := by
        simp [Polygonizer.call, hw2, hone, hsem]
      have hinv0 : Polygonizer.Inv
          { p with m_ThreadPoolSemaphore := p.m_ThreadPoolSemaphore - 1, m_ThreadPool := [] } :=
        ⟨hinv.names, hinv.bound, hinv.inj, hinv.owner⟩
      obtain ⟨p2, hr, hinv2, hg2, hpool2, hsem2, hbuck2⟩ :=
        PolygonizerTask.runFrom_spec Contains { m_Countries := p.candidates fb, m_FB := fb } 0 _ hinv0
          (fun c hc => Polygonizer.candidates_lt p fb c hc)
      refine ⟨_, p2, hcall, ?_, hinv2, ?_, hpool2, ?_, fun j => ?_⟩
      · simp only [Polygonizer.Finish, hidle, List.nil_append, Polygonizer.drain, hr]
      · exact ⟨hg2.catalog, hg2.assigned, hg2.names, hg2.threads⟩
      · rw [hsem2]
        simp only []
        omega
      · rw [hbuck2 j]
        simp only [List.drop_zero]
        rw [replicate_count_nodup _ _ _ _ (Polygonizer.candidates_nodup p fb)]
        have hb : Polygonizer.bucketOf
            { p with m_ThreadPoolSemaphore := p.m_ThreadPoolSemaphore - 1, m_ThreadPool := [] } j
            = p.bucketOf j := rfl
        have hp : Polygonizer.passes Contains
            { p with m_ThreadPoolSemaphore := p.m_ThreadPoolSemaphore - 1, m_ThreadPool := [] } j fb
            = p.passes Contains j fb := rfl
        rw [hb, hp]
        simp [hw2, hone]

end feature

namespace feature

/-! ## Executions -/

/-- A dispatch that returns either leaves the state alone (absorbed feature),
or is one `EmitFeature` (single candidate), or takes a permit and queues one
task (any other number of candidates). -/
theorem Polygonizer.call_ok_cases (worldMap : FeatureBuilder1 → Bool) (p p1 : Polygonizer)
    (fb : FeatureBuilder1) (h : p.call worldMap fb = .ok p1) :
    (worldMap fb = true ∧ p1 = p)
    ∨ (worldMap fb = false ∧ ∃ c, p.candidates fb = [c] ∧ p.EmitFeature c fb = .ok p1)
    ∨ (worldMap fb = false ∧ (p.candidates fb).length ≠ 1 ∧ 0 < p.m_ThreadPoolSemaphore ∧
        p1 = { p with
               m_ThreadPoolSemaphore := p.m_ThreadPoolSemaphore - 1
               m_ThreadPool := p.m_ThreadPool ++
                 [({ m_Countries := p.candidates fb, m_FB := fb }, 0)] }) := by
  by_cases hw : worldMap fb = true
  · left
    simp only [Polygonizer.call, hw, if_true] at h
    exact ⟨hw, (Except.ok.inj h).symm⟩
  · right
    have hw2 : worldMap fb = false := by simpa using hw
    by_cases hone : (p.candidates fb).length = 1
    · left
      obtain ⟨c, hc⟩ := List.length_eq_one.1 hone
      refine ⟨hw2, c, hc, ?_⟩
      simpa [Polygonizer.call, hw2, hc] using h
    · right
      by_cases hsem : p.m_ThreadPoolSemaphore = 0
      · simp [Polygonizer.call, hw2, hone, hsem] at h
      · refine ⟨hw2, hone, by omega, ?_⟩
        simp only [Polygonizer.call, hw2, Bool.false_eq_true, if_false, hone, hsem] at h
        exact (Except.ok.inj h).symm

theorem Polygonizer.call_grows (worldMap : FeatureBuilder1 → Bool) (p p1 : Polygonizer)
    (fb : FeatureBuilder1) (h : p.call worldMap fb = .ok p1) : p.Grows p1 := by
  rcases Polygonizer.call_ok_cases worldMap p p1 fb h with ⟨-, rfl⟩ | ⟨-, c, -, he⟩ | ⟨-, -, -, rfl⟩
  · exact Polygonizer.Grows.refl _
  · exact Polygonizer.EmitFeature_grows p p1 c fb he
  · exact ⟨rfl, fun _ _ h _ => h, List.prefix_refl _, rfl⟩

theorem Polygonizer.call_inv (worldMap : FeatureBuilder1 → Bool) (p p1 : Polygonizer)
    (fb : FeatureBuilder1) (hinv : p.Inv) (h : p.call worldMap fb = .ok p1) : p1.Inv := by
  rcases Polygonizer.call_ok_cases worldMap p p1 fb h with ⟨-, rfl⟩ | ⟨-, c, -, he⟩ | ⟨-, -, -, rfl⟩
  · exact hinv
  · exact (Polygonizer.EmitFeature_inv p p1 c fb hinv he).1
  · exact ⟨hinv.names, hinv.bound, hinv.inj, hinv.owner⟩

theorem step_grows {Contains : kml.Region → m2.PointD → Bool} {worldMap : FeatureBuilder1 → Bool}
    {p p1 : Polygonizer} (h : Step Contains worldMap p p1) : p.Grows p1 := by
  cases h
  case dispatch fb hc => exact Polygonizer.call_grows worldMap p p1 fb hc
  case emit k fb he => exact Polygonizer.EmitFeature_grows p p1 k fb he
  case iterate s1 j t i c hj hc hb =>
    obtain ⟨hg, -, -⟩ := PolygonizerTask.body_grows Contains p s1 c t.m_FB hb
    exact ⟨hg.catalog, hg.assigned, hg.names, hg.threads⟩
  case complete j t i hj hi => exact ⟨rfl, fun _ _ h _ => h, List.prefix_refl _, rfl⟩

theorem step_inv {Contains : kml.Region → m2.PointD → Bool} {worldMap : FeatureBuilder1 → Bool}
    {p p1 : Polygonizer} (h : Step Contains worldMap p p1) (hinv : p.Inv) : p1.Inv := by
  cases h
  case dispatch fb hc => exact Polygonizer.call_inv worldMap p p1 fb hinv hc
  case emit k fb he => exact (Polygonizer.EmitFeature_inv p p1 k fb hinv he).1
  case iterate s1 j t i c hj hc hb =>
    obtain ⟨hi, -⟩ := PolygonizerTask.body_inv Contains p s1 c t.m_FB hinv hb
    exact ⟨hi.names, hi.bound, hi.inj, hi.owner⟩
  case complete j t i hj hi => exact ⟨hinv.names, hinv.bound, hinv.inj, hinv.owner⟩

theorem steps_grows {Contains : kml.Region → m2.PointD → Bool} {worldMap : FeatureBuilder1 → Bool}
    {p p1 : Polygonizer} (h : Steps Contains worldMap p p1) : p.Grows p1 := by
  induction h with
  | refl => exact Polygonizer.Grows.refl p
  | tail _ hstep ih => exact ih.trans (step_grows hstep)

theorem steps_inv {Contains : kml.Region → m2.PointD → Bool} {worldMap : FeatureBuilder1 → Bool}
    {p p1 : Polygonizer} (h : Steps Contains worldMap p p1) (hinv : p.Inv) : p1.Inv := by
  induction h with
  | refl => exact hinv
  | tail _ hstep ih => exact step_inv hstep ih

/-- The freshly constructed registry satisfies the registry invariant. -/
theorem Polygonizer.new_inv (cat : kml.CountriesContainerT) (n : Nat) (p0 : Polygonizer)
    (hnew : Polygonizer.new (some cat) n = some p0) (hfresh : ∀ c ∈ cat, c.m_index = -1) :
    p0.Inv := by
  simp only [Polygonizer.new, Option.some.injEq] at hnew
  subst hnew
  refine ⟨rfl, ?_, ?_, ?_⟩
  · intro k c hk hc
    exact absurd (hfresh c (List.getElem?_mem hk)) hc
  · intro k1 k2 c1 c2 hk1 _ hc1 _
    exact absurd (hfresh c1 (List.getElem?_mem hk1)) hc1
  · intro i b hb
    simp at hb

/-- In a state that satisfies the registry invariant and whose regions have
pairwise distinct names, the names list has no duplicate and holds exactly the
names of the regions whose bucket holds a feature. -/
theorem Polygonizer.names_spec (p : Polygonizer) (hinv : p.Inv)
    (hnd : (p.m_countries.map kml.CountryPolygons.m_name).Nodup) :
    p.Names.Nodup
    ∧ (∀ (k : Nat) (c : kml.CountryPolygons), p.m_countries[k]? = some c →
        (c.m_name ∈ p.Names ↔ p.bucketOf k ≠ []))
    ∧ (∀ nm ∈ p.Names, ∃ (k : Nat) (c : kml.CountryPolygons),
        p.m_countries[k]? = some c ∧ c.m_name = nm ∧ p.bucketOf k ≠ []) := by
  have hname_inj : ∀ (k1 k2 : Nat) (c1 c2 : kml.CountryPolygons), p.m_countries[k1]? = some c1 →
      p.m_countries[k2]? = some c2 → c1.m_name = c2.m_name → k1 = k2 := by
    intro k1 k2 c1 c2 h1 h2 he
    by_contra hne
    have hn := List.nodup_iff_getElem?_ne_getElem?.1 hnd
    have e1 : (p.m_countries.map kml.CountryPolygons.m_name)[k1]? = some c1.m_name := by
      simp [h1]
    have e2 : (p.m_countries.map kml.CountryPolygons.m_name)[k2]? = some c2.m_name := by
      simp [h2]
    have l1 : k1 < (p.m_countries.map kml.CountryPolygons.m_name).length :=
      (List.getElem?_eq_some.1 e1).1
    have l2 : k2 < (p.m_countries.map kml.CountryPolygons.m_name).length :=
      (List.getElem?_eq_some.1 e2).1
    rcases Nat.lt_or_gt_of_ne hne with hlt | hgt
    · exact hn k1 k2 hlt l2 (by rw [e1, e2, he])
    · exact hn k2 k1 hgt l1 (by rw [e1, e2, he])
  -- the region that owns the bucket at position `i`
  have howner : ∀ (i : Nat) (b : FeatureOutT), p.m_Buckets[i]? = some b →
      ∃ (k : Nat) (c : kml.CountryPolygons), p.m_countries[k]? = some c ∧ c.m_index = (i : Int)
        ∧ c.m_name = b.m_name ∧ p.bucketOf k = b.m_features ∧ b.m_features ≠ [] := by
    intro i b hb
    obtain ⟨hne, k, c, hk, hc⟩ := hinv.owner i b hb
    have hc1 : c.m_index ≠ -1 := by omega
    obtain ⟨-, b1, hb1, hn1⟩ := hinv.bound k c hk hc1
    have hi : c.m_index.toNat = i := by omega
    rw [hi, hb] at hb1
    have := Option.some.inj hb1
    subst this
    refine ⟨k, c, hk, hc, hn1.symm, ?_, hne⟩
    simp [Polygonizer.bucketOf, hk, hc1, hi, hb]
  have hmem : ∀ (k : Nat) (c : kml.CountryPolygons), p.m_countries[k]? = some c →
      (c.m_name ∈ p.Names ↔ p.bucketOf k ≠ []) := by
    intro k c hk
    constructor
    · intro hm
      rw [Polygonizer.Names, hinv.names] at hm
      obtain ⟨b, hb, hbn⟩ := List.mem_map.1 hm
      obtain ⟨i, hi⟩ := List.getElem?_of_mem hb
      obtain ⟨k1, c1, hk1, -, hn1, hbk, hne⟩ := howner i b hi
      have : k1 = k := hname_inj k1 k c1 c hk1 hk (hn1.trans hbn)
      subst this
      rw [hbk]
      exact hne
    · intro hne
      have hc1 : c.m_index ≠ -1 := by
        intro hc
        apply hne
        simp [Polygonizer.bucketOf, hk, hc]
      obtain ⟨-, b, hb, hn⟩ := hinv.bound k c hk hc1
      rw [Polygonizer.Names, hinv.names, ← hn]
      exact List.mem_map.2 ⟨b, List.getElem?_mem hb, rfl⟩
  refine ⟨?_, hmem, ?_⟩
  · rw [Polygonizer.Names, hinv.names, List.nodup_iff_getElem?_ne_getElem?]
    intro i j hij hj he
    rw [List.length_map] at hj
    have hi : i < p.m_Buckets.length := by omega
    have ebi : p.m_Buckets[i]? = some p.m_Buckets[i] := List.getElem?_eq_getElem hi
    have ebj : p.m_Buckets[j]? = some p.m_Buckets[j] := List.getElem?_eq_getElem hj
    obtain ⟨k1, c1, hk1, hc1, hn1, -⟩ := howner i _ ebi
    obtain ⟨k2, c2, hk2, hc2, hn2, -⟩ := howner j _ ebj
    simp only [List.getElem?_map, ebi, ebj, Option.map_some', Option.some.injEq] at he
    have hk : k1 = k2 := hname_inj k1 k2 c1 c2 hk1 hk2 (by rw [hn1, hn2, he])
    subst hk
    rw [hk1] at hk2
    have := Option.some.inj hk2
    subst this
    omega
  · intro nm hm
    rw [Polygonizer.Names, hinv.names] at hm
    obtain ⟨b, hb, hbn⟩ := List.mem_map.1 hm
    obtain ⟨i, hi⟩ := List.getElem?_of_mem hb
    obtain ⟨k1, c1, hk1, -, hn1, hbk, hne⟩ := howner i b hi
    exact ⟨k1, c1, hk1, hn1.trans hbn, by rw [hbk]; exact hne⟩

theorem Polygonizer.names_of_catalog (p p1 : Polygonizer) (h : p1.catalog = p.catalog) :
    p1.m_countries.map kml.CountryPolygons.m_name
      = p.m_countries.map kml.CountryPolygons.m_name := by
  have key : ∀ q : Polygonizer, q.m_countries.map kml.CountryPolygons.m_name
      = q.catalog.map kml.CountryPolygons.m_name := by
    intro q
    simp [Polygonizer.catalog, fixedPart, Function.comp_def]
  rw [key p1, key p, h]

end feature

namespace feature

/-! ## `Finish` is an execution -/

/-- The state with another pool and another number of permits. -/
theorem Polygonizer.EmitFeature_pool (p : Polygonizer) (k : Nat) (fb : FeatureBuilder1)
    (X : List (PolygonizerTask × Nat)) (s : Nat) :
    Polygonizer.EmitFeature { p with m_ThreadPool := X, m_ThreadPoolSemaphore := s } k fb
      = match p.EmitFeature k fb with
        | .ok r => .ok { r with m_ThreadPool := X, m_ThreadPoolSemaphore := s }
        | .error e => .error e := by
  cases hk : p.m_countries[k]? with
  | none => simp [Polygonizer.EmitFeature, hk]
  | some c =>
    by_cases hc : c.m_index = -1
    · rw [Polygonizer.EmitFeature_unassigned p k fb c hk hc,
        Polygonizer.EmitFeature_unassigned
          { p with m_ThreadPool := X, m_ThreadPoolSemaphore := s } k fb c hk hc]
    · by_cases h0 : 0 ≤ c.m_index
      · cases hb : p.m_Buckets[c.m_index.toNat]? with
        | none => simp [Polygonizer.EmitFeature, hk, hc, h0, hb]
        | some b =>
          rw [Polygonizer.EmitFeature_assigned p k fb c b hk hc h0 hb,
            Polygonizer.EmitFeature_assigned
              { p with m_ThreadPool := X, m_ThreadPoolSemaphore := s } k fb c b hk hc h0 hb]
      · simp [Polygonizer.EmitFeature, hk, hc, h0]

theorem PolygonizerTask.body_pool (Contains : kml.Region → m2.PointD → Bool) (p : Polygonizer)
    (k : Nat) (fb : FeatureBuilder1) (X : List (PolygonizerTask × Nat)) (s : Nat) :
    PolygonizerTask.body Contains { p with m_ThreadPool := X, m_ThreadPoolSemaphore := s } k fb
      = match PolygonizerTask.body Contains p k fb with
        | .ok r => .ok { r with m_ThreadPool := X, m_ThreadPoolSemaphore := s }
        | .error e => .error e := by
  unfold PolygonizerTask.body
  cases hk : p.m_countries[k]? with
  | none => simp [hk]
  | some c =>
    simp only [hk]
    split
    · exact Polygonizer.EmitFeature_pool p k fb X s
    · rfl

theorem PolygonizerTask.loop_pool (Contains : kml.Region → m2.PointD → Bool) (fb : FeatureBuilder1)
    (cs : List Nat) (p : Polygonizer) (X : List (PolygonizerTask × Nat)) (s : Nat) :
    PolygonizerTask.loop Contains fb cs { p with m_ThreadPool := X, m_ThreadPoolSemaphore := s }
      = match PolygonizerTask.loop Contains fb cs p with
        | .ok r => .ok { r with m_ThreadPool := X, m_ThreadPoolSemaphore := s }
        | .error e => .error e := by
  induction cs generalizing p with
  | nil => rfl
  | cons c cs ih =>
    simp only [PolygonizerTask.loop]
    rw [PolygonizerTask.body_pool]
    cases hb : PolygonizerTask.body Contains p c fb with
    | error e => rfl
    | ok r => exact ih r

end feature

namespace feature

theorem set_of_getElem? {α : Type} (l : List α) (j : Nat) (a : α) (h : l[j]? = some a) :
    l.set j a = l := by
  apply List.ext_getElem?
  intro n
  by_cases hn : j = n
  · subst hn
    rw [List.getElem?_set_self (List.getElem?_eq_some.1 h).1, h]
  · rw [List.getElem?_set_ne hn]

theorem PolygonizerTask.loop_frame (Contains : kml.Region → m2.PointD → Bool)
    (fb : FeatureBuilder1) (cs : List Nat) (p p1 : Polygonizer)
    (h : PolygonizerTask.loop Contains fb cs p = .ok p1) :
    p.Grows p1 ∧ p1.m_ThreadPool = p.m_ThreadPool
      ∧ p1.m_ThreadPoolSemaphore = p.m_ThreadPoolSemaphore := by
  induction cs generalizing p with
  | nil =>
    cases Except.ok.inj h
    exact ⟨Polygonizer.Grows.refl _, rfl, rfl⟩
  | cons c cs ih =>
    simp only [PolygonizerTask.loop] at h
    cases hb : PolygonizerTask.body Contains p c fb with
    | error e => simp [hb] at h
    | ok r =>
      simp only [hb] at h
      obtain ⟨g1, a1, b1⟩ := PolygonizerTask.body_grows Contains p r c fb hb
      obtain ⟨g2, a2, b2⟩ := ih r h
      exact ⟨g1.trans g2, a2.trans a1, b2.trans b1⟩

/-- The loop of a started task is a sequence of iteration steps. -/
theorem PolygonizerTask.loop_steps (Contains : kml.Region → m2.PointD → Bool)
    (worldMap : FeatureBuilder1 → Bool) (t : PolygonizerTask) (j : Nat) (cs : List Nat) (i : Nat)
    (p p1 : Polygonizer) (hj : p.m_ThreadPool[j]? = some (t, i))
    (hcs : t.m_Countries.drop i = cs)
    (hl : PolygonizerTask.loop Contains t.m_FB cs p = .ok p1) :
    Steps Contains worldMap p
      { p1 with m_ThreadPool := p.m_ThreadPool.set j (t, i + cs.length) } := by
  induction cs generalizing i p p1 with
  | nil =>
    have e : p = p1 := Except.ok.inj hl
    subst e
    have : ({ p with m_ThreadPool := p.m_ThreadPool.set j (t, i + ([] : List Nat).length) }
        : Polygonizer) = p := by
      simp only [List.length_nil, Nat.add_zero, set_of_getElem? _ _ _ hj]
    rw [this]
    exact Relation.ReflTransGen.refl
  | cons c cs ih =>
    have hc : t.m_Countries[i]? = some c := by
      have := List.getElem?_drop t.m_Countries i 0
      rw [hcs] at this
      simpa using this.symm
    have hcs1 : t.m_Countries.drop (i + 1) = cs := by
      rw [← List.tail_drop, hcs]
      rfl
    simp only [PolygonizerTask.loop] at hl
    cases hb : PolygonizerTask.body Contains p c t.m_FB with
    | error e => simp [hb] at hl
    | ok r =>
      simp only [hb] at hl
      obtain ⟨-, hpool, -⟩ := PolygonizerTask.body_grows Contains p r c t.m_FB hb
      have hjlt : j < p.m_ThreadPool.length := (List.getElem?_eq_some.1 hj).1
      have hstep := @Step.iterate Contains worldMap p r j t i c hj hc hb
      have hl2 : PolygonizerTask.loop Contains t.m_FB cs
          { r with m_ThreadPool := r.m_ThreadPool.set j (t, i + 1)
                   m_ThreadPoolSemaphore := r.m_ThreadPoolSemaphore }
          = .ok { p1 with m_ThreadPool := r.m_ThreadPool.set j (t, i + 1)
                          m_ThreadPoolSemaphore := r.m_ThreadPoolSemaphore } := by
        rw [PolygonizerTask.loop_pool, hl]
      have hsteps := ih (i + 1) _ _ (by
        simp only []
        rw [hpool]
        exact List.getElem?_set_self hjlt) hcs1 hl2
      obtain ⟨-, -, hsem⟩ := PolygonizerTask.loop_frame Contains t.m_FB cs r p1 hl
      have hfinal : ({ p1 with m_ThreadPool := p.m_ThreadPool.set j (t, i + (c :: cs).length) }
          : Polygonizer)
          = { p1 with
              m_ThreadPool := (r.m_ThreadPool.set j (t, i + 1)).set j (t, i + 1 + cs.length)
              m_ThreadPoolSemaphore := r.m_ThreadPoolSemaphore } := by
        rw [List.set_set, hpool, ← hsem]
        simp only [List.length_cons]
        have : i + (cs.length + 1) = i + 1 + cs.length := by omega
        rw [this]
      rw [hfinal]
      exact Relation.ReflTransGen.head hstep hsteps

/-- Running the queued tasks to completion, one after the other, is an
execution. -/
theorem Polygonizer.drain_steps (Contains : kml.Region → m2.PointD → Bool)
    (worldMap : FeatureBuilder1 → Bool) (ts : List (PolygonizerTask × Nat)) (p p1 : Polygonizer)
    (hp : p.m_ThreadPool = ts)
    (hd : Polygonizer.drain Contains ts { p with m_ThreadPool := [] } = .ok p1) :
    Steps Contains worldMap p p1 := by
  induction ts generalizing p with
  | nil =>
    simp only [Polygonizer.drain] at hd
    cases Except.ok.inj hd
    have : ({ p with m_ThreadPool := [] } : Polygonizer) = p := by
      cases p
      simp only at hp
      subst hp
      rfl
    rw [this]
    exact Relation.ReflTransGen.refl
  | cons ti rest ih =>
    obtain ⟨t, i⟩ := ti
    simp only [Polygonizer.drain, PolygonizerTask.runFrom] at hd
    have hlp := PolygonizerTask.loop_pool Contains t.m_FB (t.m_Countries.drop i) p []
      p.m_ThreadPoolSemaphore
    cases hl : PolygonizerTask.loop Contains t.m_FB (t.m_Countries.drop i) p with
    | error e =>
      rw [hl] at hlp
      have hlp2 : PolygonizerTask.loop Contains t.m_FB (t.m_Countries.drop i)
          { p with m_ThreadPool := [] } = .error e := hlp
      simp [hlp2] at hd
    | ok r =>
      rw [hl] at hlp
      have hlp2 : PolygonizerTask.loop Contains t.m_FB (t.m_Countries.drop i)
          { p with m_ThreadPool := [] }
          = .ok { r with m_ThreadPool := [], m_ThreadPoolSemaphore := p.m_ThreadPoolSemaphore } :=
        hlp
      simp only [hlp2] at hd
      obtain ⟨-, hpool, hsem⟩ := PolygonizerTask.loop_frame Contains t.m_FB _ p r hl
      have hj : p.m_ThreadPool[0]? = some (t, i) := by rw [hp]; simp
      have hsteps := PolygonizerTask.loop_steps Contains worldMap t 0 _ i p r hj rfl hl
      have hdone := @Step.complete Contains worldMap
        { r with m_ThreadPool := p.m_ThreadPool.set 0 (t, i + (t.m_Countries.drop i).length) }
        0 t (i + (t.m_Countries.drop i).length)
        (by simp only []; rw [hp]; simp)
        (by rw [List.length_drop]; omega)
      have hrest := ih
        { r with m_ThreadPool := rest, m_ThreadPoolSemaphore := r.m_ThreadPoolSemaphore + 1 } rfl
        (by rw [hsem]; exact hd)
      have heq : ({ r with
            m_ThreadPool := (p.m_ThreadPool.set 0
              (t, i + (t.m_Countries.drop i).length)).eraseIdx 0
            m_ThreadPoolSemaphore := r.m_ThreadPoolSemaphore + 1 } : Polygonizer)
          = { r with m_ThreadPool := rest, m_ThreadPoolSemaphore := r.m_ThreadPoolSemaphore + 1 } := by
        rw [hp]
        rfl
      rw [heq] at hdone
      exact (hsteps.tail hdone).trans hrest

/-- `Finish`, when it returns, is an execution: the state it returns is
reached by steps of the started tasks. -/
theorem Polygonizer.Finish_steps (Contains : kml.Region → m2.PointD → Bool)
    (worldMap : FeatureBuilder1 → Bool) (p p1 : Polygonizer)
    (h : p.Finish Contains = .ok p1) : Steps Contains worldMap p p1 :=
  Polygonizer.drain_steps Contains worldMap p.m_ThreadPool p p1 rfl h

end feature

namespace feature

/-! ## The scenario satisfies the hypotheses of the theorems -/

theorem Scenario.start_new :
    Polygonizer.new (some Scenario.countries) 1 = some Scenario.start := rfl

theorem Scenario.countries_fresh : ∀ c ∈ Scenario.countries, c.m_index = -1 := by
  intro c hc
  simp only [Scenario.countries, List.mem_cons, List.mem_singleton, List.not_mem_nil,
    or_false] at hc
  rcases hc with rfl | rfl <;> rfl

theorem Scenario.start_inv : Scenario.start.Inv :=
  Polygonizer.new_inv Scenario.countries 1 Scenario.start Scenario.start_new
    Scenario.countries_fresh

theorem Scenario.candidatesX : Scenario.start.candidates Scenario.featureX = [0] := by decide

theorem Scenario.candidatesY : Scenario.start.candidates Scenario.featureY = [0, 1] := by decide

theorem Scenario.candidatesW : Scenario.start.candidates Scenario.featureW = [] := by decide

theorem Scenario.callX :
    Scenario.start.call Scenario.noWorld Scenario.featureX = .ok Scenario.afterX := by rfl

theorem Scenario.afterX_inv : Scenario.afterX.Inv :=
  Polygonizer.call_inv Scenario.noWorld Scenario.start Scenario.afterX Scenario.featureX
    Scenario.start_inv Scenario.callX

end feature

namespace feature

/-! ## The dispatcher and the registry: the claims -/

/-- Claim C3. A feature that the world map generator accepts leaves the whole
state as it is: the dispatch returns the state it was called on, so no bucket,
name, bucket content or region index changes, no permit is taken and no task
is started. -/
theorem C3_world_filter_absorbs (worldMap : FeatureBuilder1 → Bool) (p : Polygonizer)
    (fb : FeatureBuilder1) (hworld : worldMap fb = true) :
    p.call worldMap fb = .ok p
    ∧ ∀ p1, p.call worldMap fb = .ok p1 →
        p1.m_Buckets = p.m_Buckets ∧ p1.m_Names = p.m_Names ∧ p1.m_countries = p.m_countries
        ∧ (∀ k, p1.bucketOf k = p.bucketOf k)
        ∧ p1.m_ThreadPoolSemaphore = p.m_ThreadPoolSemaphore ∧ p1.m_ThreadPool = p.m_ThreadPool := by
  have h : p.call worldMap fb = .ok p := by simp [Polygonizer.call, hworld]
  refine ⟨h, fun p1 h1 => ?_⟩
  rw [h] at h1
  cases Except.ok.inj h1
  exact ⟨rfl, rfl, rfl, fun _ => rfl, rfl, rfl⟩

theorem C3_world_filter_absorbs_witness :
    Scenario.afterX.call Scenario.allWorld Scenario.featureY = .ok Scenario.afterX :=
  (C3_world_filter_absorbs Scenario.allWorld Scenario.afterX Scenario.featureY rfl).1

/-- Claim C5. `EmitFeature` on a region of the catalog whose index is the
sentinel or the position of a bucket. With the sentinel it appends one new
bucket named after the region and the name of the region, and records the
position of that bucket as the index of the region; with an assigned index it
creates no bucket. In both cases the feature is appended to the bucket at the
index of the region and every other bucket is as before. -/
theorem C5_emit_feature (p : Polygonizer) (k : Nat) (fb : FeatureBuilder1)
    (c : kml.CountryPolygons) (hk : p.m_countries[k]? = some c)
    (hidx : c.m_index ≠ -1 → 0 ≤ c.m_index ∧ c.m_index.toNat < p.m_Buckets.length) :
    ∃ p1, p.EmitFeature k fb = .ok p1
      ∧ (c.m_index = -1 →
          p1.m_Buckets = p.m_Buckets ++ [{ m_name := c.m_name, m_features := [fb] }]
          ∧ p1.m_Names = p.m_Names ++ [c.m_name]
          ∧ p1.m_countries = p.m_countries.set k { c with m_index := (p.m_Buckets.length : Int) })
      ∧ (c.m_index ≠ -1 →
          p1.m_Buckets.length = p.m_Buckets.length ∧ p1.m_Names = p.m_Names
          ∧ p1.m_countries = p.m_countries)
      ∧ ∃ (i : Nat) (c1 : kml.CountryPolygons) (b1 : FeatureOutT),
          p1.m_countries[k]? = some c1 ∧ c1.m_index = (i : Int) ∧ p1.m_Buckets[i]? = some b1
          ∧ b1.m_features
              = (match p.m_Buckets[i]? with | some b => b.m_features | none => []) ++ [fb]
          ∧ ∀ j, j ≠ i → p1.m_Buckets[j]? = p.m_Buckets[j]? := by
  have hklt : k < p.m_countries.length := (List.getElem?_eq_some.1 hk).1
  by_cases hc : c.m_index = -1
  · refine ⟨_, Polygonizer.EmitFeature_unassigned p k fb c hk hc, fun _ => ⟨rfl, rfl, rfl⟩,
      fun h => absurd hc h, p.m_Buckets.length, _, _, List.getElem?_set_self hklt, rfl,
      List.getElem?_concat_length _ _, ?_, ?_⟩
    · simp
    · intro j hj
      simp only []
      by_cases hlt : j < p.m_Buckets.length
      · exact List.getElem?_append_left hlt
      · rw [List.getElem?_eq_none (by simp; omega), List.getElem?_eq_none (by omega)]
  · obtain ⟨h0, hlt⟩ := hidx hc
    have hb : p.m_Buckets[c.m_index.toNat]? = some p.m_Buckets[c.m_index.toNat] :=
      List.getElem?_eq_getElem hlt
    refine ⟨_, Polygonizer.EmitFeature_assigned p k fb c _ hk hc h0 hb, fun h => absurd h hc,
      fun _ => ⟨by simp, rfl, rfl⟩, c.m_index.toNat, c, _, hk, by omega,
      List.getElem?_set_self hlt, ?_, ?_⟩
    · simp [hb, FeatureOutT.call]
    · intro j hj
      exact List.getElem?_set_ne (Ne.symm hj)

theorem C5_emit_feature_witness :
    ∃ p1, Scenario.afterX.EmitFeature 0 Scenario.featureY = .ok p1
      ∧ ((0 : Int) = -1 →
          p1.m_Buckets = Scenario.afterX.m_Buckets ++ [{ m_name := "A", m_features := [Scenario.featureY] }]
          ∧ p1.m_Names = ["A"] ++ ["A"]
          ∧ p1.m_countries = Scenario.afterX.m_countries.set 0
              { Scenario.regionA with m_index := ((1 : Nat) : Int) })
      ∧ ((0 : Int) ≠ -1 →
          p1.m_Buckets.length = 1 ∧ p1.m_Names = ["A"]
          ∧ p1.m_countries = Scenario.afterX.m_countries)
      ∧ ∃ (i : Nat) (c1 : kml.CountryPolygons) (b1 : FeatureOutT),
          p1.m_countries[0]? = some c1 ∧ c1.m_index = (i : Int) ∧ p1.m_Buckets[i]? = some b1
          ∧ b1.m_features
              = (match Scenario.afterX.m_Buckets[i]? with
                  | some b => b.m_features | none => []) ++ [Scenario.featureY]
          ∧ ∀ j, j ≠ i → p1.m_Buckets[j]? = Scenario.afterX.m_Buckets[j]? :=
  C5_emit_feature Scenario.afterX 0 Scenario.featureY { Scenario.regionA with m_index := 0 } rfl
    (fun _ => by decide)

end feature

namespace feature

/-- When the containment primitive accepts only points of the bounding
rectangle of the boundary, the point-sized range query misses no boundary
that contains the point. -/
theorem PointChecker.hit_iff (Contains : kml.Region → m2.PointD → Bool)
    (hcontains : ∀ rgn pt, Contains rgn pt = true →
      (m2.RectD.ofPoints pt pt).IsIntersect rgn.m_rect = true)
    (regions : kml.RegionsContainerT) (pt : m2.PointD) :
    PointChecker.hit Contains regions pt = true ↔ ∃ rgn ∈ regions, Contains rgn pt = true := by
  unfold PointChecker.hit
  rw [List.any_eq_true]
  constructor
  · rintro ⟨e, he, hc⟩
    have := (inRect_mem kml.Region.m_rect (m2.RectD.ofPoints pt pt) regions 0 e.1 e.2).1 he
    exact ⟨e.2, List.getElem?_mem this.2.1, hc⟩
  · rintro ⟨rgn, hr, hc⟩
    obtain ⟨i, hi⟩ := List.getElem?_of_mem hr
    exact ⟨(i, rgn), (inRect_mem _ _ _ 0 i rgn).2 ⟨Nat.zero_le _, by simpa using hi,
      hcontains rgn pt hc⟩, hc⟩

theorem Polygonizer.passes_iff (Contains : kml.Region → m2.PointD → Bool)
    (hcontains : ∀ rgn pt, Contains rgn pt = true →
      (m2.RectD.ofPoints pt pt).IsIntersect rgn.m_rect = true)
    (p : Polygonizer) (k : Nat) (c : kml.CountryPolygons) (fb : FeatureBuilder1)
    (hk : p.m_countries[k]? = some c) :
    p.passes Contains k fb = true ↔
      ∃ pt ∈ fb.m_Geometry, ∃ rgn ∈ c.m_regions, Contains rgn pt = true := by
  simp only [Polygonizer.passes, hk, PolygonizerTask.check_belongs, List.any_eq_true]
  constructor
  · rintro ⟨pt, hpt, h⟩
    exact ⟨pt, hpt, (PointChecker.hit_iff Contains hcontains c.m_regions pt).1 h⟩
  · rintro ⟨pt, hpt, h⟩
    exact ⟨pt, hpt, (PointChecker.hit_iff Contains hcontains c.m_regions pt).2 h⟩

theorem append_singleton_ne {α : Type} (l : List α) (a : α) : l ++ [a] ≠ l := by
  intro h
  have := congrArg List.length h
  simp at this

/-- Claim C1. For a feature that the world map generator does not absorb and
that has two or more candidate regions, the dispatch queues the slow-path task
(or waits for a permit), and the task, run on any later state of the same
catalog, returns and appends the feature to the bucket of a candidate exactly
when a true point of the feature lies inside a boundary of that candidate:
every such candidate receives it, every other candidate keeps its bucket. The
containment primitive is assumed to accept only points of the bounding
rectangle of the boundary. -/
theorem C1_slow_path_emits_iff_inside (Contains : kml.Region → m2.PointD → Bool)
    (worldMap : FeatureBuilder1 → Bool) (p q : Polygonizer) (fb : FeatureBuilder1)
    (hworld : worldMap fb = false) (hmany : 2 ≤ (p.candidates fb).length)
    (hcat : q.catalog = p.catalog) (hinv : q.Inv)
    (hcontains : ∀ rgn pt, Contains rgn pt = true →
      (m2.RectD.ofPoints pt pt).IsIntersect rgn.m_rect = true) :
    (p.call worldMap fb =
        if p.m_ThreadPoolSemaphore = 0 then .error .blocked
        else .ok { p with
                   m_ThreadPoolSemaphore := p.m_ThreadPoolSemaphore - 1
                   m_ThreadPool := p.m_ThreadPool ++
                     [({ m_Countries := p.candidates fb, m_FB := fb }, 0)] })
    ∧ ∃ q1, PolygonizerTask.run Contains { m_Countries := p.candidates fb, m_FB := fb } q = .ok q1
      ∧ ∀ (k : Nat) (c : kml.CountryPolygons), k ∈ p.candidates fb → p.m_countries[k]? = some c →
          (q1.bucketOf k = q.bucketOf k ++ [fb] ↔
            ∃ pt ∈ fb.m_Geometry, ∃ rgn ∈ c.m_regions, Contains rgn pt = true)
          ∧ (q1.bucketOf k = q.bucketOf k ∨ q1.bucketOf k = q.bucketOf k ++ [fb]) := by
  have hne : (p.candidates fb).length ≠ 1 := by omega
  refine ⟨by simp [Polygonizer.call, hworld, hne], ?_⟩
  have hlen := Polygonizer.length_of_catalog p q hcat
  obtain ⟨q1, hr, -, -, -, -, hbuck⟩ :=
    PolygonizerTask.runFrom_spec Contains { m_Countries := p.candidates fb, m_FB := fb } 0 q hinv
      (fun c hc => by rw [hlen]; exact Polygonizer.candidates_lt p fb c hc)
  refine ⟨q1, hr, fun k c hk hc => ?_⟩
  have hb := hbuck k
  simp only [List.drop_zero] at hb
  rw [replicate_count_nodup _ _ _ _ (Polygonizer.candidates_nodup p fb),
    Polygonizer.passes_congr Contains p q k fb hcat] at hb
  rw [← Polygonizer.passes_iff Contains hcontains p k c fb hc]
  by_cases hp : p.passes Contains k fb = true
  · rw [if_pos ⟨hk, hp⟩] at hb
    exact ⟨⟨fun _ => hp, fun _ => hb⟩, Or.inr hb⟩
  · rw [if_neg (fun h => hp h.2), List.append_nil] at hb
    refine ⟨⟨fun h => ?_, fun h => absurd h hp⟩, Or.inl hb⟩
    rw [hb] at h
    exact absurd h.symm (append_singleton_ne _ _)

theorem C1_slow_path_emits_iff_inside_witness :
    ∃ q1, PolygonizerTask.run Scenario.inRectangle
        { m_Countries := Scenario.start.candidates Scenario.featureY, m_FB := Scenario.featureY }
        Scenario.afterX = .ok q1
      ∧ ∀ (k : Nat) (c : kml.CountryPolygons), k ∈ Scenario.start.candidates Scenario.featureY →
          Scenario.start.m_countries[k]? = some c →
          (q1.bucketOf k = Scenario.afterX.bucketOf k ++ [Scenario.featureY] ↔
            ∃ pt ∈ Scenario.featureY.m_Geometry, ∃ rgn ∈ c.m_regions,
              Scenario.inRectangle rgn pt = true)
          ∧ (q1.bucketOf k = Scenario.afterX.bucketOf k
              ∨ q1.bucketOf k = Scenario.afterX.bucketOf k ++ [Scenario.featureY]) :=
  (C1_slow_path_emits_iff_inside Scenario.inRectangle Scenario.noWorld Scenario.start
    Scenario.afterX Scenario.featureY rfl (by decide) rfl Scenario.afterX_inv
    (fun _ _ h => h)).2

/-- Claim C2. For a feature that the world map generator does not absorb and
that has exactly one candidate region, the dispatch is the single call
`EmitFeature(vec[0], fb)`: it returns, the bucket of that region gains exactly
one copy of the feature, every other bucket is unchanged, no permit is taken
and no task is started. Neither the true points of the feature nor the
containment primitive take part: the statement holds for every feature, also
one without any true point. -/
theorem C2_fast_path_emits_once (worldMap : FeatureBuilder1 → Bool) (p : Polygonizer)
    (fb : FeatureBuilder1) (hinv : p.Inv) (hworld : worldMap fb = false)
    (hone : (p.candidates fb).length = 1) :
    ∃ c p1, p.candidates fb = [c] ∧ p.call worldMap fb = p.EmitFeature c fb
      ∧ p.call worldMap fb = .ok p1
      ∧ (∀ j, p1.bucketOf j = if j = c then p.bucketOf c ++ [fb] else p.bucketOf j)
      ∧ p1.m_ThreadPoolSemaphore = p.m_ThreadPoolSemaphore
      ∧ p1.m_ThreadPool = p.m_ThreadPool := by
  obtain ⟨c, hc⟩ := List.length_eq_one.1 hone
  have hclt : c < p.m_countries.length :=
    Polygonizer.candidates_lt p fb c (by rw [hc]; exact List.mem_singleton_self c)
  obtain ⟨p1, he⟩ := Polygonizer.EmitFeature_total p c fb hinv hclt
  have hcall : p.call worldMap fb = p.EmitFeature c fb := by
    simp [Polygonizer.call, hworld, hc]
  obtain ⟨hpool, hsem, -⟩ := Polygonizer.EmitFeature_frame p p1 c fb he
  refine ⟨c, p1, hc, hcall, hcall.trans he, (Polygonizer.EmitFeature_inv p p1 c fb hinv he).2,
    hsem, hpool⟩

/-- A feature in the rectangle of `A` only, without any true point. -/
theorem C2_fast_path_emits_once_witness :
    ∃ c p1, Scenario.afterX.candidates { Scenario.featureX with m_Geometry := [] } = [c]
      ∧ Scenario.afterX.call Scenario.noWorld { Scenario.featureX with m_Geometry := [] }
          = Scenario.afterX.EmitFeature c { Scenario.featureX with m_Geometry := [] }
      ∧ Scenario.afterX.call Scenario.noWorld { Scenario.featureX with m_Geometry := [] } = .ok p1
      ∧ (∀ j, p1.bucketOf j =
          if j = c then
            Scenario.afterX.bucketOf c ++ [{ Scenario.featureX with m_Geometry := [] }]
          else Scenario.afterX.bucketOf j)
      ∧ p1.m_ThreadPoolSemaphore = Scenario.afterX.m_ThreadPoolSemaphore
      ∧ p1.m_ThreadPool = Scenario.afterX.m_ThreadPool :=
  C2_fast_path_emits_once Scenario.noWorld Scenario.afterX
    { Scenario.featureX with m_Geometry := [] } Scenario.afterX_inv rfl (by decide)

end feature

namespace feature

/-- Claim C8. A feature that the world map generator does not absorb and that
has no candidate region. With a free permit the dispatch returns, having
changed neither the buckets nor the names nor any region: it has taken one
permit and queued a task without candidates. That task, on whatever state it
runs, returns the state with the permit given back and nothing else changed.
From a quiescent state the dispatch followed by `Finish` returns the state it
started from. Without a free permit the dispatch waits; it never fails. -/
theorem C8_no_candidate_dropped (Contains : kml.Region → m2.PointD → Bool)
    (worldMap : FeatureBuilder1 → Bool) (p : Polygonizer) (fb : FeatureBuilder1)
    (hworld : worldMap fb = false) (hempty : p.candidates fb = []) :
    (0 < p.m_ThreadPoolSemaphore →
      ∃ p1, p.call worldMap fb = .ok p1
        ∧ p1.m_Buckets = p.m_Buckets ∧ p1.m_Names = p.m_Names ∧ p1.m_countries = p.m_countries
        ∧ p1.m_ThreadPoolSemaphore + 1 = p.m_ThreadPoolSemaphore
        ∧ p1.m_ThreadPool = p.m_ThreadPool ++ [({ m_Countries := [], m_FB := fb }, 0)]
        ∧ (p.m_ThreadPool = [] → p1.Finish Contains = .ok p))
    ∧ (∀ q : Polygonizer, PolygonizerTask.run Contains { m_Countries := [], m_FB := fb } q
        = .ok { q with m_ThreadPoolSemaphore := q.m_ThreadPoolSemaphore + 1 })
    ∧ (p.m_ThreadPoolSemaphore = 0 → p.call worldMap fb = .error .blocked) := by
  refine ⟨fun hperm => ?_, fun q => rfl, fun h0 => by simp [Polygonizer.call, hworld, hempty, h0]⟩
  have hsem : p.m_ThreadPoolSemaphore ≠ 0 := by omega
  refine ⟨{ p with
            m_ThreadPoolSemaphore := p.m_ThreadPoolSemaphore - 1
            m_ThreadPool := p.m_ThreadPool ++ [({ m_Countries := [], m_FB := fb }, 0)] },
    by simp [Polygonizer.call, hworld, hempty, hsem], rfl, rfl, rfl, ?_, rfl, ?_⟩
  · simp only []
    omega
  · intro hidle
    cases p
    simp only at hidle hperm
    subst hidle
    simp only [Polygonizer.Finish, List.nil_append, Polygonizer.drain, PolygonizerTask.runFrom,
      List.drop_zero, PolygonizerTask.loop]
    congr 2
    omega

theorem C8_no_candidate_dropped_witness :
    (0 < Scenario.afterX.m_ThreadPoolSemaphore →
      ∃ p1, Scenario.afterX.call Scenario.noWorld Scenario.featureW = .ok p1
        ∧ p1.m_Buckets = Scenario.afterX.m_Buckets ∧ p1.m_Names = Scenario.afterX.m_Names
        ∧ p1.m_countries = Scenario.afterX.m_countries
        ∧ p1.m_ThreadPoolSemaphore + 1 = Scenario.afterX.m_ThreadPoolSemaphore
        ∧ p1.m_ThreadPool = Scenario.afterX.m_ThreadPool
            ++ [({ m_Countries := [], m_FB := Scenario.featureW }, 0)]
        ∧ (Scenario.afterX.m_ThreadPool = [] →
            p1.Finish Scenario.inRectangle = .ok Scenario.afterX))
    ∧ (∀ q : Polygonizer,
        PolygonizerTask.run Scenario.inRectangle { m_Countries := [], m_FB := Scenario.featureW } q
          = .ok { q with m_ThreadPoolSemaphore := q.m_ThreadPoolSemaphore + 1 })
    ∧ (Scenario.afterX.m_ThreadPoolSemaphore = 0 →
        Scenario.afterX.call Scenario.noWorld Scenario.featureW = .error .blocked) :=
  C8_no_candidate_dropped Scenario.inRectangle Scenario.noWorld Scenario.afterX Scenario.featureW
    rfl (by decide)

end feature

namespace feature

theorem Scenario.callXX :
    Scenario.afterX.call Scenario.noWorld Scenario.featureX = .ok Scenario.afterXX := by rfl

/-- Claim C6. In every state of an execution that starts from the freshly
constructed polygonizer, in particular once `Finish` has returned, for a
catalog whose regions have pairwise distinct names: `Names()` has no
duplicate; the name of a region is in it exactly when the bucket of the region
holds at least one feature, and it holds no other name; the names stand in
the order of the buckets, which is the order of creation, every earlier names
list being an initial segment of every later one. -/
theorem C6_names_are_realized_regions (Contains : kml.Region → m2.PointD → Bool)
    (worldMap : FeatureBuilder1 → Bool) (cat : kml.CountriesContainerT) (n : Nat)
    (p0 p : Polygonizer) (hnew : Polygonizer.new (some cat) n = some p0)
    (hfresh : ∀ c ∈ cat, c.m_index = -1)
    (hdistinct : (cat.map kml.CountryPolygons.m_name).Nodup)
    (hrun : Steps Contains worldMap p0 p) :
    p.Names.Nodup
    ∧ (∀ (k : Nat) (c : kml.CountryPolygons), p.m_countries[k]? = some c →
        (c.m_name ∈ p.Names ↔ p.bucketOf k ≠ []))
    ∧ (∀ nm ∈ p.Names, ∃ (k : Nat) (c : kml.CountryPolygons),
        p.m_countries[k]? = some c ∧ c.m_name = nm ∧ p.bucketOf k ≠ [])
    ∧ p.m_countries.map kml.CountryPolygons.m_name = cat.map kml.CountryPolygons.m_name
    ∧ p.Names = p.m_Buckets.map FeatureOutT.m_name
    ∧ (∀ q, Steps Contains worldMap p0 q → Steps Contains worldMap q p → q.Names <+: p.Names) := by
  have hinv : p.Inv := steps_inv hrun (Polygonizer.new_inv cat n p0 hnew hfresh)
  have hcat : p.m_countries.map kml.CountryPolygons.m_name
      = cat.map kml.CountryPolygons.m_name := by
    rw [Polygonizer.names_of_catalog p0 p (steps_grows hrun).catalog]
    simp only [Polygonizer.new, Option.some.injEq] at hnew
    subst hnew
    rfl
  obtain ⟨h1, h2, h3⟩ := Polygonizer.names_spec p hinv (by rw [hcat]; exact hdistinct)
  exact ⟨h1, h2, h3, hcat, hinv.names, fun q _ hq => (steps_grows hq).names⟩

theorem C6_names_are_realized_regions_witness :
    Scenario.afterX.Names.Nodup
    ∧ (∀ (k : Nat) (c : kml.CountryPolygons), Scenario.afterX.m_countries[k]? = some c →
        (c.m_name ∈ Scenario.afterX.Names ↔ Scenario.afterX.bucketOf k ≠ []))
    ∧ (∀ nm ∈ Scenario.afterX.Names, ∃ (k : Nat) (c : kml.CountryPolygons),
        Scenario.afterX.m_countries[k]? = some c ∧ c.m_name = nm
          ∧ Scenario.afterX.bucketOf k ≠ [])
    ∧ Scenario.afterX.m_countries.map kml.CountryPolygons.m_name
        = Scenario.countries.map kml.CountryPolygons.m_name
    ∧ Scenario.afterX.Names = Scenario.afterX.m_Buckets.map FeatureOutT.m_name
    ∧ (∀ q, Steps Scenario.inRectangle Scenario.noWorld Scenario.start q →
        Steps Scenario.inRectangle Scenario.noWorld q Scenario.afterX →
        q.Names <+: Scenario.afterX.Names) :=
  C6_names_are_realized_regions Scenario.inRectangle Scenario.noWorld Scenario.countries 1
    Scenario.start Scenario.afterX rfl Scenario.countries_fresh (by decide)
    (Relation.ReflTransGen.single
      (Step.dispatch Scenario.start Scenario.afterX Scenario.featureX Scenario.callX))

/-- Claim C7. Along every execution (dispatches, direct calls of
`EmitFeature`, iterations and completions of tasks, in any interleaving), a
region whose bucket index is not the sentinel keeps that index in every later
state. -/
theorem C7_index_never_changes (Contains : kml.Region → m2.PointD → Bool)
    (worldMap : FeatureBuilder1 → Bool) (p p1 : Polygonizer) (k : Nat)
    (c : kml.CountryPolygons) (hrun : Steps Contains worldMap p p1)
    (hk : p.m_countries[k]? = some c) (hc : c.m_index ≠ -1) :
    ∃ c1, p1.m_countries[k]? = some c1 ∧ c1.m_index = c.m_index :=
  ⟨c, (steps_grows hrun).assigned k c hk hc, rfl⟩

theorem C7_index_never_changes_witness :
    ∃ c1, Scenario.afterXX.m_countries[0]? = some c1 ∧ c1.m_index = 0 :=
  C7_index_never_changes Scenario.inRectangle Scenario.noWorld Scenario.afterX Scenario.afterXX 0
    { Scenario.regionA with m_index := 0 }
    (Relation.ReflTransGen.single
      (Step.dispatch Scenario.afterX Scenario.afterXX Scenario.featureX Scenario.callXX))
    rfl (by decide)

end feature

namespace feature

/-! ## The admission gate -/

theorem Scenario.callY :
    Scenario.start.call Scenario.noWorld Scenario.featureY = .ok Scenario.queuedY := by rfl

/-- Permits and started tasks add up to the same number before and after a
step. -/
theorem step_permits {Contains : kml.Region → m2.PointD → Bool}
    {worldMap : FeatureBuilder1 → Bool} {p p1 : Polygonizer}
    (h : Step Contains worldMap p p1) :
    p1.m_ThreadPoolSemaphore + p1.m_ThreadPool.length
      = p.m_ThreadPoolSemaphore + p.m_ThreadPool.length := by
  cases h
  case dispatch fb hc =>
    rcases Polygonizer.call_ok_cases worldMap p p1 fb hc with
      ⟨-, rfl⟩ | ⟨-, c, -, he⟩ | ⟨-, -, hpos, rfl⟩
    · rfl
    · obtain ⟨h1, h2, -⟩ := Polygonizer.EmitFeature_frame p p1 c fb he
      rw [h1, h2]
    · simp only [List.length_append, List.length_singleton]
      omega
  case emit k fb he =>
    obtain ⟨h1, h2, -⟩ := Polygonizer.EmitFeature_frame p p1 k fb he
    rw [h1, h2]
  case iterate s1 j t i c hj hc hb =>
    obtain ⟨-, h1, h2⟩ := PolygonizerTask.body_grows Contains p s1 c t.m_FB hb
    simp only [List.length_set]
    rw [h1, h2]
  case complete j t i hj hi =>
    have hlt : j < p.m_ThreadPool.length := (List.getElem?_eq_some.1 hj).1
    simp only [List.length_eraseIdx, hlt, if_true]
    omega

theorem steps_permits {Contains : kml.Region → m2.PointD → Bool}
    {worldMap : FeatureBuilder1 → Bool} {p p1 : Polygonizer}
    (h : Steps Contains worldMap p p1) :
    p1.m_ThreadPoolSemaphore + p1.m_ThreadPool.length
      = p.m_ThreadPoolSemaphore + p.m_ThreadPool.length := by
  induction h with
  | refl => rfl
  | tail _ hstep ih => exact (step_permits hstep).trans ih

/-- Claim C11. In every state reachable from the constructed polygonizer,
whose semaphore starts with `maxThreadCount * 4` permits, the free permits and
the tasks started and not yet completed add up to `4 * maxThreadCount`; so the
number of such tasks never exceeds `4 * maxThreadCount`. -/
theorem C11_admitted_tasks_bounded (Contains : kml.Region → m2.PointD → Bool)
    (worldMap : FeatureBuilder1 → Bool) (cat : kml.CountriesContainerT) (n : Nat)
    (p0 p : Polygonizer) (hnew : Polygonizer.new (some cat) n = some p0)
    (hrun : Steps Contains worldMap p0 p) :
    p0.m_ThreadPoolSemaphore = 4 * n ∧ p0.m_ThreadPool = []
    ∧ p.maxThreadCount = n
    ∧ p.m_ThreadPoolSemaphore + p.m_ThreadPool.length = 4 * n
    ∧ p.m_ThreadPool.length ≤ 4 * p.maxThreadCount := by
  have hp := steps_permits hrun
  have hthreads := (steps_grows hrun).threads
  simp only [Polygonizer.new, Option.some.injEq] at hnew
  subst hnew
  simp only [List.length_nil, Nat.add_zero] at hp hthreads
  refine ⟨by simp only []; omega, rfl, hthreads, by omega, by omega⟩

theorem C11_admitted_tasks_bounded_witness :
    Scenario.start.m_ThreadPoolSemaphore = 4 * 1 ∧ Scenario.start.m_ThreadPool = []
    ∧ Scenario.queuedY.maxThreadCount = 1
    ∧ Scenario.queuedY.m_ThreadPoolSemaphore + Scenario.queuedY.m_ThreadPool.length = 4 * 1
    ∧ Scenario.queuedY.m_ThreadPool.length ≤ 4 * Scenario.queuedY.maxThreadCount :=
  C11_admitted_tasks_bounded Scenario.inRectangle Scenario.noWorld Scenario.countries 1
    Scenario.start Scenario.queuedY rfl
    (Relation.ReflTransGen.single
      (Step.dispatch Scenario.start Scenario.queuedY Scenario.featureY Scenario.callY))

/-! ## Construction -/

/-- Claim C13. When the loader reports a failure the constructor yields no
polygonizer, whatever part of the catalog the loader has left behind; when it
reports success the constructor yields the polygonizer with no bucket, no
name, the loaded catalog, no started task and `maxThreadCount * 4` permits;
every region has the index the loader gave it, so every index is unassigned
when the loader creates regions with the sentinel. Every polygonizer that
exists holds a catalog that was loaded with success. -/
theorem C13_construction (r : LoadResult) (n : Nat) :
    (r.ok = false → Polygonizer.construct r n = none)
    ∧ (r.ok = true →
        ∃ p, Polygonizer.construct r n = some p
          ∧ p.m_Buckets = [] ∧ p.m_Names = [] ∧ p.m_countries = r.countries
          ∧ p.m_ThreadPool = [] ∧ p.m_ThreadPoolSemaphore = n * 4
          ∧ (∀ k, p.bucketOf k = [])
          ∧ ((∀ c ∈ r.countries, c.m_index = -1) →
              (∀ (k : Nat) (c : kml.CountryPolygons), p.m_countries[k]? = some c →
                c.m_index = -1) ∧ p.Inv))
    ∧ (∀ p, Polygonizer.construct r n = some p → r.ok = true ∧ p.m_countries = r.countries) := by
  refine ⟨fun h => by simp [Polygonizer.construct, Polygonizer.new, h], fun h => ?_, fun p hp => ?_⟩
  · have hc : Polygonizer.construct r n = Polygonizer.new (some r.countries) n := by
      simp [Polygonizer.construct, h]
    refine ⟨_, hc, rfl, rfl, rfl, rfl, rfl, ?_, fun hfresh =>
      ⟨fun k c hk => hfresh c (List.getElem?_mem hk),
        Polygonizer.new_inv r.countries n _ rfl hfresh⟩⟩
    intro k
    simp only [Polygonizer.bucketOf]
    cases hk : r.countries[k]? with
    | none => rfl
    | some c => simp
  · cases hok : r.ok with
    | false => simp [Polygonizer.construct, Polygonizer.new, hok] at hp
    | true =>
      simp only [Polygonizer.construct, hok, if_true, Polygonizer.new, Option.some.injEq] at hp
      subst hp
      exact ⟨rfl, rfl⟩

end feature

namespace feature

/-! ## Scheduled and synchronous dispatch -/

/-- Claim C16. For a feature that the world map generator does not absorb, a
dispatch that returns has taken exactly one permit and started exactly one
task exactly when the number of candidates differs from one. With one
candidate the dispatch is the synchronous emission and leaves semaphore and
pool alone. With any other number, zero included, it takes a permit (waiting
while none is free) and queues the task; the task of a feature without
candidates evaluates nothing, emits nothing and gives its permit back. -/
theorem C16_permit_iff_not_single (Contains : kml.Region → m2.PointD → Bool)
    (worldMap : FeatureBuilder1 → Bool) (p : Polygonizer) (fb : FeatureBuilder1)
    (hworld : worldMap fb = false) :
    (∀ p1, p.call worldMap fb = .ok p1 →
      ((p.candidates fb).length ≠ 1 ↔
        (p1.m_ThreadPoolSemaphore + 1 = p.m_ThreadPoolSemaphore
          ∧ p1.m_ThreadPool = p.m_ThreadPool
              ++ [({ m_Countries := p.candidates fb, m_FB := fb }, 0)])))
    ∧ ((p.candidates fb).length = 1 →
        (∀ p1, p.call worldMap fb = .ok p1 →
          p1.m_ThreadPoolSemaphore = p.m_ThreadPoolSemaphore ∧ p1.m_ThreadPool = p.m_ThreadPool
          ∧ ∃ c, p.candidates fb = [c] ∧ p.EmitFeature c fb = .ok p1)
        ∧ (p.Inv → ∃ p1, p.call worldMap fb = .ok p1))
    ∧ ((p.candidates fb).length ≠ 1 →
        (0 < p.m_ThreadPoolSemaphore →
          p.call worldMap fb = .ok
            { p with
              m_ThreadPoolSemaphore := p.m_ThreadPoolSemaphore - 1
              m_ThreadPool := p.m_ThreadPool
                ++ [({ m_Countries := p.candidates fb, m_FB := fb }, 0)] })
        ∧ (p.m_ThreadPoolSemaphore = 0 → p.call worldMap fb = .error .blocked))
    ∧ (p.candidates fb = [] →
        ∀ q : Polygonizer,
          PolygonizerTask.run Contains { m_Countries := p.candidates fb, m_FB := fb } q
            = .ok { q with m_ThreadPoolSemaphore := q.m_ThreadPoolSemaphore + 1 }) := by
  refine ⟨fun p1 h1 => ?_, fun hone => ⟨fun p1 h1 => ?_, fun hinv => ?_⟩,
    fun hne => ⟨fun hpos => ?_, fun h0 => ?_⟩, fun hempty q => ?_⟩
  · rcases Polygonizer.call_ok_cases worldMap p p1 fb h1 with
      ⟨hw, -⟩ | ⟨-, c, hc, he⟩ | ⟨-, hne, hpos, rfl⟩
    · rw [hworld] at hw
      exact absurd hw (by decide)
    · obtain ⟨-, hsem, -⟩ := Polygonizer.EmitFeature_frame p p1 c fb he
      constructor
      · intro hne
        rw [hc] at hne
        exact absurd rfl hne
      · rintro ⟨hs, -⟩
        omega
    · exact ⟨fun _ => ⟨by simp only []; omega, rfl⟩, fun _ => hne⟩
  · rcases Polygonizer.call_ok_cases worldMap p p1 fb h1 with
      ⟨hw, -⟩ | ⟨-, c, hc, he⟩ | ⟨-, hne, -, -⟩
    · rw [hworld] at hw
      exact absurd hw (by decide)
    · obtain ⟨hpool, hsem, -⟩ := Polygonizer.EmitFeature_frame p p1 c fb he
      exact ⟨hsem, hpool, c, hc, he⟩
    · exact absurd hone hne
  · obtain ⟨c, hc⟩ := List.length_eq_one.1 hone
    obtain ⟨p1, he⟩ := Polygonizer.EmitFeature_total p c fb hinv
      (Polygonizer.candidates_lt p fb c (by rw [hc]; exact List.mem_singleton_self c))
    exact ⟨p1, by simp [Polygonizer.call, hworld, hc, he]⟩
  · have hsem : p.m_ThreadPoolSemaphore ≠ 0 := by omega
    simp [Polygonizer.call, hworld, hne, hsem]
  · simp [Polygonizer.call, hworld, hne, h0]
  · rw [hempty]
    rfl

theorem C16_permit_iff_not_single_witness :
    Scenario.start.call Scenario.noWorld Scenario.featureW = .ok
      { Scenario.start with
        m_ThreadPoolSemaphore := Scenario.start.m_ThreadPoolSemaphore - 1
        m_ThreadPool := Scenario.start.m_ThreadPool
          ++ [({ m_Countries := Scenario.start.candidates Scenario.featureW,
                 m_FB := Scenario.featureW }, 0)] } :=
  ((C16_permit_iff_not_single Scenario.inRectangle Scenario.noWorld Scenario.start
    Scenario.featureW rfl).2.2.1 (by decide)).1 (by decide)

/-! ## The registry invariant in reachable states -/

/-- Claim C17. In every state reachable from the constructed polygonizer by
dispatches, calls of `EmitFeature` and steps of tasks: names and buckets are
equally many; an assigned index is a position `i` of the bucket list, and the
name at position `i` is the name of the region; two distinct regions never
hold the same assigned index. So `EmitFeature` returns for every region of the
catalog: its lookup `m_Buckets[country->m_index]` is in bounds. -/
theorem C17_registry_invariant (Contains : kml.Region → m2.PointD → Bool)
    (worldMap : FeatureBuilder1 → Bool) (cat : kml.CountriesContainerT) (n : Nat)
    (p0 p : Polygonizer) (hnew : Polygonizer.new (some cat) n = some p0)
    (hfresh : ∀ c ∈ cat, c.m_index = -1)
    (hrun : Steps Contains worldMap p0 p) :
    p.m_Names.length = p.m_Buckets.length
    ∧ (∀ (k : Nat) (c : kml.CountryPolygons), p.m_countries[k]? = some c → c.m_index ≠ -1 →
        ∃ i : Nat, c.m_index = (i : Int) ∧ i < p.m_Buckets.length
          ∧ p.m_Names[i]? = some c.m_name)
    ∧ (∀ (k1 k2 : Nat) (c1 c2 : kml.CountryPolygons), p.m_countries[k1]? = some c1 →
        p.m_countries[k2]? = some c2 → k1 ≠ k2 → c1.m_index ≠ -1 → c1.m_index ≠ c2.m_index)
    ∧ (∀ (k : Nat) (fb : FeatureBuilder1), k < p.m_countries.length →
        ∃ p1, p.EmitFeature k fb = .ok p1) := by
  have hinv : p.Inv := steps_inv hrun (Polygonizer.new_inv cat n p0 hnew hfresh)
  refine ⟨by rw [hinv.names, List.length_map], fun k c hk hc => ?_,
    fun k1 k2 c1 c2 h1 h2 hne hc1 he => hne (hinv.inj k1 k2 c1 c2 h1 h2 hc1 he),
    fun k fb hk => Polygonizer.EmitFeature_total p k fb hinv hk⟩
  obtain ⟨h0, b, hb, hn⟩ := hinv.bound k c hk hc
  refine ⟨c.m_index.toNat, by omega, (List.getElem?_eq_some.1 hb).1, ?_⟩
  rw [hinv.names, List.getElem?_map, hb]
  simp [hn]

theorem C17_registry_invariant_witness :
    Scenario.afterX.m_Names.length = Scenario.afterX.m_Buckets.length
    ∧ (∀ (k : Nat) (c : kml.CountryPolygons), Scenario.afterX.m_countries[k]? = some c →
        c.m_index ≠ -1 →
        ∃ i : Nat, c.m_index = (i : Int) ∧ i < Scenario.afterX.m_Buckets.length
          ∧ Scenario.afterX.m_Names[i]? = some c.m_name)
    ∧ (∀ (k1 k2 : Nat) (c1 c2 : kml.CountryPolygons),
        Scenario.afterX.m_countries[k1]? = some c1 →
        Scenario.afterX.m_countries[k2]? = some c2 → k1 ≠ k2 → c1.m_index ≠ -1 →
        c1.m_index ≠ c2.m_index)
    ∧ (∀ (k : Nat) (fb : FeatureBuilder1), k < Scenario.afterX.m_countries.length →
        ∃ p1, Scenario.afterX.EmitFeature k fb = .ok p1) :=
  C17_registry_invariant Scenario.inRectangle Scenario.noWorld Scenario.countries 1
    Scenario.start Scenario.afterX rfl Scenario.countries_fresh
    (Relation.ReflTransGen.single
      (Step.dispatch Scenario.start Scenario.afterX Scenario.featureX Scenario.callX))

end feature

namespace feature

/-! ## The order of emissions -/

theorem Polygonizer.emitAll_append (es1 es2 : List (Nat × FeatureBuilder1)) (p : Polygonizer) :
    p.emitAll (es1 ++ es2)
      = match p.emitAll es1 with
        | .error x => .error x
        | .ok p1 => p1.emitAll es2 := by
  induction es1 generalizing p with
  | nil => rfl
  | cons e es ih =>
    simp only [List.cons_append, Polygonizer.emitAll]
    cases he : p.EmitFeature e.1 e.2 with
    | error x => rfl
    | ok p1 => exact ih p1

/-- The loop of a task is the sequence of the emissions to the candidates
whose containment test passes, in the order of the candidates. -/
theorem PolygonizerTask.loop_eq_emitAll (Contains : kml.Region → m2.PointD → Bool)
    (fb : FeatureBuilder1) (cs : List Nat) (q : Polygonizer)
    (hcs : ∀ c ∈ cs, c < q.m_countries.length) :
    PolygonizerTask.loop Contains fb cs q
      = q.emitAll ((cs.filter (fun c => q.passes Contains c fb)).map (fun c => (c, fb))) := by
  induction cs generalizing q with
  | nil => rfl
  | cons c cs ih =>
    have hc : c < q.m_countries.length := hcs c (List.mem_cons_self _ _)
    have hcs1 : ∀ c1 ∈ cs, c1 < q.m_countries.length :=
      fun c1 h => hcs c1 (List.mem_cons_of_mem _ h)
    simp only [PolygonizerTask.loop]
    rw [PolygonizerTask.body_eq Contains q c fb hc]
    by_cases hp : q.passes Contains c fb = true
    · simp only [hp, if_true, List.filter_cons_of_pos, List.map_cons, Polygonizer.emitAll]
      cases he : q.EmitFeature c fb with
      | error x => rfl
      | ok q1 =>
        simp only []
        have hg := Polygonizer.EmitFeature_grows q q1 c fb he
        have hlen := Polygonizer.length_of_catalog q q1 hg.catalog
        rw [ih q1 (fun c1 h => by rw [hlen]; exact hcs1 c1 h)]
        have hpass : (fun c1 => q1.passes Contains c1 fb) = (fun c1 => q.passes Contains c1 fb) :=
          funext (fun c1 => Polygonizer.passes_congr Contains q q1 c1 fb hg.catalog)
        rw [hpass]
    · simp only [hp, Bool.false_eq_true, if_false, List.filter_cons_of_neg, not_false_eq_true]
      exact ih q hcs1

end feature

namespace feature

theorem Polygonizer.emitAll_single (p : Polygonizer) (c : Nat) (fb : FeatureBuilder1) :
    p.emitAll [(c, fb)] = p.EmitFeature c fb := by
  simp only [Polygonizer.emitAll]
  cases p.EmitFeature c fb <;> rfl

/-- The inline dispatch of a feature is the sequence of the emissions to its
targets. -/
theorem Polygonizer.callInline_eq_emitAll (Contains : kml.Region → m2.PointD → Bool)
    (worldMap : FeatureBuilder1 → Bool) (p : Polygonizer) (fb : FeatureBuilder1) :
    p.callInline Contains worldMap fb
      = p.emitAll ((p.targets Contains worldMap fb).map (fun c => (c, fb))) := by
  unfold Polygonizer.callInline Polygonizer.targets
  by_cases hw : worldMap fb = true
  · simp [hw, Polygonizer.emitAll]
  · have hw2 : worldMap fb = false := by simpa using hw
    by_cases hone : (p.candidates fb).length = 1
    · obtain ⟨c, hc⟩ := List.length_eq_one.1 hone
      rw [hc]
      simp only [hw2, Bool.false_eq_true, if_false, List.length_singleton, if_true,
        List.map_cons, List.map_nil, Polygonizer.emitAll_single, List.getElem?_cons_zero]
    · simp only [hw2, Bool.false_eq_true, if_false, hone]
      exact PolygonizerTask.loop_eq_emitAll Contains fb _ p
        (fun c hc => Polygonizer.candidates_lt p fb c hc)

theorem Polygonizer.targets_congr (Contains : kml.Region → m2.PointD → Bool)
    (worldMap : FeatureBuilder1 → Bool) (p p1 : Polygonizer) (fb : FeatureBuilder1)
    (h : p1.catalog = p.catalog) :
    p1.targets Contains worldMap fb = p.targets Contains worldMap fb := by
  unfold Polygonizer.targets
  rw [Polygonizer.candidates_congr p p1 fb h]
  have hpass : (fun c => p1.passes Contains c fb) = (fun c => p.passes Contains c fb) :=
    funext (fun c => Polygonizer.passes_congr Contains p p1 c fb h)
  rw [hpass]

theorem Polygonizer.emissions_congr (Contains : kml.Region → m2.PointD → Bool)
    (worldMap : FeatureBuilder1 → Bool) (p p1 : Polygonizer) (fbs : List FeatureBuilder1)
    (h : p1.catalog = p.catalog) :
    p1.emissions Contains worldMap fbs = p.emissions Contains worldMap fbs := by
  induction fbs with
  | nil => rfl
  | cons fb fbs ih =>
    simp only [Polygonizer.emissions, ih, Polygonizer.targets_congr Contains worldMap p p1 fb h]

theorem Polygonizer.emitAll_grows (es : List (Nat × FeatureBuilder1)) (p p1 : Polygonizer)
    (h : p.emitAll es = .ok p1) : p.Grows p1 := by
  induction es generalizing p with
  | nil =>
    cases Except.ok.inj h
    exact Polygonizer.Grows.refl _
  | cons e es ih =>
    simp only [Polygonizer.emitAll] at h
    cases he : p.EmitFeature e.1 e.2 with
    | error x => simp [he] at h
    | ok p2 =>
      simp only [he] at h
      exact (Polygonizer.EmitFeature_grows p p2 e.1 e.2 he).trans (ih p2 h)

/-- The dispatch of a sequence of features, each run to its end before the
next, is the sequence of all their emissions. -/
theorem Polygonizer.callAll_eq_emitAll (Contains : kml.Region → m2.PointD → Bool)
    (worldMap : FeatureBuilder1 → Bool) (fbs : List FeatureBuilder1) (p : Polygonizer) :
    p.callAll Contains worldMap fbs = p.emitAll (p.emissions Contains worldMap fbs) := by
  induction fbs generalizing p with
  | nil => rfl
  | cons fb fbs ih =>
    simp only [Polygonizer.callAll, Polygonizer.emissions, Polygonizer.emitAll_append,
      Polygonizer.callInline_eq_emitAll]
    cases he : p.emitAll ((p.targets Contains worldMap fb).map (fun c => (c, fb))) with
    | error x => rfl
    | ok p1 =>
      simp only []
      rw [ih p1, Polygonizer.emissions_congr Contains worldMap p p1 fbs
        (Polygonizer.emitAll_grows _ p p1 he).catalog]

theorem Polygonizer.nameOf_congr (p p1 : Polygonizer) (h : p1.catalog = p.catalog) (k : Nat) :
    p1.nameOf k = p.nameOf k := by
  have hk : (p1.m_countries[k]?).map fixedPart = (p.m_countries[k]?).map fixedPart := by
    rw [← Polygonizer.catalog_getElem?, ← Polygonizer.catalog_getElem?, h]
  unfold Polygonizer.nameOf
  cases h1 : p1.m_countries[k]? with
  | none =>
    cases h2 : p.m_countries[k]? with
    | none => rfl
    | some c => simp [h1, h2] at hk
  | some c1 =>
    cases h2 : p.m_countries[k]? with
    | none => simp [h1, h2] at hk
    | some c =>
      simp only [h1, h2, Option.map_some', Option.some.injEq] at hk
      have := congrArg kml.CountryPolygons.m_name hk
      simpa [fixedPart] using this

/-- A sequence of emissions to regions of the catalog, from a state that
satisfies the registry invariant, returns; the names list grows by the names
of the regions without a bucket, in the order of their first emission. -/
theorem Polygonizer.emitAll_names (es : List (Nat × FeatureBuilder1)) (p : Polygonizer)
    (seen : List Nat) (hinv : p.Inv) (hes : ∀ e ∈ es, e.1 < p.m_countries.length)
    (hseen : ∀ (k : Nat) (c : kml.CountryPolygons), p.m_countries[k]? = some c →
      (c.m_index ≠ -1 ↔ k ∈ seen)) :
    ∃ p1, p.emitAll es = .ok p1 ∧ p1.Inv
      ∧ p1.Names = p.Names ++ (firstSeen seen (es.map Prod.fst)).map p.nameOf := by
  induction es generalizing p seen with
  | nil => exact ⟨p, rfl, hinv, by simp [firstSeen]⟩
  | cons e es ih =>
    have hk : e.1 < p.m_countries.length := hes e (List.mem_cons_self _ _)
    obtain ⟨p2, he⟩ := Polygonizer.EmitFeature_total p e.1 e.2 hinv hk
    obtain ⟨hinv2, -⟩ := Polygonizer.EmitFeature_inv p p2 e.1 e.2 hinv he
    have hg := Polygonizer.EmitFeature_grows p p2 e.1 e.2 he
    have hlen := Polygonizer.length_of_catalog p p2 hg.catalog
    have hes2 : ∀ e1 ∈ es, e1.1 < p2.m_countries.length :=
      fun e1 h => by rw [hlen]; exact hes e1 (List.mem_cons_of_mem _ h)
    have hname : (fun k => p2.nameOf k) = (fun k => p.nameOf k) :=
      funext (Polygonizer.nameOf_congr p p2 hg.catalog)
    obtain ⟨c, hc, hcase⟩ := Polygonizer.EmitFeature_ok_cases p p2 e.1 e.2 he
    simp only [Polygonizer.emitAll, he, List.map_cons, firstSeen]
    rcases hcase with ⟨hidx, hp2⟩ | ⟨hidx, -, b, -, hp2⟩
    · -- first emission to the region
      have hns : e.1 ∉ seen := fun h => ((hseen e.1 c hc).2 h) hidx
      have hseen2 : ∀ (k : Nat) (c1 : kml.CountryPolygons), p2.m_countries[k]? = some c1 →
          (c1.m_index ≠ -1 ↔ k ∈ e.1 :: seen) := by
        intro k c1 hk1
        rw [hp2] at hk1
        simp only [] at hk1
        by_cases hke : e.1 = k
        · subst hke
          rw [List.getElem?_set_self hk] at hk1
          have := Option.some.inj hk1
          subst this
          simp
        · rw [List.getElem?_set_ne hke] at hk1
          rw [hseen k c1 hk1, List.mem_cons]
          constructor
          · exact fun h => Or.inr h
          · rintro (h | h)
            · exact absurd h.symm hke
            · exact h
      obtain ⟨p1, h1, hinv1, hn1⟩ := ih p2 (e.1 :: seen) hinv2 hes2 hseen2
      refine ⟨p1, h1, hinv1, ?_⟩
      have hnames2 : p2.Names = p.Names ++ [p.nameOf e.1] := by
        rw [hp2]
        simp [Polygonizer.Names, Polygonizer.nameOf, hc]
      rw [hn1, hnames2, if_neg hns, List.map_cons, List.append_assoc]
      have : (firstSeen (e.1 :: seen) (es.map Prod.fst)).map p2.nameOf
          = (firstSeen (e.1 :: seen) (es.map Prod.fst)).map p.nameOf :=
        congrArg (fun f => List.map f _) hname
      rw [this]
      rfl
    · -- the region has its bucket
      have hs : e.1 ∈ seen := (hseen e.1 c hc).1 hidx
      have hseen2 : ∀ (k : Nat) (c1 : kml.CountryPolygons), p2.m_countries[k]? = some c1 →
          (c1.m_index ≠ -1 ↔ k ∈ seen) := by
        intro k c1 hk1
        rw [hp2] at hk1
        exact hseen k c1 hk1
      obtain ⟨p1, h1, hinv1, hn1⟩ := ih p2 seen hinv2 hes2 hseen2
      refine ⟨p1, h1, hinv1, ?_⟩
      have hnames2 : p2.Names = p.Names := by rw [hp2]; rfl
      rw [hn1, hnames2, if_pos hs]
      have : (firstSeen seen (es.map Prod.fst)).map p2.nameOf
          = (firstSeen seen (es.map Prod.fst)).map p.nameOf :=
        congrArg (fun f => List.map f _) hname
      rw [this]

theorem Polygonizer.targets_lt (Contains : kml.Region → m2.PointD → Bool)
    (worldMap : FeatureBuilder1 → Bool) (p : Polygonizer) (fb : FeatureBuilder1) (k : Nat)
    (h : k ∈ p.targets Contains worldMap fb) : k < p.m_countries.length := by
  unfold Polygonizer.targets at h
  split at h
  · simp at h
  · split at h
    · exact Polygonizer.candidates_lt p fb k h
    · exact Polygonizer.candidates_lt p fb k (List.mem_of_mem_filter h)

theorem Polygonizer.emissions_lt (Contains : kml.Region → m2.PointD → Bool)
    (worldMap : FeatureBuilder1 → Bool) (p : Polygonizer) (fbs : List FeatureBuilder1) :
    ∀ e ∈ p.emissions Contains worldMap fbs, e.1 < p.m_countries.length := by
  induction fbs with
  | nil => simp [Polygonizer.emissions]
  | cons fb fbs ih =>
    intro e he
    simp only [Polygonizer.emissions, List.mem_append, List.mem_map] at he
    rcases he with ⟨c, hc, rfl⟩ | he
    · exact Polygonizer.targets_lt Contains worldMap p fb c hc
    · exact ih e he

/-- From a quiescent state with a free permit, a dispatch followed by `Finish`
is the inline dispatch. -/
theorem Polygonizer.call_finish_eq_callInline (Contains : kml.Region → m2.PointD → Bool)
    (worldMap : FeatureBuilder1 → Bool) (p : Polygonizer) (fb : FeatureBuilder1)
    (hidle : p.m_ThreadPool = []) (hperm : 0 < p.m_ThreadPoolSemaphore) :
    (match p.call worldMap fb with
      | .error e => .error e
      | .ok p1 => p1.Finish Contains) = p.callInline Contains worldMap fb := by
  unfold Polygonizer.call Polygonizer.callInline
  by_cases hw : worldMap fb = true
  · simp only [hw, if_true]
    exact Polygonizer.Finish_idle Contains p hidle
  · have hw2 : worldMap fb = false := by simpa using hw
    simp only [hw2, Bool.false_eq_true, if_false]
    by_cases hone : (p.candidates fb).length = 1
    · obtain ⟨c, hc⟩ := List.length_eq_one.1 hone
      simp only [hc, List.length_singleton, if_true, List.getElem?_cons_zero]
      cases he : p.EmitFeature c fb with
      | error x => rfl
      | ok p1 =>
        exact Polygonizer.Finish_idle Contains p1
          ((Polygonizer.EmitFeature_frame p p1 c fb he).1.trans hidle)
    · have hsem : p.m_ThreadPoolSemaphore ≠ 0 := by omega
      simp only [hone, if_false, hsem, Polygonizer.Finish, hidle, List.nil_append,
        Polygonizer.drain, PolygonizerTask.runFrom, List.drop_zero]
      have hlp := PolygonizerTask.loop_pool Contains fb (p.candidates fb) p []
        (p.m_ThreadPoolSemaphore - 1)
      rw [hlp]
      cases hl : PolygonizerTask.loop Contains fb (p.candidates fb) p with
      | error x => rfl
      | ok r =>
        obtain ⟨-, hpool, hs⟩ := PolygonizerTask.loop_frame Contains fb _ p r hl
        simp only []
        congr 1
        cases r
        simp only at hpool hs
        subst hpool hs
        simp only [hidle, Polygonizer.mk.injEq, true_and]
        exact ⟨by omega, trivial⟩

end feature

namespace feature

/-- Claim C15. A task emits to the candidates whose containment test passes,
in the order of the candidate list: `run()` is that sequence of `EmitFeature`
calls followed by the release of the permit. The containment test of a
candidate depends on the catalog and the feature only, not on the emissions
made before it. Consequently, when every feature is run to its end before the
next is dispatched (the inline reading of the `#else` branch, which is also
what a dispatch followed by `Finish` does from a quiescent state), the
dispatch of a sequence of features from the constructed polygonizer returns,
and `Names()` lists the regions in the order in which they first receive an
emission: a function of the catalog and the feature sequence. -/
theorem C15_emission_order (Contains : kml.Region → m2.PointD → Bool)
    (worldMap : FeatureBuilder1 → Bool) (cat : kml.CountriesContainerT) (n : Nat)
    (p0 : Polygonizer) (hnew : Polygonizer.new (some cat) n = some p0)
    (hfresh : ∀ c ∈ cat, c.m_index = -1) :
    (∀ (t : PolygonizerTask) (q : Polygonizer), (∀ c ∈ t.m_Countries, c < q.m_countries.length) →
      t.run Contains q
        = match q.emitAll ((t.m_Countries.filter (fun c => q.passes Contains c t.m_FB)).map
            (fun c => (c, t.m_FB))) with
          | .error e => .error e
          | .ok q1 => .ok { q1 with m_ThreadPoolSemaphore := q1.m_ThreadPoolSemaphore + 1 })
    ∧ (∀ (q q1 : Polygonizer) (c : Nat) (fb : FeatureBuilder1), q1.catalog = q.catalog →
        q1.passes Contains c fb = q.passes Contains c fb)
    ∧ (∀ fbs : List FeatureBuilder1,
        ∃ p, p0.callAll Contains worldMap fbs = .ok p
          ∧ p0.callAll Contains worldMap fbs = p0.emitAll (p0.emissions Contains worldMap fbs)
          ∧ p.Names
              = (firstSeen [] ((p0.emissions Contains worldMap fbs).map Prod.fst)).map p0.nameOf)
    ∧ (∀ (p : Polygonizer) (fb : FeatureBuilder1), p.m_ThreadPool = [] →
        0 < p.m_ThreadPoolSemaphore →
        (match p.call worldMap fb with
          | .error e => .error e
          | .ok p1 => p1.Finish Contains) = p.callInline Contains worldMap fb) := by
  refine ⟨fun t q hcs => ?_, fun q q1 c fb h => Polygonizer.passes_congr Contains q q1 c fb h,
    fun fbs => ?_, fun p fb hidle hperm =>
      Polygonizer.call_finish_eq_callInline Contains worldMap p fb hidle hperm⟩
  · simp only [PolygonizerTask.run, PolygonizerTask.runFrom, List.drop_zero]
    rw [PolygonizerTask.loop_eq_emitAll Contains t.m_FB t.m_Countries q hcs]
  · have hinv := Polygonizer.new_inv cat n p0 hnew hfresh
    have hseen : ∀ (k : Nat) (c : kml.CountryPolygons), p0.m_countries[k]? = some c →
        (c.m_index ≠ -1 ↔ k ∈ ([] : List Nat)) := by
      intro k c hk
      simp only [Polygonizer.new, Option.some.injEq] at hnew
      subst hnew
      simp [hfresh c (List.getElem?_mem hk)]
    obtain ⟨p, hp, -, hn⟩ := Polygonizer.emitAll_names (p0.emissions Contains worldMap fbs) p0 []
      hinv (Polygonizer.emissions_lt Contains worldMap p0 fbs) hseen
    have hall := Polygonizer.callAll_eq_emitAll Contains worldMap fbs p0
    refine ⟨p, hall.trans hp, hall, ?_⟩
    rw [hn]
    simp only [Polygonizer.new, Option.some.injEq] at hnew
    subst hnew
    rfl

theorem C15_emission_order_witness :
    ∃ p, Scenario.start.callAll Scenario.inRectangle Scenario.noWorld
          [Scenario.featureY, Scenario.featureX] = .ok p
      ∧ Scenario.start.callAll Scenario.inRectangle Scenario.noWorld
          [Scenario.featureY, Scenario.featureX]
          = Scenario.start.emitAll (Scenario.start.emissions Scenario.inRectangle Scenario.noWorld
              [Scenario.featureY, Scenario.featureX])
      ∧ p.Names
          = (firstSeen [] ((Scenario.start.emissions Scenario.inRectangle Scenario.noWorld
              [Scenario.featureY, Scenario.featureX]).map Prod.fst)).map Scenario.start.nameOf :=
  (C15_emission_order Scenario.inRectangle Scenario.noWorld Scenario.countries 1 Scenario.start
    rfl Scenario.countries_fresh).2.2.1 [Scenario.featureY, Scenario.featureX]

end feature

namespace feature

/-! ## Concurrent calls of `EmitFeature` -/

/-- The statements of the body, run one after the other, are `EmitFeature`. -/
theorem Polygonizer.finishEmit_test (p : Polygonizer) (k : Nat) (fb : FeatureBuilder1) :
    p.finishEmit k fb .test = p.EmitFeature k fb := by
  cases hk : p.m_countries[k]? with
  | none => simp [Polygonizer.finishEmit, Polygonizer.EmitFeature, hk]
  | some c =>
    have hklt : k < p.m_countries.length := (List.getElem?_eq_some.1 hk).1
    by_cases hc : c.m_index = -1
    · rw [Polygonizer.EmitFeature_unassigned p k fb c hk hc]
      simp only [Polygonizer.finishEmit, hk, hc, if_true, Polygonizer.thenStatement,
        Polygonizer.emitStatement, List.getElem?_set_self hklt]
      have hidx : ((p.m_Buckets ++ [FeatureOutT.new c.m_name]).length : Int) - 1
          = (p.m_Buckets.length : Int) := by simp
      simp only [hidx, Int.toNat_ofNat, Int.ofNat_zero_le, List.getElem?_concat_length, if_true]
      simp [FeatureOutT.call, FeatureOutT.new]
    · by_cases h0 : 0 ≤ c.m_index
      · cases hb : p.m_Buckets[c.m_index.toNat]? with
        | none =>
          simp [Polygonizer.finishEmit, Polygonizer.EmitFeature, Polygonizer.thenStatement,
            Polygonizer.emitStatement, hk, hc, h0, hb]
        | some b =>
          rw [Polygonizer.EmitFeature_assigned p k fb c b hk hc h0 hb]
          simp [Polygonizer.finishEmit, Polygonizer.thenStatement, Polygonizer.emitStatement,
            hk, hc, h0, hb]
      · simp [Polygonizer.finishEmit, Polygonizer.EmitFeature, Polygonizer.thenStatement,
          Polygonizer.emitStatement, hk, hc, h0]

/-- A statement of the body leads to a place inside the critical section, with
fewer steps to take, from which the rest of the body gives the same result. -/
theorem Polygonizer.finishEmit_statement (p p1 : Polygonizer) (k : Nat) (fb : FeatureBuilder1)
    (pc pc1 : EmitPc) (hpc : pc.isStatement = true)
    (h : p.emitStatement k fb pc = .ok (pc1, p1)) :
    p1.finishEmit k fb pc1 = p.finishEmit k fb pc ∧ pc1.inside = true
      ∧ pc1.remaining < pc.remaining := by
  cases pc with
  | test =>
    simp only [Polygonizer.emitStatement] at h
    cases hk : p.m_countries[k]? with
    | none => simp [hk] at h
    | some c =>
      simp only [hk] at h
      by_cases hc : c.m_index = -1
      · simp only [hc, if_true, Except.ok.injEq, Prod.mk.injEq] at h
        obtain ⟨rfl, rfl⟩ := h
        refine ⟨?_, rfl, by decide⟩
        simp [Polygonizer.finishEmit, hk, hc]
      · simp only [hc, if_false, Except.ok.injEq, Prod.mk.injEq] at h
        obtain ⟨rfl, rfl⟩ := h
        refine ⟨?_, rfl, by decide⟩
        simp [Polygonizer.finishEmit, hk, hc]
  | pushName =>
    have h2 := h
    simp only [Polygonizer.emitStatement] at h
    cases hk : p.m_countries[k]? with
    | none => simp [hk] at h
    | some c =>
      simp only [hk, Except.ok.injEq, Prod.mk.injEq] at h
      obtain ⟨rfl, rfl⟩ := h
      refine ⟨?_, rfl, by decide⟩
      simp only [Polygonizer.finishEmit, Polygonizer.thenStatement, h2]
  | pushBucket =>
    have h2 := h
    simp only [Polygonizer.emitStatement] at h
    cases hk : p.m_countries[k]? with
    | none => simp [hk] at h
    | some c =>
      simp only [hk, Except.ok.injEq, Prod.mk.injEq] at h
      obtain ⟨rfl, rfl⟩ := h
      refine ⟨?_, rfl, by decide⟩
      simp only [Polygonizer.finishEmit, Polygonizer.thenStatement, h2]
  | setIndex =>
    have h2 := h
    simp only [Polygonizer.emitStatement] at h
    cases hk : p.m_countries[k]? with
    | none => simp [hk] at h
    | some c =>
      simp only [hk, Except.ok.injEq, Prod.mk.injEq] at h
      obtain ⟨rfl, rfl⟩ := h
      refine ⟨?_, rfl, by decide⟩
      simp only [Polygonizer.finishEmit, Polygonizer.thenStatement, h2]
  | append =>
    have h2 := h
    simp only [Polygonizer.emitStatement] at h
    cases hk : p.m_countries[k]? with
    | none => simp [hk] at h
    | some c =>
      simp only [hk] at h
      by_cases h0 : 0 ≤ c.m_index
      · cases hb : p.m_Buckets[c.m_index.toNat]? with
        | none => simp [h0, hb] at h
        | some b =>
          simp only [h0, if_true, hb, Except.ok.injEq, Prod.mk.injEq] at h
          obtain ⟨rfl, rfl⟩ := h
          refine ⟨?_, rfl, by decide⟩
          simp only [Polygonizer.finishEmit, Polygonizer.thenStatement, h2]
      · simp [h0] at h
  | lock => simp [EmitPc.isStatement] at hpc
  | unlock => simp [EmitPc.isStatement] at hpc
  | done => simp [EmitPc.isStatement] at hpc

/-- When the rest of the body returns, its first statement returns. -/
theorem Polygonizer.emitStatement_of_finishEmit (p r : Polygonizer) (k : Nat)
    (fb : FeatureBuilder1) (pc : EmitPc) (hpc : pc.isStatement = true)
    (h : p.finishEmit k fb pc = .ok r) :
    ∃ pc1 p1, p.emitStatement k fb pc = .ok (pc1, p1) := by
  cases hs : p.emitStatement k fb pc with
  | ok x => exact ⟨x.1, x.2, rfl⟩
  | error e =>
    exfalso
    cases pc with
    | test =>
      simp only [Polygonizer.emitStatement] at hs
      cases hk : p.m_countries[k]? with
      | none => simp [Polygonizer.finishEmit, hk] at h
      | some c =>
        simp only [hk] at hs
        split at hs <;> simp at hs
    | pushName => simp [Polygonizer.finishEmit, Polygonizer.thenStatement, hs] at h
    | pushBucket => simp [Polygonizer.finishEmit, Polygonizer.thenStatement, hs] at h
    | setIndex => simp [Polygonizer.finishEmit, Polygonizer.thenStatement, hs] at h
    | append => simp [Polygonizer.finishEmit, Polygonizer.thenStatement, hs] at h
    | lock => simp [EmitPc.isStatement] at hpc
    | unlock => simp [EmitPc.isStatement] at hpc
    | done => simp [EmitPc.isStatement] at hpc

end feature

namespace feature

theorem pendingCalls_set_pending (threads : List EmitThread) (i : Nat) (th : EmitThread)
    (pc1 : EmitPc) (hi : threads[i]? = some th) (h : th.pc ≠ .done) (h1 : pc1 ≠ .done) :
    pendingCalls (threads.set i { th with pc := pc1 }) = pendingCalls threads := by
  induction threads generalizing i with
  | nil => simp at hi
  | cons t ts ih =>
    cases i with
    | zero =>
      simp only [List.getElem?_cons_zero, Option.some.injEq] at hi
      subst hi
      simp only [List.set_cons_zero, pendingCalls, h, h1, if_false]
    | succ i =>
      simp only [List.getElem?_cons_succ] at hi
      simp only [List.set_cons_succ, pendingCalls, ih i hi]

theorem pendingCalls_set_done (threads : List EmitThread) (i : Nat) (th : EmitThread)
    (hi : threads[i]? = some th) (h : th.pc ≠ .done) :
    ((th.country, th.fb) :: pendingCalls (threads.set i { th with pc := .done })).Perm
      (pendingCalls threads) := by
  induction threads generalizing i with
  | nil => simp at hi
  | cons t ts ih =>
    cases i with
    | zero =>
      simp only [List.getElem?_cons_zero, Option.some.injEq] at hi
      subst hi
      simp only [List.set_cons_zero, pendingCalls, h, if_true, if_false]
      exact List.Perm.refl _
    | succ i =>
      simp only [List.getElem?_cons_succ] at hi
      have := ih i hi
      simp only [List.set_cons_succ, pendingCalls]
      by_cases ht : t.pc = .done
      · simp only [ht, if_true]
        exact this
      · simp only [ht, if_false]
        exact (List.Perm.swap _ _ _).trans (List.Perm.cons _ this)

theorem remainingSteps_set (threads : List EmitThread) (i : Nat) (th : EmitThread)
    (pc1 : EmitPc) (hi : threads[i]? = some th) :
    remainingSteps (threads.set i { th with pc := pc1 }) + th.pc.remaining
      = remainingSteps threads + pc1.remaining := by
  induction threads generalizing i with
  | nil => simp at hi
  | cons t ts ih =>
    cases i with
    | zero =>
      simp only [List.getElem?_cons_zero, Option.some.injEq] at hi
      subst hi
      simp only [remainingSteps, List.set_cons_zero, List.map_cons, List.sum_cons]
      omega
    | succ i =>
      simp only [List.getElem?_cons_succ] at hi
      have := ih i hi
      simp only [remainingSteps, List.set_cons_succ, List.map_cons, List.sum_cons] at this ⊢
      omega

theorem pendingCalls_mem (threads : List EmitThread) (i : Nat) (th : EmitThread)
    (hi : threads[i]? = some th) (h : th.pc ≠ .done) :
    (th.country, th.fb) ∈ pendingCalls threads := by
  induction threads generalizing i with
  | nil => simp at hi
  | cons t ts ih =>
    cases i with
    | zero =>
      simp only [List.getElem?_cons_zero, Option.some.injEq] at hi
      subst hi
      simp only [pendingCalls, h, if_false]
      exact List.mem_cons_self _ _
    | succ i =>
      simp only [List.getElem?_cons_succ] at hi
      simp only [pendingCalls]
      split
      · exact ih i hi
      · exact List.mem_cons_of_mem _ (ih i hi)

theorem pendingCalls_eq_nil (threads : List EmitThread)
    (h : ∀ th ∈ threads, th.pc = .done) : pendingCalls threads = [] := by
  induction threads with
  | nil => rfl
  | cons t ts ih =>
    simp only [pendingCalls, h t (List.mem_cons_self _ _), if_true]
    exact ih (fun th hth => h th (List.mem_cons_of_mem _ hth))

theorem inside_ne_done (pc : EmitPc) (h : pc.inside = true) : pc ≠ .done ∧ pc ≠ .lock := by
  cases pc <;> simp [EmitPc.inside] at h ⊢

theorem isStatement_inside (pc : EmitPc) (h : pc.isStatement = true) : pc.inside = true := by
  cases pc <;> simp [EmitPc.isStatement, EmitPc.inside] at h ⊢

theorem inside_cases (pc : EmitPc) (h : pc.inside = true) :
    pc.isStatement = true ∨ pc = .unlock := by
  cases pc <;> simp [EmitPc.isStatement, EmitPc.inside] at h ⊢

end feature

namespace feature

/-- A sequence of emissions from a state that satisfies the registry invariant
keeps the invariant; the bucket of a region gains the features emitted to it,
in order. -/
theorem Polygonizer.emitAll_inv (es : List (Nat × FeatureBuilder1)) (p p1 : Polygonizer)
    (hinv : p.Inv) (h : p.emitAll es = .ok p1) :
    p1.Inv ∧ ∀ k, p1.bucketOf k
      = p.bucketOf k ++ (es.filter (fun e => decide (e.1 = k))).map Prod.snd := by
  induction es generalizing p with
  | nil =>
    have e : p = p1 := Except.ok.inj h
    subst e
    exact ⟨hinv, fun k => by simp⟩
  | cons e es ih =>
    simp only [Polygonizer.emitAll] at h
    cases he : p.EmitFeature e.1 e.2 with
    | error x => simp [he] at h
    | ok p2 =>
      simp only [he] at h
      obtain ⟨hinv2, hb2⟩ := Polygonizer.EmitFeature_inv p p2 e.1 e.2 hinv he
      obtain ⟨hinv1, hb1⟩ := ih p2 hinv2 h
      refine ⟨hinv1, fun k => ?_⟩
      rw [hb1 k, hb2 k]
      by_cases hk : k = e.1
      · subst hk
        simp [List.filter_cons]
      · have hk2 : ¬ (e.1 = k) := fun h => hk h.symm
        simp [List.filter_cons, hk, hk2]

theorem pendingCalls_start (calls : List (Nat × FeatureBuilder1)) :
    pendingCalls (calls.map (fun e => ({ country := e.1, fb := e.2, pc := .lock } : EmitThread)))
      = calls := by
  induction calls with
  | nil => rfl
  | cons e es ih =>
    simp only [List.map_cons, pendingCalls, ih]
    simp

/-- The invariant holds at the start. -/
theorem Concurrent.coherent_start (pz0 : Polygonizer) (calls : List (Nat × FeatureBuilder1))
    (hinv : pz0.Inv) : (Concurrent.start pz0 calls).Coherent pz0 calls := by
  refine ⟨[], pz0, rfl, hinv, Polygonizer.Grows.refl pz0, ?_, ?_⟩
  · simp only [Concurrent.start, List.nil_append, pendingCalls_start]
    exact List.Perm.refl _
  · simp only [Concurrent.start]
    refine ⟨trivial, fun th hth => ?_⟩
    obtain ⟨e, -, rfl⟩ := List.mem_map.1 hth
    exact Or.inl rfl

/-- The thread that takes a step inside the critical section is the holder of
the mutex. -/
theorem Concurrent.holder_of_inside (pz0 : Polygonizer) (calls : List (Nat × FeatureBuilder1))
    (s : Concurrent) (hcoh : s.Coherent pz0 calls) (i : Nat) (th : EmitThread)
    (hi : s.threads[i]? = some th) (hin : th.pc.inside = true) :
    s.m_EmitFeatureMutex = some i := by
  obtain ⟨log, base, -, -, -, -, hmut⟩ := hcoh
  obtain ⟨hnd, hnl⟩ := inside_ne_done th.pc hin
  cases hm : s.m_EmitFeatureMutex with
  | none =>
    rw [hm] at hmut
    rcases hmut.2 th (List.getElem?_mem hi) with h | h
    · exact absurd h hnl
    · exact absurd h hnd
  | some h =>
    rw [hm] at hmut
    obtain ⟨-, -, -, -, hothers⟩ := hmut
    by_contra hne
    have hih : i ≠ h := fun e => hne (by rw [e])
    rcases hothers i th hi hih with h1 | h1
    · exact absurd h1 hnl
    · exact absurd h1 hnd

/-- Every step keeps the invariant. -/
theorem Concurrent.coherent_step (pz0 : Polygonizer) (calls : List (Nat × FeatureBuilder1))
    (s s1 : Concurrent) (hcoh : s.Coherent pz0 calls) (hstep : EmitStep s s1) :
    s1.Coherent pz0 calls := by
  cases hstep
  case lock i th hi hpc hfree =>
    obtain ⟨log, base, hlog, hbinv, hgrow, hperm, hmut⟩ := hcoh
    rw [hfree] at hmut
    obtain ⟨hpz, hall⟩ := hmut
    have hilt : i < s.threads.length := (List.getElem?_eq_some.1 hi).1
    refine ⟨log, base, hlog, hbinv, hgrow, ?_, ?_⟩
    · simp only []
      rw [pendingCalls_set_pending s.threads i th .test hi (by rw [hpc]; decide) (by decide)]
      exact hperm
    · simp only []
      refine ⟨_, List.getElem?_set_self hilt, rfl, ?_, fun j tj hj hne => ?_⟩
      · simp only []
        rw [Polygonizer.finishEmit_test, hpz]
      · rw [List.getElem?_set_ne (Ne.symm hne)] at hj
        exact hall tj (List.getElem?_mem hj)
  case statement i th pc1 pz1 hi hpc hst =>
    have hholder := Concurrent.holder_of_inside pz0 calls s hcoh i th hi
      (isStatement_inside th.pc hpc)
    obtain ⟨log, base, hlog, hbinv, hgrow, hperm, hmut⟩ := hcoh
    rw [hholder] at hmut
    obtain ⟨th0, hth0, -, hfin, hothers⟩ := hmut
    rw [hi] at hth0
    have e := Option.some.inj hth0
    subst e
    have hilt : i < s.threads.length := (List.getElem?_eq_some.1 hi).1
    obtain ⟨hf, hin1, -⟩ :=
      Polygonizer.finishEmit_statement s.pz pz1 th.country th.fb th.pc pc1 hpc hst
    refine ⟨log, base, hlog, hbinv, hgrow, ?_, ?_⟩
    · simp only []
      rw [pendingCalls_set_pending s.threads i th pc1 hi
        (inside_ne_done th.pc (isStatement_inside th.pc hpc)).1 (inside_ne_done pc1 hin1).1]
      exact hperm
    · simp only [hholder]
      refine ⟨_, List.getElem?_set_self hilt, hin1, ?_, fun j tj hj hne => ?_⟩
      · simp only []
        rw [hf, hfin]
      · rw [List.getElem?_set_ne (Ne.symm hne)] at hj
        exact hothers j tj hj hne
  case unlock i th hi hpc =>
    have hholder := Concurrent.holder_of_inside pz0 calls s hcoh i th hi (by rw [hpc]; rfl)
    obtain ⟨log, base, hlog, hbinv, hgrow, hperm, hmut⟩ := hcoh
    rw [hholder] at hmut
    obtain ⟨th0, hth0, -, hfin, hothers⟩ := hmut
    rw [hi] at hth0
    have e := Option.some.inj hth0
    subst e
    have hilt : i < s.threads.length := (List.getElem?_eq_some.1 hi).1
    have hemit : base.EmitFeature th.country th.fb = .ok s.pz := by
      rw [← hfin, hpc]
      rfl
    obtain ⟨hinv1, -⟩ := Polygonizer.EmitFeature_inv base s.pz th.country th.fb hbinv hemit
    have hg1 := Polygonizer.EmitFeature_grows base s.pz th.country th.fb hemit
    refine ⟨log ++ [(th.country, th.fb)], s.pz, ?_, hinv1, hgrow.trans hg1, ?_, ?_⟩
    · rw [Polygonizer.emitAll_append, hlog]
      simp only []
      rw [Polygonizer.emitAll_single, hemit]
    · simp only [List.append_assoc, List.singleton_append]
      have hp := pendingCalls_set_done s.threads i th hi (by rw [hpc]; decide)
      exact (List.Perm.append_left log hp).trans hperm
    · simp only []
      refine ⟨trivial, fun t1 ht1 => ?_⟩
      obtain ⟨j, hj⟩ := List.getElem?_of_mem ht1
      by_cases hji : j = i
      · subst hji
        rw [List.getElem?_set_self hilt] at hj
        have e := Option.some.inj hj
        subst e
        exact Or.inr rfl
      · rw [List.getElem?_set_ne (Ne.symm hji)] at hj
        exact hothers j t1 hj hji

theorem Concurrent.coherent_steps (pz0 : Polygonizer) (calls : List (Nat × FeatureBuilder1))
    (s s1 : Concurrent) (hcoh : s.Coherent pz0 calls) (hsteps : EmitSteps s s1) :
    s1.Coherent pz0 calls := by
  induction hsteps with
  | refl => exact hcoh
  | tail _ hstep ih => exact Concurrent.coherent_step pz0 calls _ _ ih hstep

end feature

namespace feature

/-- No deadlock: unless every call has finished, some thread can take a step,
and no statement of the holder of the mutex fails. -/
theorem Concurrent.progress (pz0 : Polygonizer) (calls : List (Nat × FeatureBuilder1))
    (s : Concurrent) (hcalls : ∀ e ∈ calls, e.1 < pz0.m_countries.length)
    (hcoh : s.Coherent pz0 calls) :
    (∀ th ∈ s.threads, th.pc = .done) ∨ ∃ s1, EmitStep s s1 := by
  obtain ⟨log, base, hlog, hbinv, hgrow, hperm, hmut⟩ := hcoh
  cases hm : s.m_EmitFeatureMutex with
  | none =>
    rw [hm] at hmut
    by_cases hall : ∀ th ∈ s.threads, th.pc = .done
    · exact Or.inl hall
    · right
      push_neg at hall
      obtain ⟨th, hth, hnd⟩ := hall
      obtain ⟨i, hi⟩ := List.getElem?_of_mem hth
      rcases hmut.2 th hth with hl | hd
      · exact ⟨_, EmitStep.lock s i th hi hl hm⟩
      · exact absurd hd hnd
  | some h =>
    rw [hm] at hmut
    obtain ⟨th, hth, hin, hfin, -⟩ := hmut
    right
    rcases inside_cases th.pc hin with hst | hu
    · have hmem : (th.country, th.fb) ∈ calls :=
        hperm.mem_iff.1 (List.mem_append_right _
          (pendingCalls_mem s.threads h th hth (inside_ne_done th.pc hin).1))
      have hlt : th.country < base.m_countries.length := by
        rw [Polygonizer.length_of_catalog pz0 base hgrow.catalog]
        exact hcalls _ hmem
      obtain ⟨r, hr⟩ := Polygonizer.EmitFeature_total base th.country th.fb hbinv hlt
      rw [hr] at hfin
      obtain ⟨pc1, p1, hs⟩ :=
        Polygonizer.emitStatement_of_finishEmit s.pz r th.country th.fb th.pc hst hfin
      exact ⟨_, EmitStep.statement s h th pc1 p1 hth hst hs⟩
    · exact ⟨_, EmitStep.unlock s h th hth hu⟩

/-- Every step brings the calls closer to their end. -/
theorem emitStep_decreases (s s1 : Concurrent) (hstep : EmitStep s s1) :
    remainingSteps s1.threads < remainingSteps s.threads := by
  cases hstep
  case lock i th hi hpc hfree =>
    have := remainingSteps_set s.threads i th .test hi
    rw [hpc] at this
    simp only [EmitPc.remaining] at this ⊢
    omega
  case statement i th pc1 pz1 hi hpc hst =>
    have := remainingSteps_set s.threads i th pc1 hi
    obtain ⟨-, -, hlt⟩ :=
      Polygonizer.finishEmit_statement s.pz pz1 th.country th.fb th.pc pc1 hpc hst
    simp only []
    omega
  case unlock i th hi hpc =>
    have := remainingSteps_set s.threads i th .done hi
    rw [hpc] at this
    simp only [EmitPc.remaining] at this ⊢
    omega

/-- Every interleaving can be continued until every call has finished. -/
theorem Concurrent.completes (pz0 : Polygonizer) (calls : List (Nat × FeatureBuilder1))
    (hcalls : ∀ e ∈ calls, e.1 < pz0.m_countries.length) (n : Nat) (s : Concurrent)
    (hn : remainingSteps s.threads ≤ n) (hcoh : s.Coherent pz0 calls) :
    ∃ s1, EmitSteps s s1 ∧ ∀ th ∈ s1.threads, th.pc = .done := by
  induction n generalizing s with
  | zero =>
    rcases Concurrent.progress pz0 calls s hcalls hcoh with hdone | ⟨s1, hstep⟩
    · exact ⟨s, Relation.ReflTransGen.refl, hdone⟩
    · have := emitStep_decreases s s1 hstep
      omega
  | succ n ih =>
    rcases Concurrent.progress pz0 calls s hcalls hcoh with hdone | ⟨s1, hstep⟩
    · exact ⟨s, Relation.ReflTransGen.refl, hdone⟩
    · have hlt := emitStep_decreases s s1 hstep
      obtain ⟨s2, hsteps, hdone⟩ := ih s1 (by omega)
        (Concurrent.coherent_step pz0 calls s s1 hcoh hstep)
      exact ⟨s2, Relation.ReflTransGen.head hstep hsteps, hdone⟩

theorem firstSeen_mem (seen l : List Nat) (k : Nat) :
    k ∈ firstSeen seen l ↔ k ∈ l ∧ k ∉ seen := by
  induction l generalizing seen with
  | nil => simp [firstSeen]
  | cons a as ih =>
    simp only [firstSeen]
    by_cases ha : a ∈ seen
    · simp only [ha, if_true, ih, List.mem_cons]
      constructor
      · rintro ⟨h1, h2⟩
        exact ⟨Or.inr h1, h2⟩
      · rintro ⟨h1 | h1, h2⟩
        · subst h1
          exact absurd ha h2
        · exact ⟨h1, h2⟩
    · simp only [ha, if_false, List.mem_cons, ih]
      constructor
      · rintro (h | ⟨h1, h2⟩)
        · subst h
          exact ⟨Or.inl rfl, ha⟩
        · exact ⟨Or.inr h1, fun h => h2 (Or.inr h)⟩
      · rintro ⟨h1 | h1, h2⟩
        · exact Or.inl h1
        · by_cases hka : k = a
          · exact Or.inl hka
          · right
            refine ⟨h1, ?_⟩
            rintro (h | h)
            · exact hka h
            · exact h2 h

theorem firstSeen_nodup (seen l : List Nat) : (firstSeen seen l).Nodup := by
  induction l generalizing seen with
  | nil => simp [firstSeen]
  | cons a as ih =>
    simp only [firstSeen]
    split
    · exact ih seen
    · refine List.nodup_cons.2 ⟨?_, ih (a :: seen)⟩
      intro h
      exact ((firstSeen_mem (a :: seen) as a).1 h).2 (List.mem_cons_self _ _)

end feature

namespace feature

/-- Claim C14. Threads that call `EmitFeature` concurrently, each step of a
thread being the constructor of the locker, one statement of the body, or the
destructor of the locker, in any interleaving, from a state that satisfies the
registry invariant. At every moment at most one thread is between constructor
and destructor of the locker; unless all calls have finished some thread can
step, and every interleaving can be continued to the end of all calls. When
all calls have finished, the shared state is the one that the calls give when
made one after the other in some order: the registry invariant holds, the
bucket of every region holds what it held before together with every feature
passed for that region, each exactly once, and exactly one bucket has been
created for each region that had none and was the target of a call, several
calls for the same region included. -/
theorem C14_concurrent_emit_indivisible (pz0 : Polygonizer)
    (calls : List (Nat × FeatureBuilder1)) (s : Concurrent) (hinv : pz0.Inv)
    (hcalls : ∀ e ∈ calls, e.1 < pz0.m_countries.length)
    (hrun : EmitSteps (Concurrent.start pz0 calls) s) :
    (∀ (i j : Nat) (ti tj : EmitThread), s.threads[i]? = some ti → s.threads[j]? = some tj →
        ti.pc.inside = true → tj.pc.inside = true → i = j)
    ∧ ((∀ th ∈ s.threads, th.pc = .done) ∨ ∃ s1, EmitStep s s1)
    ∧ (∃ s1, EmitSteps s s1 ∧ ∀ th ∈ s1.threads, th.pc = .done)
    ∧ ((∀ th ∈ s.threads, th.pc = .done) →
        (∃ order : List (Nat × FeatureBuilder1), order.Perm calls ∧ pz0.emitAll order = .ok s.pz)
        ∧ s.pz.Inv
        ∧ (∀ k, (s.pz.bucketOf k).Perm
            (pz0.bucketOf k ++ (calls.filter (fun e => decide (e.1 = k))).map Prod.snd))
        ∧ (∃ created : List Nat, created.Nodup
            ∧ (∀ k, k ∈ created ↔
                (k ∈ calls.map Prod.fst
                  ∧ ∃ c, pz0.m_countries[k]? = some c ∧ c.m_index = -1))
            ∧ s.pz.Names = pz0.Names ++ created.map pz0.nameOf
            ∧ s.pz.m_Buckets.length = pz0.m_Buckets.length + created.length)) := by
  have hcoh : s.Coherent pz0 calls :=
    Concurrent.coherent_steps pz0 calls _ s (Concurrent.coherent_start pz0 calls hinv) hrun
  refine ⟨fun i j ti tj hi hj hini hinj => ?_, Concurrent.progress pz0 calls s hcalls hcoh,
    Concurrent.completes pz0 calls hcalls _ s (Nat.le_refl _) hcoh, fun hdone => ?_⟩
  · have h1 := Concurrent.holder_of_inside pz0 calls s hcoh i ti hi hini
    have h2 := Concurrent.holder_of_inside pz0 calls s hcoh j tj hj hinj
    rw [h1] at h2
    exact Option.some.inj h2
  · obtain ⟨log, base, hlog, hbinv, hgrow, hperm, hmut⟩ := hcoh
    have hpz : s.pz = base := by
      cases hm : s.m_EmitFeatureMutex with
      | none =>
        rw [hm] at hmut
        exact hmut.1
      | some h =>
        rw [hm] at hmut
        obtain ⟨th, hth, hin, -, -⟩ := hmut
        exact absurd (hdone th (List.getElem?_mem hth)) (inside_ne_done th.pc hin).1
    rw [pendingCalls_eq_nil s.threads hdone, List.append_nil] at hperm
    rw [hpz]
    obtain ⟨-, hbuck⟩ := Polygonizer.emitAll_inv log pz0 base hinv hlog
    refine ⟨⟨log, hperm, hlog⟩, hbinv, fun k => ?_, ?_⟩
    · rw [hbuck k]
      exact List.Perm.append_left _ ((hperm.filter _).map _)
    · -- the regions that have a bucket at the start
      have hseen : ∀ (k : Nat) (c : kml.CountryPolygons), pz0.m_countries[k]? = some c →
          (c.m_index ≠ -1 ↔ k ∈ (List.range pz0.m_countries.length).filter
            (fun k => match pz0.m_countries[k]? with
              | some c => decide (c.m_index ≠ -1)
              | none => false)) := by
        intro k c hk
        simp only [List.mem_filter, List.mem_range, hk, (List.getElem?_eq_some.1 hk).1, true_and,
          decide_eq_true_eq]
      have hlogv : ∀ e ∈ log, e.1 < pz0.m_countries.length :=
        fun e he => hcalls e (hperm.mem_iff.1 he)
      obtain ⟨p1, hp1, -, hnames⟩ := Polygonizer.emitAll_names log pz0 _ hinv hlogv hseen
      rw [hlog] at hp1
      have e := Except.ok.inj hp1
      subst e
      refine ⟨_, firstSeen_nodup _ _, fun k => ?_, hnames, ?_⟩
      · rw [firstSeen_mem]
        have hmemk : k ∈ log.map Prod.fst ↔ k ∈ calls.map Prod.fst := (hperm.map _).mem_iff
        rw [hmemk]
        constructor
        · rintro ⟨hk, hns⟩
          refine ⟨hk, ?_⟩
          obtain ⟨e, he, rfl⟩ := List.mem_map.1 hk
          have hlt := hcalls e he
          refine ⟨pz0.m_countries[e.1], List.getElem?_eq_getElem hlt, ?_⟩
          by_contra hne
          exact hns ((hseen e.1 _ (List.getElem?_eq_getElem hlt)).1 hne)
        · rintro ⟨hk, c, hc, hidx⟩
          exact ⟨hk, fun hs => ((hseen k c hc).2 hs) hidx⟩
      · have h1 := congrArg List.length hbinv.names
        have h0 := congrArg List.length hinv.names
        have h2 := congrArg List.length hnames
        simp only [Polygonizer.Names, List.length_map, List.length_append] at h0 h1 h2
        omega

theorem C14_concurrent_emit_indivisible_witness :
    ∃ s1, EmitSteps Scenario.lockedBySecond s1 ∧ ∀ th ∈ s1.threads, th.pc = .done :=
  (C14_concurrent_emit_indivisible Scenario.afterX Scenario.emitCalls Scenario.lockedBySecond
    Scenario.afterX_inv (by decide)
    (Relation.ReflTransGen.single
      (EmitStep.lock (Concurrent.start Scenario.afterX Scenario.emitCalls) 1
        { country := 1, fb := Scenario.featureX, pc := .lock } rfl rfl rfl))).2.2.1

end feature

namespace feature

/-! ## The steps of the worker threads -/

theorem taskStep_step {Contains : kml.Region → m2.PointD → Bool} (worldMap : FeatureBuilder1 → Bool)
    {p p1 : Polygonizer} (h : TaskStep Contains p p1) : Step Contains worldMap p p1 := by
  cases h
  case iterate s1 j t i c hj hc hb => exact Step.iterate p s1 j t i c hj hc hb
  case complete j t i hj hi => exact Step.complete p j t i hj hi

/-- Progress of the worker threads is an execution of the program. -/
theorem taskSteps_steps {Contains : kml.Region → m2.PointD → Bool}
    (worldMap : FeatureBuilder1 → Bool) {p p1 : Polygonizer} (h : TaskSteps Contains p p1) :
    Steps Contains worldMap p p1 := by
  induction h with
  | refl => exact Relation.ReflTransGen.refl
  | tail _ hs ih => exact ih.tail (taskStep_step worldMap hs)

theorem taskStep_inv {Contains : kml.Region → m2.PointD → Bool} {p p1 : Polygonizer}
    (hinv : p.Inv) (h : TaskStep Contains p p1) : p1.Inv :=
  step_inv (taskStep_step (fun _ => false) h) hinv

theorem taskSteps_inv {Contains : kml.Region → m2.PointD → Bool} {p p1 : Polygonizer}
    (hinv : p.Inv) (h : TaskSteps Contains p p1) : p1.Inv :=
  steps_inv (taskSteps_steps (fun _ => false) h) hinv

theorem taskSteps_grows {Contains : kml.Region → m2.PointD → Bool} {p p1 : Polygonizer}
    (h : TaskSteps Contains p p1) : p.Grows p1 :=
  steps_grows (taskSteps_steps (fun _ => false) h)

/-- The loop of a started task is a sequence of iteration steps of a worker. -/
theorem PolygonizerTask.loop_taskSteps (Contains : kml.Region → m2.PointD → Bool)
    (t : PolygonizerTask) (j : Nat) (cs : List Nat) (i : Nat)
    (p p1 : Polygonizer) (hj : p.m_ThreadPool[j]? = some (t, i))
    (hcs : t.m_Countries.drop i = cs)
    (hl : PolygonizerTask.loop Contains t.m_FB cs p = .ok p1) :
    TaskSteps Contains p
      { p1 with m_ThreadPool := p.m_ThreadPool.set j (t, i + cs.length) } := by
  induction cs generalizing i p p1 with
  | nil =>
    have e : p = p1 := Except.ok.inj hl
    subst e
    have : ({ p with m_ThreadPool := p.m_ThreadPool.set j (t, i + ([] : List Nat).length) }
        : Polygonizer) = p := by
      simp only [List.length_nil, Nat.add_zero, set_of_getElem? _ _ _ hj]
    rw [this]
    exact Relation.ReflTransGen.refl
  | cons c cs ih =>
    have hc : t.m_Countries[i]? = some c := by
      have := List.getElem?_drop t.m_Countries i 0
      rw [hcs] at this
      simpa using this.symm
    have hcs1 : t.m_Countries.drop (i + 1) = cs := by
      rw [← List.tail_drop, hcs]
      rfl
    simp only [PolygonizerTask.loop] at hl
    cases hb : PolygonizerTask.body Contains p c t.m_FB with
    | error e => simp [hb] at hl
    | ok r =>
      simp only [hb] at hl
      obtain ⟨-, hpool, -⟩ := PolygonizerTask.body_grows Contains p r c t.m_FB hb
      have hjlt : j < p.m_ThreadPool.length := (List.getElem?_eq_some.1 hj).1
      have hstep := @TaskStep.iterate Contains p r j t i c hj hc hb
      have hl2 : PolygonizerTask.loop Contains t.m_FB cs
          { r with m_ThreadPool := r.m_ThreadPool.set j (t, i + 1)
                   m_ThreadPoolSemaphore := r.m_ThreadPoolSemaphore }
          = .ok { p1 with m_ThreadPool := r.m_ThreadPool.set j (t, i + 1)
                          m_ThreadPoolSemaphore := r.m_ThreadPoolSemaphore } := by
        rw [PolygonizerTask.loop_pool, hl]
      have hsteps := ih (i + 1) _ _ (by
        simp only []
        rw [hpool]
        exact List.getElem?_set_self hjlt) hcs1 hl2
      obtain ⟨-, -, hsem⟩ := PolygonizerTask.loop_frame Contains t.m_FB cs r p1 hl
      have hfinal : ({ p1 with m_ThreadPool := p.m_ThreadPool.set j (t, i + (c :: cs).length) }
          : Polygonizer)
          = { p1 with
              m_ThreadPool := (r.m_ThreadPool.set j (t, i + 1)).set j (t, i + 1 + cs.length)
              m_ThreadPoolSemaphore := r.m_ThreadPoolSemaphore } := by
        rw [List.set_set, hpool, ← hsem]
        simp only [List.length_cons]
        have : i + (cs.length + 1) = i + 1 + cs.length := by omega
        rw [this]
      rw [hfinal]
      exact Relation.ReflTransGen.head hstep hsteps

/-- Running the queued tasks to completion, one after the other, is progress
of the worker threads. -/
theorem Polygonizer.drain_taskSteps (Contains : kml.Region → m2.PointD → Bool)
    (ts : List (PolygonizerTask × Nat)) (p p1 : Polygonizer)
    (hp : p.m_ThreadPool = ts)
    (hd : Polygonizer.drain Contains ts { p with m_ThreadPool := [] } = .ok p1) :
    TaskSteps Contains p p1 := by
  induction ts generalizing p with
  | nil =>
    simp only [Polygonizer.drain] at hd
    cases Except.ok.inj hd
    have : ({ p with m_ThreadPool := [] } : Polygonizer) = p := by
      cases p
      simp only at hp
      subst hp
      rfl
    rw [this]
    exact Relation.ReflTransGen.refl
  | cons ti rest ih =>
    obtain ⟨t, i⟩ := ti
    simp only [Polygonizer.drain, PolygonizerTask.runFrom] at hd
    have hlp := PolygonizerTask.loop_pool Contains t.m_FB (t.m_Countries.drop i) p []
      p.m_ThreadPoolSemaphore
    cases hl : PolygonizerTask.loop Contains t.m_FB (t.m_Countries.drop i) p with
    | error e =>
      rw [hl] at hlp
      have hlp2 : PolygonizerTask.loop Contains t.m_FB (t.m_Countries.drop i)
          { p with m_ThreadPool := [] } = .error e := hlp
      simp [hlp2] at hd
    | ok r =>
      rw [hl] at hlp
      have hlp2 : PolygonizerTask.loop Contains t.m_FB (t.m_Countries.drop i)
          { p with m_ThreadPool := [] }
          = .ok { r with m_ThreadPool := [], m_ThreadPoolSemaphore := p.m_ThreadPoolSemaphore } :=
        hlp
      simp only [hlp2] at hd
      obtain ⟨-, hpool, hsem⟩ := PolygonizerTask.loop_frame Contains t.m_FB _ p r hl
      have hj : p.m_ThreadPool[0]? = some (t, i) := by rw [hp]; simp
      have hsteps := PolygonizerTask.loop_taskSteps Contains t 0 _ i p r hj rfl hl
      have hdone := @TaskStep.complete Contains
        { r with m_ThreadPool := p.m_ThreadPool.set 0 (t, i + (t.m_Countries.drop i).length) }
        0 t (i + (t.m_Countries.drop i).length)
        (by simp only []; rw [hp]; simp)
        (by rw [List.length_drop]; omega)
      have hrest := ih
        { r with m_ThreadPool := rest, m_ThreadPoolSemaphore := r.m_ThreadPoolSemaphore + 1 } rfl
        (by rw [hsem]; exact hd)
      have heq : ({ r with
            m_ThreadPool := (p.m_ThreadPool.set 0
              (t, i + (t.m_Countries.drop i).length)).eraseIdx 0
            m_ThreadPoolSemaphore := r.m_ThreadPoolSemaphore + 1 } : Polygonizer)
          = { r with m_ThreadPool := rest, m_ThreadPoolSemaphore := r.m_ThreadPoolSemaphore + 1 } := by
        rw [hp]
        rfl
      rw [heq] at hdone
      exact (hsteps.tail hdone).trans hrest

/-- `Finish`, when it returns, is progress of the worker threads. -/
theorem Polygonizer.Finish_taskSteps (Contains : kml.Region → m2.PointD → Bool)
    (p p1 : Polygonizer) (h : p.Finish Contains = .ok p1) : TaskSteps Contains p p1 :=
  Polygonizer.drain_taskSteps Contains p.m_ThreadPool p p1 rfl h

/-! ## What the dispatches have assigned to a region -/

theorem sum_map_set {α : Type} (f : α → Nat) (l : List α) (i : Nat) (a b : α)
    (h : l[i]? = some a) : ((l.set i b).map f).sum + f a = (l.map f).sum + f b := by
  induction l generalizing i with
  | nil => simp at h
  | cons x xs ih =>
    cases i with
    | zero =>
      simp only [List.getElem?_cons_zero, Option.some.injEq] at h
      subst h
      simp only [List.set_cons_zero, List.map_cons, List.sum_cons]
      omega
    | succ n =>
      simp only [List.getElem?_cons_succ] at h
      have := ih n h
      simp only [List.set_cons_succ, List.map_cons, List.sum_cons]
      omega

theorem sum_map_eraseIdx {α : Type} (f : α → Nat) (l : List α) (i : Nat) (a : α)
    (h : l[i]? = some a) : ((l.eraseIdx i).map f).sum + f a = (l.map f).sum := by
  induction l generalizing i with
  | nil => simp at h
  | cons x xs ih =>
    cases i with
    | zero =>
      simp only [List.getElem?_cons_zero, Option.some.injEq] at h
      subst h
      simp only [List.eraseIdx_cons_zero, List.map_cons, List.sum_cons]
      omega
    | succ n =>
      simp only [List.getElem?_cons_succ] at h
      have := ih n h
      simp only [List.eraseIdx_cons_succ, List.map_cons, List.sum_cons]
      omega

/-- What a task has still to emit depends on the catalog only. -/
theorem Polygonizer.stillToEmit_congr (Contains : kml.Region → m2.PointD → Bool)
    (p p1 : Polygonizer) (j : Nat) (g : FeatureBuilder1) (h : p1.catalog = p.catalog) :
    p1.stillToEmit Contains j g = p.stillToEmit Contains j g := by
  funext ti
  have hpass : (fun c => p1.passes Contains c g) = (fun c => p.passes Contains c g) :=
    funext (fun c => Polygonizer.passes_congr Contains p p1 c g h)
  simp only [Polygonizer.stillToEmit, hpass]

/-- In a state without started tasks, what is assigned to a region is what its
bucket holds. -/
theorem Polygonizer.owed_quiescent (Contains : kml.Region → m2.PointD → Bool) (p : Polygonizer)
    (hidle : p.m_ThreadPool = []) (j : Nat) (g : FeatureBuilder1) :
    p.owed Contains j g = (p.bucketOf j).count g := by
  simp [Polygonizer.owed, Polygonizer.pendingCount, hidle]

/-- A step of a worker thread moves a copy from what a task has still to emit
into a bucket, or retires a task that has nothing left to emit: what is
assigned to a region does not change. -/
theorem owed_taskStep {Contains : kml.Region → m2.PointD → Bool} {p p1 : Polygonizer}
    (hinv : p.Inv) (h : TaskStep Contains p p1) (j : Nat) (g : FeatureBuilder1) :
    p1.owed Contains j g = p.owed Contains j g := by
  cases h
  case iterate s1 idx t i c hj hc hb =>
    obtain ⟨-, hbuck⟩ := PolygonizerTask.body_inv Contains p s1 c t.m_FB hinv hb
    obtain ⟨hg, hpool, -⟩ := PolygonizerTask.body_grows Contains p s1 c t.m_FB hb
    have hfun : Polygonizer.stillToEmit Contains
        { s1 with m_ThreadPool := s1.m_ThreadPool.set idx (t, i + 1) } j g
        = p.stillToEmit Contains j g :=
      Polygonizer.stillToEmit_congr Contains p _ j g hg.catalog
    have hpend : Polygonizer.pendingCount Contains
          { s1 with m_ThreadPool := s1.m_ThreadPool.set idx (t, i + 1) } j g
          + p.stillToEmit Contains j g (t, i)
        = p.pendingCount Contains j g + p.stillToEmit Contains j g (t, i + 1) := by
      unfold Polygonizer.pendingCount
      rw [hfun]
      simp only []
      rw [hpool]
      exact sum_map_set _ _ _ _ _ hj
    have hilt : i < t.m_Countries.length := (List.getElem?_eq_some.1 hc).1
    have hd : t.m_Countries.drop i = c :: t.m_Countries.drop (i + 1) := by
      rw [List.drop_eq_getElem_cons hilt]
      congr 1
      exact (List.getElem?_eq_some.1 hc).2
    have hterm : p.stillToEmit Contains j g (t, i)
        = p.stillToEmit Contains j g (t, i + 1)
          + (if t.m_FB = g ∧ j = c ∧ p.passes Contains c t.m_FB = true then 1 else 0) := by
      unfold Polygonizer.stillToEmit
      simp only []
      by_cases hfb : t.m_FB = g
      · subst hfb
        rw [hd]
        by_cases hp : p.passes Contains c t.m_FB = true
        · by_cases hjc : j = c
          · subst hjc
            simp [List.filter_cons, hp]
          · have hjc2 : ¬ (c = j) := fun h => hjc h.symm
            simp [List.filter_cons, hp, hjc, hjc2, List.count_cons]
        · simp [List.filter_cons, hp]
      · simp [hfb]
    have hcount : (s1.bucketOf j).count g
        = (p.bucketOf j).count g
          + (if t.m_FB = g ∧ j = c ∧ p.passes Contains c t.m_FB = true then 1 else 0) := by
      rw [hbuck j, List.count_append]
      congr 1
      by_cases hcond : j = c ∧ p.passes Contains c t.m_FB = true
      · by_cases hfb : t.m_FB = g
        · subst hfb
          rw [if_pos hcond, if_pos ⟨rfl, hcond⟩]
          simp
        · have : ¬ (t.m_FB = g ∧ j = c ∧ p.passes Contains c t.m_FB = true) := fun h => hfb h.1
          rw [if_pos hcond, if_neg this]
          simp [List.count_cons, hfb]
      · have : ¬ (t.m_FB = g ∧ j = c ∧ p.passes Contains c t.m_FB = true) := fun h => hcond h.2
        rw [if_neg hcond, if_neg this]
        simp
    have hb1 : Polygonizer.bucketOf
        { s1 with m_ThreadPool := s1.m_ThreadPool.set idx (t, i + 1) } j = s1.bucketOf j := rfl
    unfold Polygonizer.owed
    rw [hb1, hcount]
    omega
  case complete idx t i hj hi =>
    have hfun : Polygonizer.stillToEmit Contains
        { p with m_ThreadPool := p.m_ThreadPool.eraseIdx idx
                 m_ThreadPoolSemaphore := p.m_ThreadPoolSemaphore + 1 } j g
        = p.stillToEmit Contains j g :=
      Polygonizer.stillToEmit_congr Contains p _ j g rfl
    have hterm : p.stillToEmit Contains j g (t, i) = 0 := by
      unfold Polygonizer.stillToEmit
      simp [List.drop_eq_nil_of_le hi]
    have hpend : Polygonizer.pendingCount Contains
          { p with m_ThreadPool := p.m_ThreadPool.eraseIdx idx
                   m_ThreadPoolSemaphore := p.m_ThreadPoolSemaphore + 1 } j g
        = p.pendingCount Contains j g := by
      unfold Polygonizer.pendingCount
      rw [hfun]
      have := sum_map_eraseIdx (p.stillToEmit Contains j g) p.m_ThreadPool idx (t, i) hj
      simp only []
      omega
    have hb1 : Polygonizer.bucketOf
        { p with m_ThreadPool := p.m_ThreadPool.eraseIdx idx
                 m_ThreadPoolSemaphore := p.m_ThreadPoolSemaphore + 1 } j = p.bucketOf j := rfl
    unfold Polygonizer.owed
    rw [hb1, hpend]

/-- Progress of the worker threads does not change what is assigned to a
region. -/
theorem owed_taskSteps {Contains : kml.Region → m2.PointD → Bool} {p p1 : Polygonizer}
    (hinv : p.Inv) (h : TaskSteps Contains p p1) (j : Nat) (g : FeatureBuilder1) :
    p1.owed Contains j g = p.owed Contains j g := by
  induction h with
  | refl => rfl
  | tail hs hstep ih => rw [owed_taskStep (taskSteps_inv hinv hs) hstep j g, ih]

/-- A dispatch that returns assigns one copy of its feature to each of its
targets (the single candidate, or the candidates whose containment test
passes, of a feature that is not absorbed) and nothing else. -/
theorem Polygonizer.owed_call (Contains : kml.Region → m2.PointD → Bool)
    (worldMap : FeatureBuilder1 → Bool) (p p1 : Polygonizer) (fb : FeatureBuilder1)
    (hinv : p.Inv) (h : p.call worldMap fb = .ok p1) (j : Nat) (g : FeatureBuilder1) :
    p1.owed Contains j g = p.owed Contains j g
      + (if g = fb ∧ worldMap fb = false ∧ j ∈ p.candidates fb
            ∧ ((p.candidates fb).length = 1 ∨ p.passes Contains j fb = true) then 1 else 0) := by
  rcases Polygonizer.call_ok_cases worldMap p p1 fb h with
    ⟨hw, rfl⟩ | ⟨hw, c, hc, he⟩ | ⟨hw, hlen, hsem, rfl⟩
  · simp [hw]
  · obtain ⟨-, hbuck⟩ := Polygonizer.EmitFeature_inv p p1 c fb hinv he
    obtain ⟨hpool, -, -, hcat, -⟩ := Polygonizer.EmitFeature_frame p p1 c fb he
    have hpend : p1.pendingCount Contains j g = p.pendingCount Contains j g := by
      unfold Polygonizer.pendingCount
      rw [Polygonizer.stillToEmit_congr Contains p p1 j g hcat, hpool]
    unfold Polygonizer.owed
    rw [hpend, hbuck j]
    by_cases hj : j = c
    · subst hj
      by_cases hg : g = fb
      · subst hg
        simp [hw, hc, List.count_append]
        omega
      · have hg2 : ¬ (fb = g) := fun h => hg h.symm
        simp [hw, hc, hg, hg2, List.count_append, List.count_cons]
    · simp [hw, hc, hj]
  · have hfun : Polygonizer.stillToEmit Contains
        { p with m_ThreadPoolSemaphore := p.m_ThreadPoolSemaphore - 1
                 m_ThreadPool := p.m_ThreadPool ++
                   [({ m_Countries := p.candidates fb, m_FB := fb }, 0)] } j g
        = p.stillToEmit Contains j g :=
      Polygonizer.stillToEmit_congr Contains p _ j g rfl
    have hb1 : Polygonizer.bucketOf
        { p with m_ThreadPoolSemaphore := p.m_ThreadPoolSemaphore - 1
                 m_ThreadPool := p.m_ThreadPool ++
                   [({ m_Countries := p.candidates fb, m_FB := fb }, 0)] } j = p.bucketOf j := rfl
    have hnd : ((p.candidates fb).filter (fun c => p.passes Contains c g)).Nodup :=
      (Polygonizer.candidates_nodup p fb).filter _
    unfold Polygonizer.owed
    rw [hb1]
    unfold Polygonizer.pendingCount
    rw [hfun]
    simp only [List.map_append, List.sum_append, List.map_cons, List.map_nil, List.sum_cons,
      List.sum_nil, Nat.add_zero]
    rw [Nat.add_assoc]
    congr 2
    unfold Polygonizer.stillToEmit
    simp only [List.drop_zero]
    by_cases hg : g = fb
    · subst hg
      by_cases hm : j ∈ p.candidates g ∧ p.passes Contains j g = true
      · have hm2 : j ∈ (p.candidates g).filter (fun c => p.passes Contains c g) :=
          List.mem_filter.2 hm
        rw [if_pos rfl, List.count_eq_one_of_mem hnd hm2]
        simp [hw, hm.1, hm.2]
      · have hm2 : j ∉ (p.candidates g).filter (fun c => p.passes Contains c g) :=
          fun h => hm (List.mem_filter.1 h)
        rw [if_pos rfl, List.count_eq_zero_of_not_mem hm2]
        have : ¬ (j ∈ p.candidates g
            ∧ ((p.candidates g).length = 1 ∨ p.passes Contains j g = true)) := by
          rintro ⟨h1, h2 | h2⟩
          · exact hlen h2
          · exact hm ⟨h1, h2⟩
        simp [this]
    · have hg2 : ¬ (fb = g) := fun h => hg h.symm
      simp [hg, hg2]

end feature

namespace feature

/-! ## Dispatch and `Finish` return -/

/-- A dispatch returns when the feature is absorbed, or has exactly one
candidate, or a permit is free. -/
theorem Polygonizer.call_total (worldMap : FeatureBuilder1 → Bool) (p : Polygonizer)
    (fb : FeatureBuilder1) (hinv : p.Inv)
    (h : worldMap fb = true ∨ (p.candidates fb).length = 1 ∨ 0 < p.m_ThreadPoolSemaphore) :
    ∃ p1, p.call worldMap fb = .ok p1 := by
  by_cases hw : worldMap fb = true
  · exact ⟨p, by simp [Polygonizer.call, hw]⟩
  · have hw2 : worldMap fb = false := by simpa using hw
    by_cases hone : (p.candidates fb).length = 1
    · obtain ⟨c, hc⟩ := List.length_eq_one.1 hone
      have hclt : c < p.m_countries.length :=
        Polygonizer.candidates_lt p fb c (by rw [hc]; exact List.mem_singleton_self c)
      obtain ⟨p1, he⟩ := Polygonizer.EmitFeature_total p c fb hinv hclt
      exact ⟨p1, by simp [Polygonizer.call, hw2, hc, he]⟩
    · have hsem : p.m_ThreadPoolSemaphore ≠ 0 := by
        rcases h with h | h | h
        · exact absurd h hw
        · exact absurd h hone
        · omega
      exact ⟨_, by simp only [Polygonizer.call, hw2, Bool.false_eq_true, if_false, hone, hsem]; rfl⟩

theorem Polygonizer.call_poolValid (worldMap : FeatureBuilder1 → Bool) (p p1 : Polygonizer)
    (fb : FeatureBuilder1) (hv : p.PoolValid) (h : p.call worldMap fb = .ok p1) :
    p1.PoolValid := by
  rcases Polygonizer.call_ok_cases worldMap p p1 fb h with
    ⟨-, rfl⟩ | ⟨-, c, -, he⟩ | ⟨-, -, -, rfl⟩
  · exact hv
  · obtain ⟨hpool, -, -, -, hlen, -⟩ := Polygonizer.EmitFeature_frame p p1 c fb he
    intro ti hti c1 hc1
    rw [hlen]
    rw [hpool] at hti
    exact hv ti hti c1 hc1
  · intro ti hti c1 hc1
    simp only [List.mem_append, List.mem_singleton] at hti
    rcases hti with hti | rfl
    · exact hv ti hti c1 hc1
    · exact Polygonizer.candidates_lt p fb c1 hc1

/-- No step of the program makes a candidate pointer of a started task
dangle. -/
theorem step_poolValid {Contains : kml.Region → m2.PointD → Bool}
    {worldMap : FeatureBuilder1 → Bool} {p p1 : Polygonizer}
    (h : Step Contains worldMap p p1) (hv : p.PoolValid) : p1.PoolValid := by
  cases h
  case dispatch fb hc => exact Polygonizer.call_poolValid worldMap p p1 fb hv hc
  case emit k fb he =>
    obtain ⟨hpool, -, -, -, hlen, -⟩ := Polygonizer.EmitFeature_frame p p1 k fb he
    intro ti hti c1 hc1
    rw [hlen]
    rw [hpool] at hti
    exact hv ti hti c1 hc1
  case iterate s1 j t i c hj hc hb =>
    obtain ⟨hg, hpool, -⟩ := PolygonizerTask.body_grows Contains p s1 c t.m_FB hb
    have hlen : s1.m_countries.length = p.m_countries.length :=
      Polygonizer.length_of_catalog p s1 hg.catalog
    intro ti hti c1 hc1
    simp only [] at hti ⊢
    rw [hlen]
    rw [hpool] at hti
    rcases List.mem_or_eq_of_mem_set hti with hti | rfl
    · exact hv ti hti c1 hc1
    · exact hv (t, i) (List.mem_iff_getElem?.2 ⟨j, hj⟩) c1 hc1
  case complete j t i hj hi =>
    intro ti hti c1 hc1
    exact hv ti (List.mem_of_mem_eraseIdx hti) c1 hc1

theorem steps_poolValid {Contains : kml.Region → m2.PointD → Bool}
    {worldMap : FeatureBuilder1 → Bool} {p p1 : Polygonizer}
    (h : Steps Contains worldMap p p1) (hv : p.PoolValid) : p1.PoolValid := by
  induction h with
  | refl => exact hv
  | tail _ hstep ih => exact step_poolValid hstep ih

/-- Running tasks whose candidate pointers point into the catalog to
completion returns. -/
theorem Polygonizer.drain_total (Contains : kml.Region → m2.PointD → Bool)
    (ts : List (PolygonizerTask × Nat)) (p : Polygonizer) (hinv : p.Inv)
    (hv : ∀ ti ∈ ts, ∀ c ∈ ti.1.m_Countries, c < p.m_countries.length) :
    ∃ p1, Polygonizer.drain Contains ts p = .ok p1 ∧ p1.Inv ∧ p1.m_ThreadPool = p.m_ThreadPool := by
  induction ts generalizing p with
  | nil => exact ⟨p, rfl, hinv, rfl⟩
  | cons ti rest ih =>
    obtain ⟨p1, hr, hinv1, hg1, hpool1, -, -⟩ :=
      PolygonizerTask.runFrom_spec Contains ti.1 ti.2 p hinv (hv ti (List.mem_cons_self _ _))
    have hlen : p1.m_countries.length = p.m_countries.length :=
      Polygonizer.length_of_catalog p p1 hg1.catalog
    obtain ⟨p2, hd, hinv2, hpool2⟩ := ih p1 hinv1
      (fun tj htj c hc => by rw [hlen]; exact hv tj (List.mem_cons_of_mem _ htj) c hc)
    exact ⟨p2, by simp only [Polygonizer.drain, hr, hd], hinv2, hpool2.trans hpool1⟩

/-- `Finish` returns, with every started task completed. -/
theorem Polygonizer.Finish_total (Contains : kml.Region → m2.PointD → Bool) (p : Polygonizer)
    (hinv : p.Inv) (hv : p.PoolValid) :
    ∃ p1, p.Finish Contains = .ok p1 ∧ p1.Inv ∧ p1.m_ThreadPool = [] := by
  have hinv0 : Polygonizer.Inv { p with m_ThreadPool := [] } :=
    ⟨hinv.names, hinv.bound, hinv.inj, hinv.owner⟩
  exact Polygonizer.drain_total Contains p.m_ThreadPool { p with m_ThreadPool := [] } hinv0 hv

theorem Scenario.queuedY_inv : Scenario.queuedY.Inv :=
  Polygonizer.call_inv Scenario.noWorld Scenario.start Scenario.queuedY Scenario.featureY
    Scenario.start_inv Scenario.callY

theorem Scenario.queuedY_poolValid : Scenario.queuedY.PoolValid :=
  Polygonizer.call_poolValid Scenario.noWorld Scenario.start Scenario.queuedY Scenario.featureY
    (fun _ h => absurd h (List.not_mem_nil _)) Scenario.callY

/-- The state `queuedY`, in which a task is running, is reached from the
constructed polygonizer by one dispatch. -/
theorem Scenario.queuedY_reached :
    Polygonizer.new (some Scenario.countries) 1 = some Scenario.start
    ∧ Steps Scenario.inRectangle Scenario.noWorld Scenario.start Scenario.queuedY :=
  ⟨rfl, Relation.ReflTransGen.single
    (Step.dispatch Scenario.start Scenario.queuedY Scenario.featureY Scenario.callY)⟩

/-- A dispatch followed by any progress of the workers, and then a second
dispatch of the same feature followed again by any progress of the workers:
the second dispatch has the targets of the first, and each dispatch assigns
one copy to every target. -/
theorem Polygonizer.owed_call_twice (Contains : kml.Region → m2.PointD → Bool)
    (worldMap : FeatureBuilder1 → Bool) (p p1 p2 p3 p4 : Polygonizer) (fb : FeatureBuilder1)
    (hworld : worldMap fb = false) (hinv : p.Inv)
    (h1 : p.call worldMap fb = .ok p1) (hw1 : TaskSteps Contains p1 p2)
    (h2 : p2.call worldMap fb = .ok p3) (hw2 : TaskSteps Contains p3 p4) :
    p2.Inv ∧ p2.catalog = p.catalog
    ∧ ∀ j,
        p2.owed Contains j fb = p.owed Contains j fb
          + (if j ∈ p.candidates fb
                ∧ ((p.candidates fb).length = 1 ∨ p.passes Contains j fb = true) then 1 else 0)
        ∧ p4.owed Contains j fb = p2.owed Contains j fb
          + (if j ∈ p.candidates fb
                ∧ ((p.candidates fb).length = 1 ∨ p.passes Contains j fb = true) then 1 else 0) := by
  have hinv1 := Polygonizer.call_inv worldMap p p1 fb hinv h1
  have hinv2 := taskSteps_inv hinv1 hw1
  have hinv3 := Polygonizer.call_inv worldMap p2 p3 fb hinv2 h2
  have hcat : p2.catalog = p.catalog :=
    ((Polygonizer.call_grows worldMap p p1 fb h1).trans (taskSteps_grows hw1)).catalog
  refine ⟨hinv2, hcat, fun j => ⟨?_, ?_⟩⟩
  · rw [owed_taskSteps hinv1 hw1 j fb, Polygonizer.owed_call Contains worldMap p p1 fb hinv h1 j fb]
    simp [hworld]
  · rw [owed_taskSteps hinv3 hw2 j fb,
      Polygonizer.owed_call Contains worldMap p2 p3 fb hinv2 h2 j fb,
      Polygonizer.candidates_congr p p2 fb hcat, Polygonizer.passes_congr Contains p p2 j fb hcat]
    simp [hworld]

/-! ## One dispatch and two dispatches, whatever tasks are running -/

/-- Claim C4. One dispatch of a feature from any state that satisfies the
registry invariant, whatever tasks of earlier dispatches are still running,
followed by any progress of the worker threads (any interleaving of the
iterations and completions of the started tasks, the task of this dispatch
included). Counted for the bucket of a region are the copies it holds together
with the copies the started tasks have still to emit to it. For every region
and the dispatched feature this count either is unchanged or has grown by
exactly one; it has grown only if the region is a candidate, that is, a region
of the catalog whose bounding rectangle intersects the limit rectangle of the
feature, and, when there is more than one candidate, only if the containment
test of that region passes; for every other feature the count is unchanged.
When no task is left the count is what the bucket holds, and the count before
the dispatch is what the bucket would hold once the tasks running then have
completed. The dispatch itself appends to a bucket only when the region is the
single candidate, once. A dispatch that need not wait returns, and `Finish`
after it returns with no task left, when the candidate pointers of the started
tasks are valid. From a
quiescent state the dispatch followed by `Finish` leaves every bucket as it
was or with exactly one more copy, at the end, under the same conditions. The
task that the dispatch queues, run on any later state of the same catalog,
returns and appends at most one copy to a bucket, and only to the bucket of a
candidate whose containment test passes. -/
theorem C4_at_most_once_and_only_candidates (Contains : kml.Region → m2.PointD → Bool)
    (worldMap : FeatureBuilder1 → Bool) (p : Polygonizer) (fb : FeatureBuilder1)
    (hinv : p.Inv) :
    (∀ p1 p2, p.call worldMap fb = .ok p1 → TaskSteps Contains p1 p2 →
      ∀ j,
        (p2.owed Contains j fb = p.owed Contains j fb
          ∨ p2.owed Contains j fb = p.owed Contains j fb + 1)
        ∧ (p2.owed Contains j fb = p.owed Contains j fb + 1 →
            j ∈ p.candidates fb
            ∧ (∃ c, p.m_countries[j]? = some c ∧ fb.GetLimitRect.IsIntersect c.m_rect = true)
            ∧ (1 < (p.candidates fb).length →
                ∃ c, p.m_countries[j]? = some c
                  ∧ (PolygonizerTask.check Contains c.m_regions fb).m_belongs = true))
        ∧ (∀ g, g ≠ fb → p2.owed Contains j g = p.owed Contains j g)
        ∧ (p2.m_ThreadPool = [] → ∀ g, (p2.bucketOf j).count g = p2.owed Contains j g)
        ∧ (p1.bucketOf j = p.bucketOf j
            ∨ (p1.bucketOf j = p.bucketOf j ++ [fb] ∧ p.candidates fb = [j])))
    ∧ (∀ p0, TaskSteps Contains p p0 → p0.m_ThreadPool = [] →
        ∀ j g, (p0.bucketOf j).count g = p.owed Contains j g)
    ∧ (p.PoolValid →
        (worldMap fb = true ∨ (p.candidates fb).length = 1 ∨ 0 < p.m_ThreadPoolSemaphore) →
        ∃ p1 p2, p.call worldMap fb = .ok p1 ∧ p1.Finish Contains = .ok p2
          ∧ TaskSteps Contains p1 p2 ∧ p2.m_ThreadPool = [])
    ∧ (p.m_ThreadPool = [] → 0 < p.m_ThreadPoolSemaphore →
        ∃ p1 p2, p.call worldMap fb = .ok p1 ∧ p1.Finish Contains = .ok p2
          ∧ Steps Contains worldMap p p2
          ∧ ∀ j, (p2.bucketOf j = p.bucketOf j ∨ p2.bucketOf j = p.bucketOf j ++ [fb])
              ∧ (p2.bucketOf j = p.bucketOf j ++ [fb] →
                  j ∈ p.candidates fb
                  ∧ (∃ c, p.m_countries[j]? = some c
                        ∧ fb.GetLimitRect.IsIntersect c.m_rect = true)
                  ∧ (1 < (p.candidates fb).length →
                      ∃ c, p.m_countries[j]? = some c
                        ∧ (PolygonizerTask.check Contains c.m_regions fb).m_belongs = true)))
    ∧ (∀ q : Polygonizer, q.Inv → q.catalog = p.catalog →
        ∃ q1, PolygonizerTask.run Contains { m_Countries := p.candidates fb, m_FB := fb } q
            = .ok q1
          ∧ ∀ j, q1.bucketOf j = q.bucketOf j
              ∨ (q1.bucketOf j = q.bucketOf j ++ [fb] ∧ j ∈ p.candidates fb
                  ∧ p.passes Contains j fb = true)) := by
  have hdone : ∀ p0, TaskSteps Contains p p0 → p0.m_ThreadPool = [] →
      ∀ j g, (p0.bucketOf j).count g = p.owed Contains j g := by
    intro p0 hw0 hidle0 j g
    rw [← owed_taskSteps hinv hw0 j g]
    exact (Polygonizer.owed_quiescent Contains p0 hidle0 j g).symm
  refine ⟨?_, hdone, ?_, ?_, ?_⟩
  · intro p1 p2 h1 hw j
    have hinv1 := Polygonizer.call_inv worldMap p p1 fb hinv h1
    have hfb := Polygonizer.owed_call Contains worldMap p p1 fb hinv h1 j fb
    rw [← owed_taskSteps hinv1 hw j fb] at hfb
    refine ⟨?_, ?_, ?_, ?_, ?_⟩
    · split at hfb
      · exact Or.inr hfb
      · exact Or.inl hfb
    · intro hgain
      split at hfb
      next hcond =>
        obtain ⟨-, -, hmem, hor⟩ := hcond
        refine ⟨hmem, (Polygonizer.mem_candidates p fb j).1 hmem, fun hlen => ?_⟩
        obtain ⟨c, hc, -⟩ := (Polygonizer.mem_candidates p fb j).1 hmem
        rcases hor with h | h
        · omega
        · exact ⟨c, hc, by simpa [Polygonizer.passes, hc] using h⟩
      next => omega
    · intro g hg
      rw [owed_taskSteps hinv1 hw j g, Polygonizer.owed_call Contains worldMap p p1 fb hinv h1 j g]
      simp [hg]
    · intro hidle g
      exact (Polygonizer.owed_quiescent Contains p2 hidle j g).symm
    · rcases Polygonizer.call_ok_cases worldMap p p1 fb h1 with
        ⟨-, rfl⟩ | ⟨-, c, hc, he⟩ | ⟨-, -, -, rfl⟩
      · exact Or.inl rfl
      · obtain ⟨-, hbuck⟩ := Polygonizer.EmitFeature_inv p p1 c fb hinv he
        rw [hbuck j]
        by_cases hj : j = c
        · subst hj
          exact Or.inr ⟨by simp, hc⟩
        · exact Or.inl (by simp [hj])
      · exact Or.inl rfl
  · intro hv hret
    obtain ⟨p1, h1⟩ := Polygonizer.call_total worldMap p fb hinv hret
    obtain ⟨p2, h2, -, hidle⟩ := Polygonizer.Finish_total Contains p1
      (Polygonizer.call_inv worldMap p p1 fb hinv h1)
      (Polygonizer.call_poolValid worldMap p p1 fb hv h1)
    exact ⟨p1, p2, h1, h2, Polygonizer.Finish_taskSteps Contains p1 p2 h2, hidle⟩
  · intro hidle hperm
    obtain ⟨p1, p2, h1, h2, -, -, -, -, hbuck⟩ :=
      Polygonizer.call_finish Contains worldMap p fb hinv hidle hperm
    refine ⟨p1, p2, h1, h2, Relation.ReflTransGen.head (Step.dispatch p p1 fb h1)
      (Polygonizer.Finish_steps Contains worldMap p1 p2 h2), fun j => ?_⟩
    have hb := hbuck j
    split at hb
    next hcond =>
      obtain ⟨-, hmem, hor⟩ := hcond
      refine ⟨Or.inr hb, fun _ => ⟨hmem, (Polygonizer.mem_candidates p fb j).1 hmem, fun hlen => ?_⟩⟩
      obtain ⟨c, hc, -⟩ := (Polygonizer.mem_candidates p fb j).1 hmem
      rcases hor with h | h
      · omega
      · exact ⟨c, hc, by simpa [Polygonizer.passes, hc] using h⟩
    next hcond =>
      rw [List.append_nil] at hb
      refine ⟨Or.inl hb, fun h => ?_⟩
      rw [hb] at h
      exact absurd h.symm (append_singleton_ne _ _)
  · intro q hinvq hcat
    obtain ⟨q1, hr, -, -, -, -, hbuck⟩ :=
      PolygonizerTask.runFrom_spec Contains { m_Countries := p.candidates fb, m_FB := fb } 0 q hinvq
        (fun c hc => by
          rw [Polygonizer.length_of_catalog p q hcat]
          exact Polygonizer.candidates_lt p fb c hc)
    refine ⟨q1, hr, fun j => ?_⟩
    have hb := hbuck j
    simp only [List.drop_zero] at hb
    rw [replicate_count_nodup _ _ _ _ (Polygonizer.candidates_nodup p fb)] at hb
    split at hb
    next hcond =>
      exact Or.inr ⟨hb, hcond.1, by
        rw [← Polygonizer.passes_congr Contains p q j fb hcat]
        exact hcond.2⟩
    next => exact Or.inl (by simpa using hb)

theorem C4_at_most_once_and_only_candidates_witness :
    Scenario.queuedY.owed Scenario.inRectangle 0 Scenario.featureY = 1
    ∧ ∃ p1 p2, Scenario.queuedY.call Scenario.noWorld Scenario.featureY = .ok p1
      ∧ p1.Finish Scenario.inRectangle = .ok p2
      ∧ TaskSteps Scenario.inRectangle p1 p2 ∧ p2.m_ThreadPool = []
      ∧ (p2.owed Scenario.inRectangle 0 Scenario.featureY
            = Scenario.queuedY.owed Scenario.inRectangle 0 Scenario.featureY
          ∨ p2.owed Scenario.inRectangle 0 Scenario.featureY
            = Scenario.queuedY.owed Scenario.inRectangle 0 Scenario.featureY + 1)
      ∧ (p2.bucketOf 0).count Scenario.featureY
          = p2.owed Scenario.inRectangle 0 Scenario.featureY := by
  have hthm := C4_at_most_once_and_only_candidates Scenario.inRectangle Scenario.noWorld
    Scenario.queuedY Scenario.featureY Scenario.queuedY_inv
  obtain ⟨p1, p2, h1, h2, hw, hidle⟩ :=
    hthm.2.2.1 Scenario.queuedY_poolValid (Or.inr (Or.inr (by decide)))
  exact ⟨by decide, p1, p2, h1, h2, hw, hidle, (hthm.1 p1 p2 h1 hw 0).1,
    (hthm.1 p1 p2 h1 hw 0).2.2.2.1 hidle Scenario.featureY⟩

/-- Claim C9. The same feature, not absorbed by the world map generator,
dispatched twice from any state that satisfies the registry invariant,
whatever tasks are running, with any progress of the worker threads between
the two dispatches and after them (none between them is the sequence
`pz(f); pz(f); Finish()`). The candidates and the outcomes of the containment
test depend on the catalog only, so the second dispatch has the targets of the
first (the single candidate, or the candidates whose containment test passes).
Counted for the bucket of a region are the copies it holds together with the
copies the started tasks have still to emit to it: for every target the count
of the feature grows by one at each dispatch, two in all, and for every other
region it is left unchanged by both; when no task is left the count is what
the bucket holds, and the count before the first dispatch is what the bucket
would hold once the tasks running then have completed. With valid candidate
pointers in the pool and one candidate or two free permits,
`pz(f); pz(f); Finish()` returns, and the bucket of every target then holds two
copies more than were assigned to it before. From a quiescent state, each
dispatch followed by `Finish`, the bucket of a target is the old bucket
followed by two copies of the feature. -/
theorem C9_emission_not_deduplicated (Contains : kml.Region → m2.PointD → Bool)
    (worldMap : FeatureBuilder1 → Bool) (p : Polygonizer) (fb : FeatureBuilder1)
    (hworld : worldMap fb = false) (hinv : p.Inv) :
    (∀ q : Polygonizer, q.catalog = p.catalog →
      q.candidates fb = p.candidates fb
      ∧ ∀ j, q.passes Contains j fb = p.passes Contains j fb)
    ∧ (∀ p1 p2 p3 p4, p.call worldMap fb = .ok p1 → TaskSteps Contains p1 p2 →
        p2.call worldMap fb = .ok p3 → TaskSteps Contains p3 p4 →
        p2.candidates fb = p.candidates fb
        ∧ (∀ j, p2.passes Contains j fb = p.passes Contains j fb)
        ∧ ∀ j,
            ((j ∈ p.candidates fb
                ∧ ((p.candidates fb).length = 1 ∨ p.passes Contains j fb = true)) →
              p2.owed Contains j fb = p.owed Contains j fb + 1
              ∧ p4.owed Contains j fb = p.owed Contains j fb + 2)
            ∧ (¬ (j ∈ p.candidates fb
                  ∧ ((p.candidates fb).length = 1 ∨ p.passes Contains j fb = true)) →
              p2.owed Contains j fb = p.owed Contains j fb
              ∧ p4.owed Contains j fb = p.owed Contains j fb)
            ∧ (p4.m_ThreadPool = [] → (p4.bucketOf j).count fb = p4.owed Contains j fb))
    ∧ (∀ p0, TaskSteps Contains p p0 → p0.m_ThreadPool = [] →
        ∀ j, (p0.bucketOf j).count fb = p.owed Contains j fb)
    ∧ (p.PoolValid → ((p.candidates fb).length = 1 ∨ 2 ≤ p.m_ThreadPoolSemaphore) →
        ∃ p1 p3 p4, p.call worldMap fb = .ok p1 ∧ p1.call worldMap fb = .ok p3
          ∧ p3.Finish Contains = .ok p4 ∧ p4.m_ThreadPool = []
          ∧ ∀ j,
              ((j ∈ p.candidates fb
                  ∧ ((p.candidates fb).length = 1 ∨ p.passes Contains j fb = true)) →
                (p4.bucketOf j).count fb = p.owed Contains j fb + 2)
              ∧ (¬ (j ∈ p.candidates fb
                    ∧ ((p.candidates fb).length = 1 ∨ p.passes Contains j fb = true)) →
                (p4.bucketOf j).count fb = p.owed Contains j fb))
    ∧ (p.m_ThreadPool = [] → 0 < p.m_ThreadPoolSemaphore →
        ∃ p1 p2 p3 p4, p.call worldMap fb = .ok p1 ∧ p1.Finish Contains = .ok p2
          ∧ p2.call worldMap fb = .ok p3 ∧ p3.Finish Contains = .ok p4
          ∧ Steps Contains worldMap p p2 ∧ Steps Contains worldMap p2 p4
          ∧ ∀ j,
              ((j ∈ p.candidates fb
                  ∧ ((p.candidates fb).length = 1 ∨ p.passes Contains j fb = true)) →
                p2.bucketOf j = p.bucketOf j ++ [fb] ∧ p4.bucketOf j = p.bucketOf j ++ [fb, fb])
              ∧ (¬ (j ∈ p.candidates fb
                    ∧ ((p.candidates fb).length = 1 ∨ p.passes Contains j fb = true)) →
                p2.bucketOf j = p.bucketOf j ∧ p4.bucketOf j = p.bucketOf j)) := by
  have hdone : ∀ p0, TaskSteps Contains p p0 → p0.m_ThreadPool = [] →
      ∀ j, (p0.bucketOf j).count fb = p.owed Contains j fb := by
    intro p0 hw0 hidle0 j
    rw [← owed_taskSteps hinv hw0 j fb]
    exact (Polygonizer.owed_quiescent Contains p0 hidle0 j fb).symm
  refine ⟨fun q hq => ⟨Polygonizer.candidates_congr p q fb hq,
      fun j => Polygonizer.passes_congr Contains p q j fb hq⟩, ?_, hdone, ?_, ?_⟩
  · intro p1 p2 p3 p4 h1 hw1 h2 hw2
    obtain ⟨-, hcat, hacc⟩ :=
      Polygonizer.owed_call_twice Contains worldMap p p1 p2 p3 p4 fb hworld hinv h1 hw1 h2 hw2
    refine ⟨Polygonizer.candidates_congr p p2 fb hcat,
      fun j => Polygonizer.passes_congr Contains p p2 j fb hcat, fun j => ⟨?_, ?_, ?_⟩⟩
    · intro hcond
      obtain ⟨ha, hb⟩ := hacc j
      rw [if_pos hcond] at ha hb
      exact ⟨ha, by omega⟩
    · intro hcond
      obtain ⟨ha, hb⟩ := hacc j
      rw [if_neg hcond] at ha hb
      exact ⟨ha, by omega⟩
    · intro hidle
      exact (Polygonizer.owed_quiescent Contains p4 hidle j fb).symm
  · intro hv hperm
    have hret1 : worldMap fb = true ∨ (p.candidates fb).length = 1
        ∨ 0 < p.m_ThreadPoolSemaphore := by
      rcases hperm with h | h
      · exact Or.inr (Or.inl h)
      · exact Or.inr (Or.inr (by omega))
    obtain ⟨p1, h1⟩ := Polygonizer.call_total worldMap p fb hinv hret1
    have hinv1 := Polygonizer.call_inv worldMap p p1 fb hinv h1
    have hv1 := Polygonizer.call_poolValid worldMap p p1 fb hv h1
    have hcat1 : p1.catalog = p.catalog := (Polygonizer.call_grows worldMap p p1 fb h1).catalog
    have hret2 : worldMap fb = true ∨ (p1.candidates fb).length = 1
        ∨ 0 < p1.m_ThreadPoolSemaphore := by
      rw [Polygonizer.candidates_congr p p1 fb hcat1]
      rcases hperm with h | h
      · exact Or.inr (Or.inl h)
      · rcases Polygonizer.call_ok_cases worldMap p p1 fb h1 with
          ⟨hw, -⟩ | ⟨-, c, hc, -⟩ | ⟨-, -, -, rfl⟩
        · rw [hworld] at hw
          exact absurd hw (by decide)
        · exact Or.inr (Or.inl (by rw [hc]; rfl))
        · exact Or.inr (Or.inr (by simp only []; omega))
    obtain ⟨p3, h3⟩ := Polygonizer.call_total worldMap p1 fb hinv1 hret2
    have hinv3 := Polygonizer.call_inv worldMap p1 p3 fb hinv1 h3
    have hv3 := Polygonizer.call_poolValid worldMap p1 p3 fb hv1 h3
    obtain ⟨p4, h4, -, hidle4⟩ := Polygonizer.Finish_total Contains p3 hinv3 hv3
    obtain ⟨-, -, hacc⟩ :=
      Polygonizer.owed_call_twice Contains worldMap p p1 p1 p3 p4 fb hworld hinv h1
        Relation.ReflTransGen.refl h3 (Polygonizer.Finish_taskSteps Contains p3 p4 h4)
    refine ⟨p1, p3, p4, h1, h3, h4, hidle4, fun j => ⟨?_, ?_⟩⟩
    · intro hcond
      obtain ⟨ha, hb⟩ := hacc j
      rw [if_pos hcond] at ha hb
      rw [← Polygonizer.owed_quiescent Contains p4 hidle4 j fb]
      omega
    · intro hcond
      obtain ⟨ha, hb⟩ := hacc j
      rw [if_neg hcond] at ha hb
      rw [← Polygonizer.owed_quiescent Contains p4 hidle4 j fb]
      omega
  · intro hidle hperm
    obtain ⟨p1, p2, h1, h2, hinv2, hg2, hpool2, hsem2, hbuck2⟩ :=
      Polygonizer.call_finish Contains worldMap p fb hinv hidle hperm
    obtain ⟨p3, p4, h3, h4, -, -, -, -, hbuck4⟩ :=
      Polygonizer.call_finish Contains worldMap p2 fb hinv2 hpool2 (by rw [hsem2]; exact hperm)
    have hcand := Polygonizer.candidates_congr p p2 fb hg2.catalog
    have hpass := fun j => Polygonizer.passes_congr Contains p p2 j fb hg2.catalog
    refine ⟨p1, p2, p3, p4, h1, h2, h3, h4,
      Relation.ReflTransGen.head (Step.dispatch p p1 fb h1)
        (Polygonizer.Finish_steps Contains worldMap p1 p2 h2),
      Relation.ReflTransGen.head (Step.dispatch p2 p3 fb h3)
        (Polygonizer.Finish_steps Contains worldMap p3 p4 h4), fun j => ?_⟩
    have hb2 := hbuck2 j
    have hb4 := hbuck4 j
    rw [hcand, hpass j] at hb4
    simp only [hworld, true_and] at hb2 hb4
    constructor
    · intro hcond
      rw [if_pos hcond] at hb2 hb4
      refine ⟨hb2, ?_⟩
      rw [hb4, hb2, List.append_assoc]
      rfl
    · intro hcond
      rw [if_neg hcond, List.append_nil] at hb2 hb4
      exact ⟨hb2, hb4.trans hb2⟩

theorem C9_emission_not_deduplicated_witness :
    Scenario.queuedY.owed Scenario.inRectangle 0 Scenario.featureY = 1
    ∧ ∃ p1 p3 p4, Scenario.queuedY.call Scenario.noWorld Scenario.featureY = .ok p1
      ∧ p1.call Scenario.noWorld Scenario.featureY = .ok p3
      ∧ p3.Finish Scenario.inRectangle = .ok p4 ∧ p4.m_ThreadPool = []
      ∧ ∀ j,
          ((j ∈ Scenario.queuedY.candidates Scenario.featureY
              ∧ ((Scenario.queuedY.candidates Scenario.featureY).length = 1
                  ∨ Scenario.queuedY.passes Scenario.inRectangle j Scenario.featureY = true)) →
            (p4.bucketOf j).count Scenario.featureY
              = Scenario.queuedY.owed Scenario.inRectangle j Scenario.featureY + 2)
          ∧ (¬ (j ∈ Scenario.queuedY.candidates Scenario.featureY
                ∧ ((Scenario.queuedY.candidates Scenario.featureY).length = 1
                    ∨ Scenario.queuedY.passes Scenario.inRectangle j Scenario.featureY = true)) →
            (p4.bucketOf j).count Scenario.featureY
              = Scenario.queuedY.owed Scenario.inRectangle j Scenario.featureY) :=
  ⟨by decide,
    (C9_emission_not_deduplicated Scenario.inRectangle Scenario.noWorld Scenario.queuedY
      Scenario.featureY rfl Scenario.queuedY_inv).2.2.2.1 Scenario.queuedY_poolValid
      (Or.inr (by decide))⟩

end feature

namespace feature

/-! ## The permit of a task when a collaborator throws -/

/-- An emission with a bucket that can throw: it keeps the permits and the
pool, and when it is not left by the exception it is the emission. -/
theorem Polygonizer.EmitFeatureExit_ok (appendThrows : FeatureOutT → FeatureBuilder1 → Bool)
    (p s : Polygonizer) (k : Nat) (fb : FeatureBuilder1) (thrown : Bool)
    (h : p.EmitFeatureExit appendThrows k fb = .ok (s, thrown)) :
    s.m_ThreadPoolSemaphore = p.m_ThreadPoolSemaphore ∧ s.m_ThreadPool = p.m_ThreadPool
      ∧ (thrown = false → p.EmitFeature k fb = .ok s) := by
  unfold Polygonizer.EmitFeatureExit at h
  unfold Polygonizer.EmitFeature
  cases hc : p.m_countries[k]? with
  | none => simp [hc] at h
  | some c =>
    simp only [hc] at h ⊢
    by_cases hidx : c.m_index = -1
    · simp only [hidx, if_true] at h ⊢
      split at h
      · simp at h
      · split at h
        · split at h
          · simp at h
          · rename_i _ c1 hc1 h0 _ b hb
            simp only [h0, if_true]
            split at h
            · cases h
              exact ⟨rfl, rfl, fun hf => by simp at hf⟩
            · cases h
              exact ⟨rfl, rfl, fun _ => rfl⟩
        · simp at h
    · simp only [hidx, if_false] at h ⊢
      split at h
      · simp at h
      · split at h
        · split at h
          · simp at h
          · rename_i _ c1 hc1 h0 _ b hb
            simp only [h0, if_true]
            split at h
            · cases h
              exact ⟨rfl, rfl, fun hf => by simp at hf⟩
            · cases h
              exact ⟨rfl, rfl, fun _ => rfl⟩
        · simp at h

/-- An emission with a bucket that can throw is left, normally or by the
exception, whenever the emission returns. -/
theorem Polygonizer.EmitFeatureExit_of_ok (appendThrows : FeatureOutT → FeatureBuilder1 → Bool)
    (p s : Polygonizer) (k : Nat) (fb : FeatureBuilder1) (h : p.EmitFeature k fb = .ok s) :
    p.EmitFeatureExit appendThrows k fb = .ok (s, false)
      ∨ ∃ s1, p.EmitFeatureExit appendThrows k fb = .ok (s1, true) := by
  unfold Polygonizer.EmitFeature at h
  unfold Polygonizer.EmitFeatureExit
  cases hc : p.m_countries[k]? with
  | none => simp [hc] at h
  | some c =>
    simp only [hc] at h ⊢
    by_cases hidx : c.m_index = -1
    · simp only [hidx, if_true] at h ⊢
      split at h
      · simp at h
      · split at h
        · split at h
          · simp at h
          · rename_i _ c1 hc1 h0 _ b hb
            simp only [hc1, h0, if_true, hb]
            cases Except.ok.inj h
            by_cases ht : appendThrows b fb = true
            · exact Or.inr ⟨_, by rw [if_pos ht]⟩
            · exact Or.inl (by rw [if_neg ht])
        · simp at h
    · simp only [hidx, if_false] at h ⊢
      split at h
      · simp at h
      · split at h
        · split at h
          · simp at h
          · rename_i _ c1 hc1 h0 _ b hb
            simp only [hc1, h0, if_true, hb]
            cases Except.ok.inj h
            by_cases ht : appendThrows b fb = true
            · exact Or.inr ⟨_, by rw [if_pos ht]⟩
            · exact Or.inl (by rw [if_neg ht])
        · simp at h

/-- With a bucket that never throws, the emission with exits is the emission. -/
theorem Polygonizer.EmitFeatureExit_never (appendThrows : FeatureOutT → FeatureBuilder1 → Bool)
    (hnever : ∀ b fb, appendThrows b fb = false) (p : Polygonizer) (k : Nat)
    (fb : FeatureBuilder1) :
    p.EmitFeatureExit appendThrows k fb
      = match p.EmitFeature k fb with
        | .ok s => .ok (s, false)
        | .error e => .error e := by
  unfold Polygonizer.EmitFeatureExit Polygonizer.EmitFeature
  cases hc : p.m_countries[k]? with
  | none => rfl
  | some c =>
    simp only [hnever, Bool.false_eq_true, if_false]
    split
    · rfl
    · split
      · split
        · rfl
        · rfl
      · rfl

theorem PolygonizerTask.bodyExit_ok (Contains : kml.Region → m2.PointD → Bool)
    (containsThrows : kml.Region → m2.PointD → Bool)
    (appendThrows : FeatureOutT → FeatureBuilder1 → Bool) (p s : Polygonizer) (k : Nat)
    (fb : FeatureBuilder1) (thrown : Bool)
    (h : PolygonizerTask.bodyExit Contains containsThrows appendThrows p k fb = .ok (s, thrown)) :
    s.m_ThreadPoolSemaphore = p.m_ThreadPoolSemaphore ∧ s.m_ThreadPool = p.m_ThreadPool
      ∧ (thrown = false → PolygonizerTask.body Contains p k fb = .ok s) := by
  unfold PolygonizerTask.bodyExit at h
  unfold PolygonizerTask.body
  cases hc : p.m_countries[k]? with
  | none => simp [hc] at h
  | some c =>
    simp only [hc] at h ⊢
    split at h
    · cases h
      exact ⟨rfl, rfl, fun hf => by simp at hf⟩
    · split at h
      · rename_i hb
        rw [if_pos hb]
        exact Polygonizer.EmitFeatureExit_ok appendThrows p s k fb thrown h
      · rename_i hb
        rw [if_neg hb]
        cases h
        exact ⟨rfl, rfl, fun _ => rfl⟩

theorem PolygonizerTask.bodyExit_never (Contains : kml.Region → m2.PointD → Bool)
    (containsThrows : kml.Region → m2.PointD → Bool)
    (appendThrows : FeatureOutT → FeatureBuilder1 → Bool)
    (hc : ∀ rgn pt, containsThrows rgn pt = false) (ha : ∀ b fb, appendThrows b fb = false)
    (p : Polygonizer) (k : Nat) (fb : FeatureBuilder1) :
    PolygonizerTask.bodyExit Contains containsThrows appendThrows p k fb
      = match PolygonizerTask.body Contains p k fb with
        | .ok s => .ok (s, false)
        | .error e => .error e := by
  unfold PolygonizerTask.bodyExit PolygonizerTask.body
  cases hk : p.m_countries[k]? with
  | none => rfl
  | some c =>
    have hany : (PolygonizerTask.check Contains c.m_regions fb).m_tested.any
        (fun x => containsThrows x.1 x.2) = false := by
      simp [hc]
    simp only [hany, Bool.false_eq_true, if_false]
    split
    · exact Polygonizer.EmitFeatureExit_never appendThrows ha p k fb
    · rfl

/-- An iteration with collaborators that can throw is left, normally or by an
exception, whenever the registry satisfies its invariant and the candidate
pointer points into the catalog. -/
theorem PolygonizerTask.bodyExit_total (Contains : kml.Region → m2.PointD → Bool)
    (containsThrows : kml.Region → m2.PointD → Bool)
    (appendThrows : FeatureOutT → FeatureBuilder1 → Bool) (p : Polygonizer) (k : Nat)
    (fb : FeatureBuilder1) (hinv : p.Inv) (hk : k < p.m_countries.length) :
    ∃ s thrown, PolygonizerTask.bodyExit Contains containsThrows appendThrows p k fb
      = .ok (s, thrown) := by
  unfold PolygonizerTask.bodyExit
  rw [List.getElem?_eq_getElem hk]
  simp only []
  split
  · exact ⟨p, true, rfl⟩
  · split
    · obtain ⟨s, he⟩ := Polygonizer.EmitFeature_total p k fb hinv hk
      rcases Polygonizer.EmitFeatureExit_of_ok appendThrows p s k fb he with h | ⟨s1, h⟩
      · exact ⟨s, false, h⟩
      · exact ⟨s1, true, h⟩
    · exact ⟨p, false, rfl⟩

theorem PolygonizerTask.loopExit_ok (Contains : kml.Region → m2.PointD → Bool)
    (containsThrows : kml.Region → m2.PointD → Bool)
    (appendThrows : FeatureOutT → FeatureBuilder1 → Bool) (fb : FeatureBuilder1)
    (cs : List Nat) (p s : Polygonizer) (thrown : Bool)
    (h : PolygonizerTask.loopExit Contains containsThrows appendThrows fb cs p = .ok (s, thrown)) :
    s.m_ThreadPoolSemaphore = p.m_ThreadPoolSemaphore ∧ s.m_ThreadPool = p.m_ThreadPool
      ∧ (thrown = false → PolygonizerTask.loop Contains fb cs p = .ok s) := by
  induction cs generalizing p with
  | nil =>
    simp only [PolygonizerTask.loopExit] at h
    cases h
    exact ⟨rfl, rfl, fun _ => rfl⟩
  | cons c cs ih =>
    simp only [PolygonizerTask.loopExit] at h
    cases hb : PolygonizerTask.bodyExit Contains containsThrows appendThrows p c fb with
    | error e => simp [hb] at h
    | ok r =>
      obtain ⟨r1, b⟩ := r
      obtain ⟨h1, h2, h3⟩ :=
        PolygonizerTask.bodyExit_ok Contains containsThrows appendThrows p r1 c fb b hb
      cases b with
      | true =>
        simp only [hb] at h
        cases h
        exact ⟨h1, h2, fun hf => by simp at hf⟩
      | false =>
        simp only [hb] at h
        obtain ⟨g1, g2, g3⟩ := ih r1 h
        refine ⟨g1.trans h1, g2.trans h2, fun ht => ?_⟩
        simp only [PolygonizerTask.loop, h3 rfl]
        exact g3 ht

theorem PolygonizerTask.loopExit_never (Contains : kml.Region → m2.PointD → Bool)
    (containsThrows : kml.Region → m2.PointD → Bool)
    (appendThrows : FeatureOutT → FeatureBuilder1 → Bool)
    (hc : ∀ rgn pt, containsThrows rgn pt = false) (ha : ∀ b fb, appendThrows b fb = false)
    (fb : FeatureBuilder1) (cs : List Nat) (p : Polygonizer) :
    PolygonizerTask.loopExit Contains containsThrows appendThrows fb cs p
      = match PolygonizerTask.loop Contains fb cs p with
        | .ok s => .ok (s, false)
        | .error e => .error e := by
  induction cs generalizing p with
  | nil => rfl
  | cons c cs ih =>
    simp only [PolygonizerTask.loopExit, PolygonizerTask.loop,
      PolygonizerTask.bodyExit_never Contains containsThrows appendThrows hc ha]
    cases hb : PolygonizerTask.body Contains p c fb with
    | error e => rfl
    | ok r => exact ih r

/-- The loop with collaborators that can throw is left, normally or by an
exception, whenever the registry satisfies its invariant and the candidate
pointers point into the catalog. -/
theorem PolygonizerTask.loopExit_total (Contains : kml.Region → m2.PointD → Bool)
    (containsThrows : kml.Region → m2.PointD → Bool)
    (appendThrows : FeatureOutT → FeatureBuilder1 → Bool) (fb : FeatureBuilder1)
    (cs : List Nat) (p : Polygonizer) (hinv : p.Inv)
    (hcs : ∀ c ∈ cs, c < p.m_countries.length) :
    ∃ s thrown, PolygonizerTask.loopExit Contains containsThrows appendThrows fb cs p
      = .ok (s, thrown) := by
  induction cs generalizing p with
  | nil => exact ⟨p, false, rfl⟩
  | cons c cs ih =>
    obtain ⟨r, b, hb⟩ := PolygonizerTask.bodyExit_total Contains containsThrows appendThrows p c fb
      hinv (hcs c (List.mem_cons_self _ _))
    cases b with
    | true => exact ⟨r, true, by simp only [PolygonizerTask.loopExit, hb]⟩
    | false =>
      obtain ⟨-, -, h3⟩ :=
        PolygonizerTask.bodyExit_ok Contains containsThrows appendThrows p r c fb false hb
      obtain ⟨hinv1, -⟩ := PolygonizerTask.body_inv Contains p r c fb hinv (h3 rfl)
      obtain ⟨hg, -, -⟩ := PolygonizerTask.body_grows Contains p r c fb (h3 rfl)
      have hlen : r.m_countries.length = p.m_countries.length :=
        Polygonizer.length_of_catalog p r hg.catalog
      obtain ⟨s, b2, hl⟩ := ih r hinv1
        (fun c1 hc1 => by rw [hlen]; exact hcs c1 (List.mem_cons_of_mem _ hc1))
      exact ⟨s, b2, by simp only [PolygonizerTask.loopExit, hb]; exact hl⟩

/-- The loop over a list of candidates followed by more candidates: the
second part is run only when the first is left normally. -/
theorem PolygonizerTask.loopExit_append (Contains : kml.Region → m2.PointD → Bool)
    (containsThrows : kml.Region → m2.PointD → Bool)
    (appendThrows : FeatureOutT → FeatureBuilder1 → Bool) (fb : FeatureBuilder1)
    (pre rest : List Nat) (p : Polygonizer) :
    PolygonizerTask.loopExit Contains containsThrows appendThrows fb (pre ++ rest) p
      = match PolygonizerTask.loopExit Contains containsThrows appendThrows fb pre p with
        | .error e => .error e
        | .ok (p1, true) => .ok (p1, true)
        | .ok (p1, false) =>
          PolygonizerTask.loopExit Contains containsThrows appendThrows fb rest p1 := by
  induction pre generalizing p with
  | nil => rfl
  | cons c cs ih =>
    simp only [List.cons_append, PolygonizerTask.loopExit]
    cases hb : PolygonizerTask.bodyExit Contains containsThrows appendThrows p c fb with
    | error e => rfl
    | ok r =>
      obtain ⟨r1, b⟩ := r
      cases b with
      | true => rfl
      | false => exact ih r1

/-- The claim C12 fails on `run()`. The polygonizer constructed on the two
regions has four permits; the dispatch of `featureY` admits a slow-path task
and leaves three. When the containment primitive throws at the true point of
the feature, `run()` is left by the exception in the state it was started on:
three permits, not four. When the bucket of `B` throws, `run()` is left by the
exception after the emission to `A`, again with three permits. The permit is
not returned on every exit path. -/
theorem C12_permit_not_released_on_failure :
    Polygonizer.new (some Scenario.countries) 1 = some Scenario.start
    ∧ Scenario.start.m_ThreadPoolSemaphore = 4
    ∧ Scenario.start.call Scenario.noWorld Scenario.featureY = .ok Scenario.queuedY
    ∧ Scenario.queuedY.m_ThreadPool = [({ m_Countries := [0, 1], m_FB := Scenario.featureY }, 0)]
    ∧ PolygonizerTask.runExit Scenario.inRectangle Scenario.containsThrowsAtNine
        Scenario.neverThrows { m_Countries := [0, 1], m_FB := Scenario.featureY } Scenario.queuedY
        = .ok (Scenario.queuedY, true)
    ∧ Scenario.queuedY.m_ThreadPoolSemaphore = 3
    ∧ PolygonizerTask.runExit Scenario.inRectangle Scenario.neverThrows
        Scenario.appendThrowsInB { m_Countries := [0, 1], m_FB := Scenario.featureY }
        Scenario.queuedY
        = .ok (Scenario.thrownInB, true)
    ∧ Scenario.thrownInB.m_ThreadPoolSemaphore = 3
    ∧ ¬ (∀ (containsThrows : kml.Region → m2.PointD → Bool)
          (appendThrows : FeatureOutT → FeatureBuilder1 → Bool) (q1 : Polygonizer)
          (thrown : Bool),
          PolygonizerTask.runExit Scenario.inRectangle containsThrows appendThrows
              { m_Countries := [0, 1], m_FB := Scenario.featureY } Scenario.queuedY
            = .ok (q1, thrown) →
          q1.m_ThreadPoolSemaphore = Scenario.start.m_ThreadPoolSemaphore) := by
  refine ⟨rfl, rfl, rfl, rfl, by rfl, rfl, by rfl, rfl, fun h => ?_⟩
  have h1 := h Scenario.containsThrowsAtNine Scenario.neverThrows Scenario.queuedY true (by rfl)
  exact absurd h1 (by decide)

/-- Claim C12, amended. `run()` with collaborators that can throw (the
containment primitive and the call of an output bucket) returns the permit
exactly when it is left normally: on a normal exit the number of available
permits is one more than when the task started, that is, the number before
the task was admitted; on an exit by an exception it is the number the task
started with, the permit is not returned. When no collaborator throws, `run()`
with exits is `run()`, and on a registry that satisfies its invariant, with
candidate pointers into the catalog, it returns with the permit given back
once and the pool unchanged. On such a registry `run()` is always left, one
way or the other. An exception in any iteration, the last one included, leaves
`run()` at once, in the state in which the iteration is left and without the
release. -/
theorem C12_permit_released_on_normal_exit (Contains : kml.Region → m2.PointD → Bool)
    (containsThrows : kml.Region → m2.PointD → Bool)
    (appendThrows : FeatureOutT → FeatureBuilder1 → Bool) (t : PolygonizerTask)
    (q : Polygonizer) :
    (∀ q1 thrown, t.runExit Contains containsThrows appendThrows q = .ok (q1, thrown) →
        q1.m_ThreadPoolSemaphore = q.m_ThreadPoolSemaphore + (if thrown = true then 0 else 1)
        ∧ q1.m_ThreadPool = q.m_ThreadPool
        ∧ (thrown = false → t.run Contains q = .ok q1))
    ∧ ((∀ rgn pt, containsThrows rgn pt = false) → (∀ b fb, appendThrows b fb = false) →
        t.runExit Contains containsThrows appendThrows q
          = match t.run Contains q with
            | .ok q1 => .ok (q1, false)
            | .error e => .error e)
    ∧ (q.Inv → (∀ c ∈ t.m_Countries, c < q.m_countries.length) →
        (∃ q1 thrown, t.runExit Contains containsThrows appendThrows q = .ok (q1, thrown))
        ∧ ((∀ rgn pt, containsThrows rgn pt = false) → (∀ b fb, appendThrows b fb = false) →
            ∃ q1, t.run Contains q = .ok q1
              ∧ t.runExit Contains containsThrows appendThrows q = .ok (q1, false)
              ∧ q1.m_ThreadPoolSemaphore = q.m_ThreadPoolSemaphore + 1
              ∧ q1.m_ThreadPool = q.m_ThreadPool))
    ∧ (∀ (pre : List Nat) (c : Nat) (post : List Nat) (q1 q2 : Polygonizer),
        t.m_Countries = pre ++ c :: post →
        PolygonizerTask.loopExit Contains containsThrows appendThrows t.m_FB pre q
          = .ok (q1, false) →
        PolygonizerTask.bodyExit Contains containsThrows appendThrows q1 c t.m_FB
          = .ok (q2, true) →
        t.runExit Contains containsThrows appendThrows q = .ok (q2, true)
        ∧ q2.m_ThreadPoolSemaphore = q.m_ThreadPoolSemaphore) := by
  have hnever : (∀ rgn pt, containsThrows rgn pt = false) → (∀ b fb, appendThrows b fb = false) →
      t.runExit Contains containsThrows appendThrows q
        = match t.run Contains q with
          | .ok q1 => .ok (q1, false)
          | .error e => .error e := by
    intro hc ha
    unfold PolygonizerTask.runExit PolygonizerTask.run PolygonizerTask.runFrom
    rw [PolygonizerTask.loopExit_never Contains containsThrows appendThrows hc ha, List.drop_zero]
    cases PolygonizerTask.loop Contains t.m_FB t.m_Countries q with
    | error e => rfl
    | ok r => rfl
  have hthrown : ∀ (pre : List Nat) (c : Nat) (post : List Nat) (q1 q2 : Polygonizer),
      t.m_Countries = pre ++ c :: post →
      PolygonizerTask.loopExit Contains containsThrows appendThrows t.m_FB pre q
        = .ok (q1, false) →
      PolygonizerTask.bodyExit Contains containsThrows appendThrows q1 c t.m_FB
        = .ok (q2, true) →
      t.runExit Contains containsThrows appendThrows q = .ok (q2, true)
      ∧ q2.m_ThreadPoolSemaphore = q.m_ThreadPoolSemaphore := by
    intro pre c post q1 q2 hcs hpre hbody
    have hrun : t.runExit Contains containsThrows appendThrows q = .ok (q2, true) := by
      unfold PolygonizerTask.runExit
      rw [hcs, PolygonizerTask.loopExit_append, hpre]
      simp only [PolygonizerTask.loopExit, hbody]
    obtain ⟨h1, -, -⟩ := PolygonizerTask.loopExit_ok Contains containsThrows appendThrows
      t.m_FB pre q q1 false hpre
    obtain ⟨h2, -, -⟩ := PolygonizerTask.bodyExit_ok Contains containsThrows appendThrows
      q1 q2 c t.m_FB true hbody
    exact ⟨hrun, h2.trans h1⟩
  refine ⟨?_, hnever, ?_, hthrown⟩
  · intro q1 thrown h
    unfold PolygonizerTask.runExit at h
    cases hl : PolygonizerTask.loopExit Contains containsThrows appendThrows t.m_FB
        t.m_Countries q with
    | error e => simp [hl] at h
    | ok r =>
      obtain ⟨r1, b⟩ := r
      obtain ⟨h1, h2, h3⟩ := PolygonizerTask.loopExit_ok Contains containsThrows appendThrows
        t.m_FB t.m_Countries q r1 b hl
      cases b with
      | true =>
        simp only [hl] at h
        cases h
        exact ⟨by simp [h1], h2, fun hf => by simp at hf⟩
      | false =>
        simp only [hl] at h
        cases h
        refine ⟨by simp [h1], h2, fun _ => ?_⟩
        simp only [PolygonizerTask.run, PolygonizerTask.runFrom, List.drop_zero, h3 rfl]
  · intro hinv hcs
    constructor
    · obtain ⟨s, b, hl⟩ := PolygonizerTask.loopExit_total Contains containsThrows appendThrows
        t.m_FB t.m_Countries q hinv hcs
      cases b with
      | true => exact ⟨s, true, by simp only [PolygonizerTask.runExit, hl]⟩
      | false =>
        exact ⟨{ s with m_ThreadPoolSemaphore := s.m_ThreadPoolSemaphore + 1 }, false,
          by simp only [PolygonizerTask.runExit, hl]⟩
    · intro hc ha
      obtain ⟨q1, hr, -, -, hpool, hsem, -⟩ :=
        PolygonizerTask.runFrom_spec Contains t 0 q hinv hcs
      have hr2 : t.run Contains q = .ok q1 := hr
      refine ⟨q1, hr2, ?_, hsem, hpool⟩
      rw [hnever hc ha, hr2]

end feature
